import Mathlib

/-!
# Version resolution core of `scaf` (package `internal/resolver`)

A shallow embedding of `version.go`, of the five source adapters (`hangar.go`,
`modrinth.go`, `papermc.go`, `s3.go`, `url.go`) and of the registry of
`resolver.go`: first the definitions, then the theorems that settle the
specification claims.

Go `string` values are Lean `String`s; the character-level functions work on
`String.data`.  Go functions returning `(T, error)` return `Except`.

Three things the package calls are not part of the repository and are modelled
here, each in its own namespace:

* `GoStrings`, `GoStrconv`, `GoRegexp`: the few functions of the Go standard
  library that are used (`strings.TrimPrefix`, `strings.Split`,
  `strconv.ParseUint`, a backtracking matcher with the leftmost-first semantics of
  package `regexp`, ...).
* `GoSort`: `sort.Slice`, taken through its documented contract.
* `semver`: `github.com/Masterminds/semver/v3` (the `NewVersion`, `NewConstraint`,
  `Check`, `Compare` of release 3.4.0).
-/

set_option autoImplicit false

/-! ## Go standard library: `strings`, `strconv` -/

namespace GoStrings

/-- Go `strings.TrimPrefix(s, p)`: `s` without the leading `p`, or `s` itself when
`s` does not start with `p`. -/
def TrimPrefix (s p : List Char) : List Char :=
  if p.isPrefixOf s then s.drop p.length else s

/-- Go `strings.ContainsAny(s, chars)`: some character of `chars` occurs in `s`. -/
def ContainsAny (s chars : List Char) : Bool :=
  s.any (fun c => chars.contains c)

/-- Loop of `Split`: `skip` counts the characters of a separator that was just
recognised and still has to be consumed, `cur` is the current piece, reversed. -/
def splitAux (sep : List Char) : Nat → List Char → List Char → List (List Char)
  | _, [], cur => [cur.reverse]
  | skip + 1, _ :: cs, cur => splitAux sep skip cs cur
  | 0, c :: cs, cur =>
    if sep.isPrefixOf (c :: cs) then cur.reverse :: splitAux sep (sep.length - 1) cs []
    else splitAux sep 0 cs (c :: cur)

/-- Go `strings.Split(s, sep)` for a non-empty separator: the pieces of `s` between
the non-overlapping occurrences of `sep`, from the left; always at least one piece. -/
def Split (s sep : List Char) : List (List Char) :=
  splitAux sep 0 s []

/-- Go `strings.Contains(s, sub)`. -/
def Contains : List Char → List Char → Bool
  | [], sub => sub.isEmpty
  | c :: cs, sub => sub.isPrefixOf (c :: cs) || Contains cs sub

/-- Loop of `replaceN`: `n` is the number of replacements still allowed (`none` for
no limit), `skip` the characters of a recognised occurrence still to be dropped. -/
def replaceAux (old new : List Char) : Option Nat → Nat → List Char → List Char
  | _, _, [] => []
  | n, skip + 1, _ :: cs => replaceAux old new n skip cs
  | some 0, 0, c :: cs => c :: cs
  | n, 0, c :: cs =>
    if old.isPrefixOf (c :: cs) then
      new ++ replaceAux old new (n.map (· - 1)) (old.length - 1) cs
    else c :: replaceAux old new n 0 cs

/-- Go `strings.ReplaceAll(s, old, new)` for a non-empty `old`. -/
def ReplaceAll (s old new : List Char) : List Char :=
  replaceAux old new none 0 s

/-- Go `strings.Replace(s, old, new, 1)` for a non-empty `old`: only the first
occurrence is replaced. -/
def ReplaceFirst (s old new : List Char) : List Char :=
  replaceAux old new (some 1) 0 s

/-- Go comparison `s < o` of two strings (byte-wise, which for UTF-8 is the order
of the code points). -/
def less : List Char → List Char → Bool
  | [], [] => false
  | [], _ :: _ => true
  | _ :: _, [] => false
  | a :: as, b :: bs =>
    if a.toNat < b.toNat then true
    else if b.toNat < a.toNat then false
    else less as bs

end GoStrings

namespace GoStrconv

/-- Value of a decimal digit character. -/
def digitVal (c : Char) : Nat := c.toNat - 48

/-- The ASCII digits `0` to `9`. -/
def isDigit (c : Char) : Bool := decide (48 ≤ c.toNat) && decide (c.toNat ≤ 57)

/-- Decimal value of a digit string, most significant digit first. -/
def decimal (s : List Char) : Nat :=
  s.foldl (fun acc c => 10 * acc + digitVal c) 0

/-- Go `strconv.ParseUint(s, 10, 64)`: fails on the empty string, on any character
that is not a decimal digit, and on a value that does not fit 64 bits. -/
def ParseUint (s : List Char) : Option Nat :=
  if s.isEmpty then none
  else if s.all isDigit then
    (if decimal s < 2 ^ 64 then some (decimal s) else none)
  else none

end GoStrconv

/-! ## Go standard library: `regexp`

Package `regexp` returns, among the matches that start leftmost, the one a
backtracking search finds first.  `Re.run` is that backtracking search, written
with a success continuation; the patterns below use no other construct than the
ones of `Re`. -/

namespace GoRegexp

/-- Regular expressions, as far as the patterns of this development need them. -/
inductive Re where
  /-- The empty pattern. -/
  | eps : Re
  /-- One character of a class. -/
  | cls : (Char → Bool) → Re
  /-- Concatenation. -/
  | seq : Re → Re → Re
  /-- Alternation; the left alternative is preferred. -/
  | alt : Re → Re → Re
  /-- Greedy `r?`. -/
  | opt : Re → Re
  /-- Greedy `r*`. -/
  | star : Re → Re
  /-- Capturing group with its number. -/
  | grp : Nat → Re → Re
  /-- End of text, `$`. -/
  | eos : Re

/-- Captured groups, most recent first. -/
abbrev Caps := List (Nat × List Char)

/-- Text of group `n`; a group that took no part in the match is empty, as in
`FindStringSubmatch`. -/
def group (c : Caps) (n : Nat) : List Char :=
  match c.find? (fun e => e.1 == n) with
  | some e => e.2
  | none => []

/-- Iteration of a greedy star: another round of `m` is tried first, and only a
round that consumed input is continued; the first argument bounds the number of
rounds by the length of the remaining text. -/
def starLoop {R : Type} (m : List Char → Caps → (List Char → Caps → Option R) → Option R) :
    Nat → List Char → Caps → (List Char → Caps → Option R) → Option R
  | 0, s, c, k => k s c
  | n + 1, s, c, k =>
    match m s c (fun s1 c1 => if s1.length < s.length then starLoop m n s1 c1 k else none) with
    | some r => some r
    | none => k s c

/-- Backtracking match of `r` at the start of `s`; `k` receives the rest of the text
and the captures, and a failing `k` makes the search try the next possibility. -/
def Re.run {R : Type} : Re → List Char → Caps → (List Char → Caps → Option R) → Option R
  | .eps, s, c, k => k s c
  | .cls p, s, c, k =>
    match s with
    | [] => none
    | a :: t => if p a then k t c else none
  | .seq r1 r2, s, c, k => r1.run s c (fun s1 c1 => r2.run s1 c1 k)
  | .alt r1 r2, s, c, k =>
    match r1.run s c k with
    | some r => some r
    | none => r2.run s c k
  | .opt r, s, c, k =>
    match r.run s c k with
    | some r => some r
    | none => k s c
  | .star r, s, c, k => starLoop r.run s.length s c k
  | .grp n r, s, c, k =>
    r.run s c (fun s1 c1 => k s1 ((n, s.take (s.length - s1.length)) :: c1))
  | .eos, s, c, k =>
    match s with
    | [] => k [] c
    | _ :: _ => none

/-- The literal character `a`. -/
def Re.chr (a : Char) : Re := .cls (fun c => c == a)

/-- Greedy `r+`. -/
def Re.plus (r : Re) : Re := .seq r (.star r)

/-- Concatenation of a list of patterns. -/
def Re.cat : List Re → Re
  | [] => .eps
  | [r] => r
  | r :: rs => .seq r (Re.cat rs)

/-- Ordered alternation of the literal strings `ws`. -/
def Re.words : List (List Char) → Re
  | [] => .cls (fun _ => false)
  | [w] => Re.cat (w.map Re.chr)
  | w :: ws => .alt (Re.cat (w.map Re.chr)) (Re.words ws)

/-- The class `\d`. -/
def digit : Re := .cls GoStrconv.isDigit

/-- The class `\s`, that is `[\t\n\f\r ]`. -/
def space : Re :=
  .cls (fun c => c == '\t' || c == '\n' || c == Char.ofNat 12 || c == '\r' || c == ' ')

/-- A match of a pattern: the matched text (group 0), the text after it, and the
captured groups. -/
structure Match where
  /-- The matched text. -/
  text : List Char
  /-- The text after the match. -/
  rest : List Char
  /-- The captured groups. -/
  caps : Caps

/-- Match of `r` starting exactly at the beginning of `s` (a pattern that begins
with `^`). -/
def matchAt (r : Re) (s : List Char) : Option Match :=
  r.run s [] (fun s1 c => some ⟨s.take (s.length - s1.length), s1, c⟩)

/-- Leftmost match of an unanchored pattern: `(skipped, m)` where `skipped` is the
text before the match. -/
def search (r : Re) : List Char → Option (List Char × Match)
  | [] => (matchAt r []).map (fun m => ([], m))
  | a :: t =>
    match matchAt r (a :: t) with
    | some m => some ([], m)
    | none => (search r t).map (fun p => (a :: p.1, p.2))

/-- Loop of `findAll`; the first argument bounds the number of matches by the
length of the text (every match is non-empty, so the search for the next one starts
where the previous one ended). -/
def findAllAux (r : Re) : Nat → List Char → List Match
  | 0, _ => []
  | n + 1, s =>
    match search r s with
    | none => []
    | some (_, m) => m :: findAllAux r n m.rest

/-- All successive non-overlapping matches of a pattern that matches no empty text
(`FindAllString(s, -1)`, `FindAllStringSubmatch(s, -1)`). -/
def findAll (r : Re) (s : List Char) : List Match :=
  findAllAux r (s.length + 1) s

end GoRegexp

/-! ## Go standard library: `error`, `sort.Slice` -/

/-- Go `error` values: the sentinel errors of `semver`, and `fmt.Errorf` calls kept
as their format string, their string arguments and, for a format with `%w`, the
error they wrap. -/
inductive GoError where
  /-- `semver.ErrInvalidSemVer`. -/
  | ErrInvalidSemVer : GoError
  /-- `semver.ErrSegmentStartsZero`. -/
  | ErrSegmentStartsZero : GoError
  /-- `semver.ErrInvalidPrerelease`. -/
  | ErrInvalidPrerelease : GoError
  /-- `semver.ErrInvalidMetadata`. -/
  | ErrInvalidMetadata : GoError
  /-- `fmt.Errorf(format, args...)` with string arguments only. -/
  | errorf (format : String) (args : List String) : GoError
  /-- `fmt.Errorf(format, args..., cause)` where the format ends in `%w`. -/
  | wrap (format : String) (args : List String) (cause : GoError) : GoError
  deriving DecidableEq

deriving instance DecidableEq for Except

namespace GoSort

/-- The requirement of `sort.Slice` on its `less` function (that of
`sort.Interface.Less`: a transitive ordering, in both the positive and the negative
sense), on the elements that are sorted. -/
def IsOrdering {α : Type} (less : α → α → Bool) (l : List α) : Prop :=
  (∀ a ∈ l, less a a = false) ∧
  (∀ a ∈ l, ∀ b ∈ l, ∀ c ∈ l, less a b = true → less b c = true → less a c = true) ∧
  (∀ a ∈ l, ∀ b ∈ l, ∀ c ∈ l, less a b = false → less b c = false → less a c = false)

/-- Go `sort.Slice`, through its contract: the result is a rearrangement of the
slice, and when `less` is an ordering no element is `less` than one placed before
it.  The sort is not stable, so nothing is said about the order of elements that
compare equal. -/
structure Slice where
  /-- The sorting function. -/
  sort : {α : Type} → (α → α → Bool) → List α → List α
  /-- The result is a permutation of the input. -/
  perm : ∀ {α : Type} (less : α → α → Bool) (l : List α), (sort less l).Perm l
  /-- The result is sorted when `less` is an ordering. -/
  sorted : ∀ {α : Type} (less : α → α → Bool) (l : List α), IsOrdering less l →
    (sort less l).Pairwise (fun a b => less b a = false)

/-- One pass of `insertionSortLessFunc`: `x` moves towards the front (the head of
the reversed prefix `revPrefix`) as long as it is `less` than its neighbour. -/
def insertBack {α : Type} (less : α → α → Bool) (x : α) : List α → List α
  | [] => [x]
  | y :: ys => if less x y then y :: insertBack less x ys else x :: y :: ys

/-- The insertion sort that `sort.Slice` runs on short slices (at most 12
elements); the sorted prefix is kept reversed. -/
def insertionSort {α : Type} (less : α → α → Bool) (l : List α) : List α :=
  (l.foldl (fun revPrefix x => insertBack less x revPrefix) []).reverse

end GoSort

/-! ## `github.com/Masterminds/semver/v3`: versions (`version.go`) -/

namespace semver
open GoRegexp GoStrings GoStrconv

/-- The struct `Version`. -/
structure Version where
  /-- Major number. -/
  major : Nat
  /-- Minor number. -/
  minor : Nat
  /-- Patch number. -/
  patch : Nat
  /-- Prerelease, without the leading hyphen; empty for a release. -/
  pre : String
  /-- Build metadata, without the leading plus sign. -/
  metadata : String
  /-- The string that was parsed. -/
  original : String
  deriving DecidableEq

/-- The class `[0-9A-Za-z\-]`; also the characters of the constant `allowed`. -/
def isAllowed (c : Char) : Bool :=
  isDigit c || (decide (65 ≤ c.toNat) && decide (c.toNat ≤ 90)) ||
    (decide (97 ≤ c.toNat) && decide (c.toNat ≤ 122)) || c == '-'

/-- The pattern `([0-9A-Za-z\-]+(\.[0-9A-Za-z\-]+)*)` with groups `g` and `g + 1`. -/
def identsRe (g : Nat) : Re :=
  .grp g (.seq (Re.plus (.cls isAllowed))
    (.star (.grp (g + 1) (.seq (Re.chr '.') (Re.plus (.cls isAllowed))))))

/-- The common tail of `looseSemVerRegex` and `cvRegex`,
`(-([0-9A-Za-z\-]+(\.[0-9A-Za-z\-]+)*))?(\+([0-9A-Za-z\-]+(\.[0-9A-Za-z\-]+)*))?`,
with groups `g` to `g + 5`. -/
def tailRe (g : Nat) : Re :=
  .seq (.opt (.grp g (.seq (Re.chr '-') (identsRe (g + 1)))))
    (.opt (.grp (g + 3) (.seq (Re.chr '+') (identsRe (g + 4)))))

/-- The pattern `looseVersionRegex`, that is `^` + `looseSemVerRegex` + `$` with
`looseSemVerRegex = v?([0-9]+)(\.[0-9]+)?(\.[0-9]+)?` followed by the tail of
`tailRe 4`. -/
def looseVersionRegex : Re :=
  Re.cat [.opt (Re.chr 'v'), .grp 1 (Re.plus digit),
    .opt (.grp 2 (.seq (Re.chr '.') (Re.plus digit))),
    .opt (.grp 3 (.seq (Re.chr '.') (Re.plus digit))),
    tailRe 4, .eos]

/-- The loop of `validatePrerelease` over the dot separated parts. -/
def validatePrereleaseParts : List (List Char) → Except GoError Unit
  | [] => .ok ()
  | p :: rest =>
    if p.isEmpty then .error .ErrInvalidPrerelease
    else if p.all isDigit then
      (if decide (1 < p.length) && p.head? == some '0' then .error .ErrSegmentStartsZero
       else validatePrereleaseParts rest)
    else if !p.all isAllowed then .error .ErrInvalidPrerelease
    else validatePrereleaseParts rest

/-- The function `validatePrerelease`: no part is empty, a numeric part has no
leading zero, the other parts consist of allowed characters. -/
def validatePrerelease (p : List Char) : Except GoError Unit :=
  validatePrereleaseParts (Split p ['.'])

/-- The loop of `validateMetadata` over the dot separated parts. -/
def validateMetadataParts : List (List Char) → Except GoError Unit
  | [] => .ok ()
  | p :: rest =>
    if p.isEmpty then .error .ErrInvalidMetadata
    else if !p.all isAllowed then .error .ErrInvalidMetadata
    else validateMetadataParts rest

/-- The function `validateMetadata`. -/
def validateMetadata (m : List Char) : Except GoError Unit :=
  validateMetadataParts (Split m ['.'])

/-- A version segment of `coerceNewVersion`: `strconv.ParseUint` with its error
wrapped. -/
def parseSegment (s : List Char) : Except GoError Nat :=
  match ParseUint s with
  | some n => .ok n
  | none => .error (.errorf "error parsing version segment: %w" [String.mk s])

/-- The function `NewVersion` (with `CoerceNewVersion` at its default `true`, that is
`coerceNewVersion`): the lenient parser.  An optional `v`, one to three numeric
segments (missing ones are 0), an optional prerelease and optional build metadata. -/
def NewVersion (v : List Char) : Except GoError Version :=
  match matchAt looseVersionRegex v with
  | none => .error .ErrInvalidSemVer
  | some m =>
    match parseSegment (group m.caps 1) with
    | .error err => .error err
    | .ok major =>
      match (if group m.caps 2 ≠ [] then parseSegment ((group m.caps 2).drop 1) else .ok 0) with
      | .error err => .error err
      | .ok minor =>
        match (if group m.caps 3 ≠ [] then parseSegment ((group m.caps 3).drop 1)
               else .ok 0) with
        | .error err => .error err
        | .ok patch =>
          match (if group m.caps 5 ≠ [] then validatePrerelease (group m.caps 5)
                 else .ok ()) with
          | .error err => .error err
          | .ok _ =>
            match (if group m.caps 8 ≠ [] then validateMetadata (group m.caps 8)
                   else .ok ()) with
            | .error err => .error err
            | .ok _ =>
              .ok { major := major, minor := minor, patch := patch,
                    pre := String.mk (group m.caps 5), metadata := String.mk (group m.caps 8),
                    original := String.mk v }

/-- The function `compareSegment`. -/
def compareSegment (v o : Nat) : Int :=
  if v < o then -1 else if v > o then 1 else 0

/-- The function `comparePrePart`: an empty part is lowest, numbers are lower than
other parts, numbers compare by value and other parts as strings. -/
def comparePrePart (s o : List Char) : Int :=
  if s = o then 0
  else if s = [] then (if o ≠ [] then -1 else 1)
  else if o = [] then (if s ≠ [] then 1 else -1)
  else
    match ParseUint o, ParseUint s with
    | none, none => if less o s then 1 else -1
    | none, some _ => -1
    | some _, none => 1
    | some oi, some si => if si > oi then 1 else -1

/-- The loop of `comparePrerelease`: the first argument is the number of rounds
left, the lists are the parts of both prereleases from the current index on; where
one has no part left the part is the empty string. -/
def comparePrereleaseLoop : Nat → List (List Char) → List (List Char) → Int
  | 0, _, _ => 0
  | n + 1, sparts, oparts =>
    if comparePrePart (sparts.headD []) (oparts.headD []) ≠ 0 then
      comparePrePart (sparts.headD []) (oparts.headD [])
    else comparePrereleaseLoop n sparts.tail oparts.tail

/-- The body of `comparePrerelease` on the split prereleases: as many rounds as the
longer one has parts. -/
def comparePrereleaseParts (sparts oparts : List (List Char)) : Int :=
  comparePrereleaseLoop (max sparts.length oparts.length) sparts oparts

/-- The function `comparePrerelease`. -/
def comparePrerelease (v o : String) : Int :=
  comparePrereleaseParts (Split v.data ['.']) (Split o.data ['.'])

/-- The method `Version.Compare`: -1, 0 or 1; the metadata plays no part. -/
def Version.Compare (v o : Version) : Int :=
  if compareSegment v.major o.major ≠ 0 then compareSegment v.major o.major
  else if compareSegment v.minor o.minor ≠ 0 then compareSegment v.minor o.minor
  else if compareSegment v.patch o.patch ≠ 0 then compareSegment v.patch o.patch
  else if v.pre = "" ∧ o.pre = "" then 0
  else if v.pre = "" then 1
  else if o.pre = "" then -1
  else comparePrerelease v.pre o.pre

/-- The method `Version.LessThan`. -/
def Version.LessThan (v o : Version) : Bool := decide (v.Compare o < 0)

/-- The method `Version.GreaterThan`. -/
def Version.GreaterThan (v o : Version) : Bool := decide (v.Compare o > 0)

/-- The method `Version.Equal` (both versions present). -/
def Version.Equal (v o : Version) : Bool := decide (v.Compare o = 0)

end semver

/-! ## `github.com/Masterminds/semver/v3`: constraints (`constraints.go`) -/

namespace semver
open GoRegexp GoStrings GoStrconv

/-- The struct `constraint`: one comparator with its version bound. -/
structure constraint where
  /-- The version used in the check. -/
  con : Version
  /-- The version as written in the constraint, for example `4.x`. -/
  orig : String
  /-- The operator as written. -/
  origfunc : String
  /-- The minor segment is missing or a wildcard. -/
  minorDirty : Bool
  /-- Some segment is missing or a wildcard. -/
  dirty : Bool
  /-- The patch segment is missing or a wildcard. -/
  patchDirty : Bool
  deriving DecidableEq

/-- The struct `Constraints`: a disjunction of conjunctions, and for each
conjunction whether one of its bounds carries a prerelease. -/
structure Constraints where
  /-- The groups, joined by `||`; the constraints of a group all have to hold. -/
  constraints : List (List constraint)
  /-- For each group, whether a constraint of the group has a prerelease. -/
  containsPre : List Bool
  /-- The field `IncludePrerelease`; `NewConstraint` leaves it `false`. -/
  IncludePrerelease : Bool
  deriving DecidableEq

/-- The class `[0-9|x|X|\*]` of `cvRegex`. -/
def isCvChar (c : Char) : Bool :=
  isDigit c || c == '|' || c == 'x' || c == 'X' || c == '*'

/-- The pattern `cvRegex`,
`v?([0-9|x|X|\*]+)(\.[0-9|x|X|\*]+)?(\.[0-9|x|X|\*]+)?` followed by the tail of
`tailRe`, with groups `g` to `g + 8`. -/
def cvRegex (g : Nat) : Re :=
  Re.cat [.opt (Re.chr 'v'), .grp g (Re.plus (.cls isCvChar)),
    .opt (.grp (g + 1) (.seq (Re.chr '.') (Re.plus (.cls isCvChar)))),
    .opt (.grp (g + 2) (.seq (Re.chr '.') (Re.plus (.cls isCvChar)))),
    tailRe (g + 3)]

/-- The alternation `ops`, in the order of the source:
`=||!=|>|<|>=|=>|<=|=<|~|~>|\^` (the second alternative is empty). -/
def opsRe : Re :=
  Re.words ["=".data, [], "!=".data, ">".data, "<".data, ">=".data, "=>".data,
    "<=".data, "=<".data, "~".data, "~>".data, "^".data]

/-- The pattern `constraintRegex`, `^\s*(ops)\s*(cvRegex)\s*$`. -/
def constraintRegex : Re :=
  Re.cat [.star space, .grp 1 opsRe, .star space, .grp 2 (cvRegex 3), .star space, .eos]

/-- The pattern `constraintRangeRegex`, `\s*(cvRegex)\s+-\s+(cvRegex)\s*`. -/
def constraintRangeRegex : Re :=
  Re.cat [.star space, .grp 1 (cvRegex 2), Re.plus space, Re.chr '-', Re.plus space,
    .grp 11 (cvRegex 12), .star space]

/-- The pattern `findConstraintRegex`, `(ops)\s*(cvRegex)`. -/
def findConstraintRegex : Re :=
  Re.cat [.grp 1 opsRe, .star space, .grp 2 (cvRegex 3)]

/-- The pattern `validConstraintRegex`,
`^(\s*(ops)\s*(cvRegex)\s*)((?:\s+|,\s*)(ops)\s*(cvRegex)\s*)*$`. -/
def validConstraintRegex : Re :=
  Re.cat [.grp 1 (Re.cat [.star space, .grp 2 opsRe, .star space, .grp 3 (cvRegex 4),
      .star space]),
    .star (.grp 13 (Re.cat [.alt (Re.plus space) (.seq (Re.chr ',') (.star space)),
      .grp 14 opsRe, .star space, .grp 15 (cvRegex 16), .star space])),
    .eos]

/-- The function `isX`. -/
def isX (x : List Char) : Bool :=
  x == ['x'] || x == ['*'] || x == ['X']

/-- The function `parseConstraint`: operator and version bound of one comparator.
A missing or wildcard segment makes the constraint dirty and reads as 0 in the
bound; the bound keeps the prerelease and drops the metadata. -/
def parseConstraint (c : List Char) : Except GoError constraint :=
  if 0 < c.length then
    match matchAt constraintRegex c with
    | none => .error (.errorf "improper constraint: %s" [String.mk c])
    | some mt =>
      let m := group mt.caps
      let r : List Char × Bool × Bool × Bool :=
        if isX (m 3) || m 3 == [] then
          ("0.0.0".data ++ m 6, false, false, true)
        else if isX (TrimPrefix (m 4) ['.']) || m 4 == [] then
          (m 3 ++ ".0.0".data ++ m 6, true, false, true)
        else if isX (TrimPrefix (m 5) ['.']) || m 5 == [] then
          (m 3 ++ m 4 ++ ".0".data ++ m 6, false, true, true)
        else (m 2, false, false, false)
      match NewVersion r.1 with
      | .error _ => .error (.errorf "constraint parser error" [])
      | .ok con =>
        .ok { con := con, orig := String.mk (m 2), origfunc := String.mk (m 1),
              minorDirty := r.2.1, patchDirty := r.2.2.1, dirty := r.2.2.2 }
  else
    .ok { con := { major := 0, minor := 0, patch := 0, pre := "", metadata := "",
                   original := "0.0.0" },
          orig := String.mk c, origfunc := "", minorDirty := false, patchDirty := false,
          dirty := true }

/-- The function `constraintNotEqual`. -/
def constraintNotEqual (v : Version) (c : constraint) (includePre : Bool) : Bool :=
  if v.pre ≠ "" ∧ !includePre then false
  else if c.dirty ∧ c.con.major ≠ v.major then true
  else if c.dirty ∧ c.con.minor ≠ v.minor ∧ !c.minorDirty then true
  else if c.dirty ∧ c.minorDirty then false
  else if c.dirty ∧ c.con.patch ≠ v.patch ∧ !c.patchDirty then true
  else if c.dirty ∧ c.patchDirty then
    (if v.pre ≠ "" ∨ c.con.pre ≠ "" then decide (comparePrerelease v.pre c.con.pre ≠ 0)
     else false)
  else !v.Equal c.con

/-- The function `constraintGreaterThan`. -/
def constraintGreaterThan (v : Version) (c : constraint) (includePre : Bool) : Bool :=
  if v.pre ≠ "" ∧ !includePre then false
  else if !c.dirty then decide (v.Compare c.con = 1)
  else if v.major > c.con.major then true
  else if v.major < c.con.major then false
  else if c.minorDirty then false
  else if c.patchDirty then decide (v.minor > c.con.minor)
  else decide (v.Compare c.con = 1)

/-- The function `constraintLessThan`. -/
def constraintLessThan (v : Version) (c : constraint) (includePre : Bool) : Bool :=
  if v.pre ≠ "" ∧ !includePre then false
  else decide (v.Compare c.con < 0)

/-- The function `constraintGreaterThanEqual`. -/
def constraintGreaterThanEqual (v : Version) (c : constraint) (includePre : Bool) : Bool :=
  if v.pre ≠ "" ∧ !includePre then false
  else decide (v.Compare c.con ≥ 0)

/-- The function `constraintLessThanEqual`. -/
def constraintLessThanEqual (v : Version) (c : constraint) (includePre : Bool) : Bool :=
  if v.pre ≠ "" ∧ !includePre then false
  else if !c.dirty then decide (v.Compare c.con ≤ 0)
  else if v.major > c.con.major then false
  else if v.major = c.con.major ∧ v.minor > c.con.minor ∧ !c.minorDirty then false
  else true

/-- The function `constraintTilde`: not below the bound, same major, and same minor
unless the minor is dirty; `~0.0.0` accepts everything. -/
def constraintTilde (v : Version) (c : constraint) (includePre : Bool) : Bool :=
  if v.pre ≠ "" ∧ !includePre then false
  else if v.LessThan c.con then false
  else if c.con.major = 0 ∧ c.con.minor = 0 ∧ c.con.patch = 0 ∧
      !c.minorDirty ∧ !c.patchDirty then true
  else if v.major ≠ c.con.major then false
  else if v.minor ≠ c.con.minor ∧ !c.minorDirty then false
  else true

/-- The function `constraintTildeOrEqual`: a dirty bound is a tilde range, a full
bound is an equality. -/
def constraintTildeOrEqual (v : Version) (c : constraint) (includePre : Bool) : Bool :=
  if v.pre ≠ "" ∧ !includePre then false
  else if c.dirty then constraintTilde v c includePre
  else v.Equal c.con

/-- The function `constraintCaret`. -/
def constraintCaret (v : Version) (c : constraint) (includePre : Bool) : Bool :=
  if v.pre ≠ "" ∧ !includePre then false
  else if v.LessThan c.con then false
  else if c.con.major > 0 ∨ c.minorDirty then decide (v.major = c.con.major)
  else if c.con.major = 0 ∧ v.major > 0 then false
  else if c.con.minor > 0 ∨ c.patchDirty then decide (v.minor = c.con.minor)
  else if c.con.minor = 0 ∧ v.minor > 0 then false
  else decide (c.con.patch = v.patch)

/-- The table `constraintOps`, applied: the method `constraint.check`.  The operator
of a parsed constraint is always one of the keys. -/
def constraint.check (c : constraint) (v : Version) (includePre : Bool) : Bool :=
  if c.origfunc = "" ∨ c.origfunc = "=" then constraintTildeOrEqual v c includePre
  else if c.origfunc = "!=" then constraintNotEqual v c includePre
  else if c.origfunc = ">" then constraintGreaterThan v c includePre
  else if c.origfunc = "<" then constraintLessThan v c includePre
  else if c.origfunc = ">=" ∨ c.origfunc = "=>" then constraintGreaterThanEqual v c includePre
  else if c.origfunc = "<=" ∨ c.origfunc = "=<" then constraintLessThanEqual v c includePre
  else if c.origfunc = "~" ∨ c.origfunc = "~>" then constraintTilde v c includePre
  else if c.origfunc = "^" then constraintCaret v c includePre
  else false

/-- The loop of `rewriteRange` over the matches of `constraintRangeRegex`. -/
def rewriteRangeLoop : List Match → List Char → List Char
  | [], o => o
  | m :: ms, o =>
    rewriteRangeLoop ms
      (ReplaceFirst o m.text
        (">= ".data ++ group m.caps 1 ++ ", <= ".data ++ group m.caps 11 ++ " ".data))

/-- The function `rewriteRange`: a hyphen range `a - b` becomes `>= a, <= b `. -/
def rewriteRange (i : List Char) : List Char :=
  rewriteRangeLoop (findAll constraintRangeRegex i) i

/-- The body of the loop of `NewConstraint` for one `||` segment: the constraints of
the segment and whether one of them has a prerelease. -/
def parseGroup (v : List Char) : Except GoError (List constraint × Bool) :=
  match matchAt validConstraintRegex v with
  | none => .error (.errorf "improper constraint: %s" [String.mk v])
  | some _ =>
    let found := (findAll findConstraintRegex v).map (fun m => m.text)
    let cs := if found.isEmpty then [v] else found
    match cs.mapM parseConstraint with
    | .error e => .error e
    | .ok result => .ok (result, result.any (fun pc => pc.con.pre ≠ ""))

/-- The function `NewConstraint`. -/
def NewConstraint (c : List Char) : Except GoError Constraints :=
  match (Split (rewriteRange c) "||".data).mapM parseGroup with
  | .error e => .error e
  | .ok groups =>
    .ok { constraints := groups.map (fun g => g.1), containsPre := groups.map (fun g => g.2),
          IncludePrerelease := false }

/-- The method `Constraints.Check`: some group has all its constraints satisfied;
prereleases are considered in a group when `IncludePrerelease` is set or a
constraint of the group has one. -/
def Constraints.Check (cs : Constraints) (v : Version) : Bool :=
  (cs.constraints.zip cs.containsPre).any
    (fun g => g.1.all (fun c => c.check v (cs.IncludePrerelease || g.2)))

end semver

/-! ## Package `resolver`: `version.go` -/

namespace resolver
open GoRegexp GoStrings GoStrconv

/-- The pattern of `ParseVersion`, `^(\d+\.\d+(?:\.\d+)?)`. -/
def numericRe : Re :=
  .grp 1 (Re.cat [Re.plus digit, Re.chr '.', Re.plus digit,
    .opt (.seq (Re.chr '.') (Re.plus digit))])

/-- The pattern of `ParseConstraint`, `^\d+\.\d+`. -/
def plainRe : Re :=
  Re.cat [Re.plus digit, Re.chr '.', Re.plus digit]

/-- `re.FindString(s)` for a pattern anchored at the start: the matched text, or the
empty string when there is no match. -/
def FindString (r : Re) (s : List Char) : List Char :=
  match matchAt r s with
  | some m => m.text
  | none => []

/-- `regexp.MatchString` for a pattern anchored at the start. -/
def MatchString (r : Re) (s : List Char) : Bool :=
  (matchAt r s).isSome

/-- The function `ParseVersion`: the leading `v` is removed and the rest is parsed
by `semver.NewVersion`; when that fails the leading `X.Y` or `X.Y.Z` found by the
pattern is parsed instead, and without such a match the first error is returned. -/
def ParseVersion (version : String) : Except GoError semver.Version :=
  let clean := TrimPrefix version.data ['v']
  match semver.NewVersion clean with
  | .error err =>
    if FindString numericRe clean ≠ [] then semver.NewVersion (FindString numericRe clean)
    else .error err
  | .ok v => .ok v

/-- The function `ParseConstraint`: no constraint (`none`, the nil pointer) for the
empty string and for `latest`; a string that starts like a plain version and has
none of the characters `=<>~^,| -` gets a leading `=`; the result is parsed by
`semver.NewConstraint`. -/
def ParseConstraint (constraint : String) : Except GoError (Option semver.Constraints) :=
  if constraint = "" ∨ constraint = "latest" then .ok none
  else
    let constraint :=
      if MatchString plainRe constraint.data ∧ !ContainsAny constraint.data "=<>~^,| -".data
      then "=" ++ constraint else constraint
    match semver.NewConstraint constraint.data with
    | .error e => .error e
    | .ok c => .ok (some c)

/-- The local type `versionPair` of `FilterVersions`. -/
structure versionPair where
  /-- The candidate as given. -/
  original : String
  /-- Its parsed version. -/
  parsed : semver.Version
  deriving DecidableEq

/-- The first loop of `FilterVersions`: the candidates that parse and satisfy the
constraint, in the order of the input; a candidate that does not parse is skipped. -/
def matchedPairs (c : semver.Constraints) : List String → List versionPair
  | [] => []
  | v :: rest =>
    match ParseVersion v with
    | .error _ => matchedPairs c rest
    | .ok sv =>
      if c.Check sv then { original := v, parsed := sv } :: matchedPairs c rest
      else matchedPairs c rest

/-- The function `FilterVersions`; `S` is `sort.Slice`. -/
def FilterVersions (S : GoSort.Slice) (versions : List String) (constraint : String) :
    Except GoError (List String) :=
  if constraint = "" ∨ constraint = "latest" then .ok versions
  else
    match ParseConstraint constraint with
    | .error err => .error err
    | .ok none => .ok versions
    | .ok (some c) =>
      let matched := matchedPairs c versions
      let matched := S.sort (fun a b => a.parsed.GreaterThan b.parsed) matched
      .ok (matched.map (fun v => v.original))

/-- The function `SelectBestVersion`; the empty string is the empty selection. -/
def SelectBestVersion (S : GoSort.Slice) (versions : List String) (constraint : String) :
    Except GoError String :=
  match versions with
  | [] => .ok ""
  | first :: _ =>
    if constraint = "" ∨ constraint = "latest" then .ok first
    else
      match FilterVersions S versions constraint with
      | .error err => .error err
      | .ok [] => .ok ""
      | .ok (best :: _) => .ok best

end resolver

/-! ## Package `resolver`: the adapters

The remote registries are inputs: each adapter holds, in place of its
`*http.Client`, what the registry answers to the request the adapter sends (the
decoded body, or the error of the transport, of a status other than 200 or of the
decoding).  `time.Now()` is an input as well. -/

namespace resolver
open GoStrings

/-- The struct `Result`. -/
structure Result where
  /-- Field `Source`. -/
  Source : String
  /-- Field `Project`. -/
  Project : String := ""
  /-- Field `Version`. -/
  Version : String
  /-- Field `Build`. -/
  Build : Int := 0
  /-- Field `Platform`. -/
  Platform : String := ""
  /-- Field `Loader`. -/
  Loader : String := ""
  /-- Field `URL`, the HTTP locator. -/
  URL : String := ""
  /-- Field `S3URI`, the storage locator. -/
  S3URI : String := ""
  /-- Field `SHA256`. -/
  SHA256 : String := ""
  /-- Field `SHA512`. -/
  SHA512 : String := ""
  /-- Field `ResolvedAt`. -/
  ResolvedAt : Nat
  deriving DecidableEq

/-- The struct `PluginConfig`. -/
structure PluginConfig where
  /-- Field `Source`. -/
  Source : String := ""
  /-- Field `Project`. -/
  Project : String := ""
  /-- Field `Version`, the constraint. -/
  Version : String := ""
  /-- Field `Platform`. -/
  Platform : String := ""
  /-- Field `Loader`. -/
  Loader : String := ""
  /-- Field `GameVersions`. -/
  GameVersions : List String := []
  /-- Field `Bucket`. -/
  Bucket : String := ""
  /-- Field `Key`. -/
  Key : String := ""
  /-- Field `URL`. -/
  URL : String := ""
  deriving DecidableEq

/-- What a call of `Resolve` does: it returns a result, returns an error, or
dereferences a nil pointer. -/
inductive Outcome where
  /-- Return of `(result, nil)`. -/
  | ok (r : Result) : Outcome
  /-- Return of `(nil, err)`. -/
  | error (e : GoError) : Outcome
  /-- Run-time panic: nil pointer dereference. -/
  | panic : Outcome
  deriving DecidableEq

/-- The struct `FileInfo` of `hangarDownload`. -/
structure hangarFileInfo where
  /-- Field `Name`. -/
  Name : String := ""
  /-- Field `SizeBytes`. -/
  SizeBytes : Int := 0
  /-- Field `SHA256Hash`. -/
  SHA256Hash : String := ""
  deriving DecidableEq

/-- The struct `hangarDownload`; the default is the zero value. -/
structure hangarDownload where
  /-- Field `FileInfo`. -/
  FileInfo : hangarFileInfo := {}
  /-- Field `DownloadURL`. -/
  DownloadURL : String := ""
  deriving DecidableEq

/-- The struct `hangarVersion`; the map `Downloads` is a list of entries, looked up
by key. -/
structure hangarVersion where
  /-- Field `Name`. -/
  Name : String
  /-- Field `Downloads`, from platform to download. -/
  Downloads : List (String × hangarDownload)
  deriving DecidableEq

/-- The struct `hangarVersionsResponse` (the pagination fields are count, limit and
offset). -/
structure hangarVersionsResponse where
  /-- Field `Pagination`. -/
  Pagination : Int × Int × Int := (0, 0, 0)
  /-- Field `Result`. -/
  Result : List hangarVersion
  deriving DecidableEq

/-- The struct `HangarResolver`: `client` is the answer of the versions endpoint
(first page, limit 100) for a project. -/
structure HangarResolver where
  /-- The registry behind the HTTP client. -/
  client : String → Except GoError hangarVersionsResponse
  /-- The clock. -/
  now : Nat

/-- The method `HangarResolver.fetchVersions`. -/
def HangarResolver.fetchVersions (h : HangarResolver) (project : String) :
    Except GoError (List hangarVersion) :=
  match h.client project with
  | .error err => .error err
  | .ok data => .ok data.Result

/-- The method `HangarResolver.Resolve`. -/
def HangarResolver.Resolve (S : GoSort.Slice) (h : HangarResolver) (cfg : PluginConfig) :
    Outcome :=
  let platform := if cfg.Platform = "" then "VELOCITY" else cfg.Platform
  match h.fetchVersions cfg.Project with
  | .error err => .error (.wrap "fetching versions: %w" [] err)
  | .ok versions =>
    let available := versions.filter (fun v => (v.Downloads.lookup platform).isSome)
    if available.length = 0 then
      .error (.errorf "no versions found for %s on %s" [cfg.Project, platform])
    else
      let versionStrings := available.map (fun v => v.Name)
      match SelectBestVersion S versionStrings cfg.Version with
      | .error err => .error (.wrap "selecting version: %w" [] err)
      | .ok selectedVersion =>
        if selectedVersion = "" then
          .error (.errorf "no version of %s matches constraint %q" [cfg.Project, cfg.Version])
        else
          match available.find? (fun v => v.Name = selectedVersion) with
          | none => .panic
          | some selected =>
            let download := (selected.Downloads.lookup platform).getD {}
            .ok { Source := "hangar", Project := cfg.Project, Version := selected.Name,
                  Platform := platform, URL := download.DownloadURL,
                  SHA256 := download.FileInfo.SHA256Hash, ResolvedAt := h.now }

/-- The struct `Hashes` of `modrinthFile`. -/
structure modrinthHashes where
  /-- Field `SHA512`. -/
  SHA512 : String := ""
  /-- Field `SHA256`. -/
  SHA256 : String := ""
  deriving DecidableEq

/-- The struct `modrinthFile`; the default is the zero value. -/
structure modrinthFile where
  /-- Field `URL`. -/
  URL : String := ""
  /-- Field `Primary`. -/
  Primary : Bool := false
  /-- Field `Hashes`. -/
  Hashes : modrinthHashes := {}
  deriving DecidableEq

/-- The struct `modrinthVersion`. -/
structure modrinthVersion where
  /-- Field `VersionNumber`. -/
  VersionNumber : String
  /-- Field `Files`. -/
  Files : List modrinthFile
  /-- Field `Loaders`. -/
  Loaders : List String := []
  /-- Field `GameVersions`. -/
  GameVersions : List String := []
  deriving DecidableEq

/-- The struct `ModrinthResolver`: `client` is the answer of the versions endpoint
for a project, a loader and a list of game versions. -/
structure ModrinthResolver where
  /-- The registry behind the HTTP client. -/
  client : String → String → List String → Except GoError (List modrinthVersion)
  /-- The clock. -/
  now : Nat

/-- The method `ModrinthResolver.fetchVersions`. -/
def ModrinthResolver.fetchVersions (m : ModrinthResolver) (project loader : String)
    (gameVersions : List String) : Except GoError (List modrinthVersion) :=
  m.client project loader gameVersions

/-- The method `ModrinthResolver.Resolve`. -/
def ModrinthResolver.Resolve (S : GoSort.Slice) (m : ModrinthResolver) (cfg : PluginConfig) :
    Outcome :=
  let loader := if cfg.Loader = "" then "velocity" else cfg.Loader
  match m.fetchVersions cfg.Project loader cfg.GameVersions with
  | .error err => .error (.wrap "fetching versions: %w" [] err)
  | .ok versions =>
    if versions.length = 0 then
      .error (.errorf "no versions found for %s on %s" [cfg.Project, loader])
    else
      let versionStrings := versions.map (fun v => v.VersionNumber)
      match SelectBestVersion S versionStrings cfg.Version with
      | .error err => .error (.wrap "selecting version: %w" [] err)
      | .ok selectedVersion =>
        if selectedVersion = "" then
          .error (.errorf "no version of %s matches constraint %q" [cfg.Project, cfg.Version])
        else
          match versions.find? (fun v => v.VersionNumber = selectedVersion) with
          | none => .panic
          | some selected =>
            let file : modrinthFile := (selected.Files.find? (fun f => f.Primary)).getD {}
            let file : modrinthFile :=
              if file.URL = "" ∧ selected.Files.length > 0 then selected.Files.headD {}
              else file
            .ok { Source := "modrinth", Project := cfg.Project,
                  Version := selected.VersionNumber, Loader := loader, URL := file.URL,
                  SHA512 := file.Hashes.SHA512, SHA256 := file.Hashes.SHA256,
                  ResolvedAt := m.now }

/-- The struct `paperMCBuild`: the build number and the application download (name
and hash). -/
structure paperMCBuild where
  /-- Field `Build`. -/
  Build : Int
  /-- Field `Downloads.Application.Name`. -/
  Name : String := ""
  /-- Field `Downloads.Application.SHA256`. -/
  SHA256 : String := ""
  deriving DecidableEq

/-- The struct `PaperMCResolver`: `projects` is the answer of the project endpoint
(the struct `paperMCProjectResponse`, a list of versions) and `builds` the answer of
the builds endpoint of a project and version (the struct `paperMCBuildsResponse`). -/
structure PaperMCResolver where
  /-- The project endpoint. -/
  projects : String → Except GoError (List String)
  /-- The builds endpoint. -/
  builds : String → String → Except GoError (List paperMCBuild)
  /-- The clock. -/
  now : Nat

/-- The constant `paperMCAPIBase`. -/
def paperMCAPIBase : String := "https://api.papermc.io/v2"

/-- The method `PaperMCResolver.fetchVersions`: the list of the registry, reversed. -/
def PaperMCResolver.fetchVersions (p : PaperMCResolver) (project : String) :
    Except GoError (List String) :=
  match p.projects project with
  | .error err => .error err
  | .ok versions => .ok versions.reverse

/-- The method `PaperMCResolver.fetchLatestBuild`: number and file name of the last
build of the list. -/
def PaperMCResolver.fetchLatestBuild (p : PaperMCResolver) (project version : String) :
    Except GoError (Int × String) :=
  match p.builds project version with
  | .error err => .error err
  | .ok builds =>
    match builds.getLast? with
    | none => .error (.errorf "no builds found for %s %s" [project, version])
    | some latest => .ok (latest.Build, latest.Name)

/-- The method `PaperMCResolver.Resolve`. -/
def PaperMCResolver.Resolve (S : GoSort.Slice) (p : PaperMCResolver) (cfg : PluginConfig) :
    Outcome :=
  let project := if cfg.Project = "" then "velocity" else cfg.Project
  match p.fetchVersions project with
  | .error err => .error (.wrap "fetching versions: %w" [] err)
  | .ok versions =>
    if versions.length = 0 then .error (.errorf "no versions found for %s" [project])
    else
      match SelectBestVersion S versions cfg.Version with
      | .error err => .error (.wrap "selecting version: %w" [] err)
      | .ok selectedVersion =>
        if selectedVersion = "" then
          .error (.errorf "no version of %s matches constraint %q" [project, cfg.Version])
        else
          match p.fetchLatestBuild project selectedVersion with
          | .error err => .error (.wrap "fetching build: %w" [] err)
          | .ok (build, downloadName) =>
            let downloadURL := paperMCAPIBase ++ "/projects/" ++ project ++ "/versions/" ++
              selectedVersion ++ "/builds/" ++ toString build ++ "/downloads/" ++ downloadName
            .ok { Source := "papermc", Project := project, Version := selectedVersion,
                  Build := build, URL := downloadURL, ResolvedAt := p.now }

/-- The struct `S3Resolver` (with the clock). -/
structure S3Resolver where
  /-- The clock. -/
  now : Nat

/-- The placeholder of a storage key. -/
def versionPlaceholder : String := "$\x7bversion\x7d"

/-- The method `S3Resolver.Resolve`. -/
def S3Resolver.Resolve (s : S3Resolver) (cfg : PluginConfig) : Outcome :=
  if cfg.Bucket = "" then .error (.errorf "s3 source requires 'bucket' field" [])
  else if cfg.Key = "" then .error (.errorf "s3 source requires 'key' field" [])
  else
    let version := if cfg.Version = "" then "latest" else cfg.Version
    if Contains cfg.Key.data versionPlaceholder.data ∧ version = "latest" then
      .error (.errorf
        "s3 source with $\x7bversion\x7d placeholder requires explicit version, not 'latest'" [])
    else
      let key :=
        if Contains cfg.Key.data versionPlaceholder.data then
          String.mk (ReplaceAll cfg.Key.data versionPlaceholder.data version.data)
        else cfg.Key
      .ok { Source := "s3", Version := version, S3URI := "s3://" ++ cfg.Bucket ++ "/" ++ key,
            ResolvedAt := s.now }

/-- The struct `URLResolver` (with the clock). -/
structure URLResolver where
  /-- The clock. -/
  now : Nat

/-- The method `URLResolver.Resolve`. -/
def URLResolver.Resolve (u : URLResolver) (cfg : PluginConfig) : Outcome :=
  if cfg.URL = "" then .error (.errorf "url source requires 'url' field" [])
  else
    let version := if cfg.Version = "" then "unknown" else cfg.Version
    .ok { Source := "url", Version := version, URL := cfg.URL, ResolvedAt := u.now }

end resolver

/-! ## Package `resolver`: the registry (`resolver.go`)

A Go map with string keys is the list of its entries, the keys distinct; an
assignment `m[k] = v` drops the entry of `k`, if any, and adds the new one. -/

namespace GoMap

/-- Go `m[k] = v`. -/
def set {α : Type} (m : List (String × α)) (k : String) (v : α) : List (String × α) :=
  (k, v) :: m.filter (fun e => e.1 ≠ k)

/-- Go `v, ok := m[k]`. -/
def get {α : Type} (m : List (String × α)) (k : String) : Option α :=
  m.lookup k

end GoMap

namespace resolver

/-- The interface `Resolver`: a value with the methods `Name` and `Resolve` (the
context argument of `Resolve` is left out, as in the adapters). -/
structure Resolver where
  /-- Method `Name`. -/
  Name : String
  /-- Method `Resolve`. -/
  Resolve : PluginConfig → Outcome

/-- The method `HangarResolver.Name`. -/
def HangarResolver.Name (_ : HangarResolver) : String := "hangar"

/-- The method `ModrinthResolver.Name`. -/
def ModrinthResolver.Name (_ : ModrinthResolver) : String := "modrinth"

/-- The method `PaperMCResolver.Name`. -/
def PaperMCResolver.Name (_ : PaperMCResolver) : String := "papermc"

/-- The method `S3Resolver.Name`. -/
def S3Resolver.Name (_ : S3Resolver) : String := "s3"

/-- The method `URLResolver.Name`. -/
def URLResolver.Name (_ : URLResolver) : String := "url"

/-- A `*HangarResolver` as a value of the interface `Resolver`. -/
def HangarResolver.toResolver (S : GoSort.Slice) (h : HangarResolver) : Resolver :=
  { Name := h.Name, Resolve := h.Resolve S }

/-- A `*ModrinthResolver` as a value of the interface `Resolver`. -/
def ModrinthResolver.toResolver (S : GoSort.Slice) (m : ModrinthResolver) : Resolver :=
  { Name := m.Name, Resolve := m.Resolve S }

/-- A `*PaperMCResolver` as a value of the interface `Resolver`. -/
def PaperMCResolver.toResolver (S : GoSort.Slice) (p : PaperMCResolver) : Resolver :=
  { Name := p.Name, Resolve := p.Resolve S }

/-- A `*S3Resolver` as a value of the interface `Resolver`. -/
def S3Resolver.toResolver (s : S3Resolver) : Resolver :=
  { Name := s.Name, Resolve := s.Resolve }

/-- A `*URLResolver` as a value of the interface `Resolver`. -/
def URLResolver.toResolver (u : URLResolver) : Resolver :=
  { Name := u.Name, Resolve := u.Resolve }

/-- The struct `Registry`: the map `resolvers`, always allocated (`NewRegistry`
makes it).  The field `client` only serves to build the adapters, which here hold
the answers of their registries instead. -/
structure Registry where
  /-- Field `resolvers`. -/
  resolvers : List (String × Resolver)

/-- The method `Registry.Register`. -/
def Registry.Register (r : Registry) (res : Resolver) : Registry :=
  { resolvers := GoMap.set r.resolvers res.Name res }

/-- The function `NewRegistry`: an empty map, then the five built-in adapters are
registered. -/
def NewRegistry (S : GoSort.Slice) (hangar : HangarResolver) (modrinth : ModrinthResolver)
    (papermc : PaperMCResolver) (s3 : S3Resolver) (url : URLResolver) : Registry :=
  let r : Registry := { resolvers := [] }
  let r := r.Register (hangar.toResolver S)
  let r := r.Register (modrinth.toResolver S)
  let r := r.Register (papermc.toResolver S)
  let r := r.Register s3.toResolver
  let r := r.Register url.toResolver
  r

/-- The method `Registry.Get`. -/
def Registry.Get (r : Registry) (name : String) : Option Resolver :=
  GoMap.get r.resolvers name

/-- The method `Registry.Resolve`. -/
def Registry.Resolve (r : Registry) (source : String) (cfg : PluginConfig) : Outcome :=
  match r.Get source with
  | none => .error (.errorf "unknown source: %s" [source])
  | some resolver => resolver.Resolve cfg

/-- The method `Registry.Sources`; the order of a map iteration is not specified,
here it is the order of the entries. -/
def Registry.Sources (r : Registry) : List String :=
  r.resolvers.map (fun e => e.1)

end resolver

/-! ## `sort.Slice`: the insertion sort meets the contract -/

namespace GoSort

/-- The insertion sort as an instance of the contract of `sort.Slice`: an insertion
keeps the elements, and it keeps the reversed prefix sorted when `less` is an
ordering. -/
def insertion : Slice where
  sort := fun less l => insertionSort less l
  perm := by
    intro α less l
    have hins : ∀ (x : α) (l : List α), (insertBack less x l).Perm (x :: l) := by
      intro x l
      induction l with
      | nil => exact List.Perm.refl _
      | cons y ys ih =>
        unfold insertBack
        split
        · exact (List.Perm.cons y ih).trans (List.Perm.swap x y ys)
        · exact List.Perm.refl _
    have hfold : ∀ (l acc : List α),
        (l.foldl (fun revPrefix x => insertBack less x revPrefix) acc).Perm (l ++ acc) := by
      intro l
      induction l with
      | nil => intro acc; exact List.Perm.refl _
      | cons x xs ih =>
        intro acc
        simp only [List.foldl_cons, List.cons_append]
        refine (ih _).trans ?_
        refine (List.Perm.append_left xs (hins x acc)).trans ?_
        exact List.perm_middle
    unfold insertionSort
    refine (List.reverse_perm _).trans ?_
    simpa using hfold l []
  sorted := by
    intro α less all ho
    obtain ⟨hirr, htr, hneg⟩ := ho
    have hins : ∀ (x : α) (l : List α), (insertBack less x l).Perm (x :: l) := by
      intro x l
      induction l with
      | nil => exact List.Perm.refl _
      | cons y ys ih =>
        unfold insertBack
        split
        · exact (List.Perm.cons y ih).trans (List.Perm.swap x y ys)
        · exact List.Perm.refl _
    have hpw : ∀ (x : α), x ∈ all → ∀ (l : List α), (∀ y ∈ l, y ∈ all) →
        l.Pairwise (fun a b => less a b = false) →
        (insertBack less x l).Pairwise (fun a b => less a b = false) := by
      intro x hx l
      induction l with
      | nil => intro _ _; simp [insertBack]
      | cons y ys ih =>
        intro hl hp
        have hy : y ∈ all := hl y (List.mem_cons_self _ _)
        have hys : ∀ z ∈ ys, z ∈ all := fun z hz => hl z (List.mem_cons_of_mem _ hz)
        rw [List.pairwise_cons] at hp
        unfold insertBack
        split
        · rename_i hxy
          rw [List.pairwise_cons]
          refine ⟨?_, ih hys hp.2⟩
          intro z hz
          rcases List.mem_cons.mp ((hins x ys).mem_iff.mp hz) with hz | hz
          · subst hz
            cases hyx : less y z with
            | false => rfl
            | true =>
              have h1 := htr z hx y hy z hx hxy hyx
              rw [hirr z hx] at h1
              exact absurd h1 (by simp)
          · exact hp.1 z hz
        · rename_i hxy
          have hxy : less x y = false := by simpa using hxy
          rw [List.pairwise_cons]
          refine ⟨?_, List.pairwise_cons.mpr hp⟩
          intro z hz
          rcases List.mem_cons.mp hz with hz | hz
          · rw [hz]; exact hxy
          · exact hneg x hx y hy z (hys z hz) hxy (hp.1 z hz)
    have hfold : ∀ (l : List α), (∀ y ∈ l, y ∈ all) → ∀ (acc : List α),
        (∀ y ∈ acc, y ∈ all) → acc.Pairwise (fun a b => less a b = false) →
        (l.foldl (fun revPrefix x => insertBack less x revPrefix) acc).Pairwise
          (fun a b => less a b = false) := by
      intro l
      induction l with
      | nil => intro _ acc _ hp; exact hp
      | cons x xs ih =>
        intro hl acc hacc hp
        have hx : x ∈ all := hl x (List.mem_cons_self _ _)
        simp only [List.foldl_cons]
        refine ih (fun y hy => hl y (List.mem_cons_of_mem _ hy)) _ ?_ (hpw x hx acc hacc hp)
        intro y hy
        rcases List.mem_cons.mp ((hins x acc).mem_iff.mp hy) with h | h
        · rw [h]; exact hx
        · exact hacc y h
    unfold insertionSort
    rw [List.pairwise_reverse]
    exact hfold all (fun _ h => h) [] (by simp) List.Pairwise.nil

end GoSort

/-! ## Definitions used in the statements

Predicates, specification-level functions and sample data that the theorems below
are stated with. -/

namespace resolver

/-- A candidate parses and its version satisfies the constraint `c`. -/
def satisfies (c : semver.Constraints) (v : String) : Bool :=
  match ParseVersion v with
  | .ok sv => c.Check sv
  | .error _ => false

/-- The comparison that `FilterVersions` hands to `sort.Slice`. -/
def newerFirst (a b : versionPair) : Bool := a.parsed.GreaterThan b.parsed

end resolver

namespace semver
open GoStrings GoStrconv

/-- A part of a prerelease as `validatePrerelease` accepts it: not empty, and
without a leading zero when it is numeric. -/
def validPart (p : List Char) : Prop :=
  p ≠ [] ∧ (p.all isDigit = true → ¬ (1 < p.length ∧ p.head? = some '0'))

/-- The laws of a three-way comparison that is a total preorder on the values
satisfying `P`: the results are -1, 0 and 1, the comparison is reflexive,
antisymmetric and transitive, and values that compare equal compare alike. -/
structure OrderLaws {α : Type} (P : α → Prop) (f : α → α → Int) : Prop where
  /-- Only -1, 0 and 1 are results. -/
  vals : ∀ a b, P a → P b → (f a b = -1 ∨ f a b = 0 ∨ f a b = 1)
  /-- Reflexivity. -/
  self : ∀ a, P a → f a a = 0
  /-- Antisymmetry. -/
  antisymm : ∀ a b, P a → P b → (f a b = 1 ↔ f b a = -1)
  /-- Transitivity. -/
  trans : ∀ a b c, P a → P b → P c → f a b = -1 → f b c = -1 → f a c = -1
  /-- Equal values compare alike with a third one. -/
  congr : ∀ a b c, P a → P b → P c → f a b = 0 → f a c = f b c

/-- Lexicographic combination of two comparisons, as `Compare` chains them: the
first one decides unless it is 0. -/
def lexCompare {α β : Type} (f : α → α → Int) (g : β → β → Int) (x y : α × β) : Int :=
  if f x.1 y.1 ≠ 0 then f x.1 y.1 else g x.2 y.2

/-- The prerelease of a version as `NewVersion` accepts it: empty, or parts that
`validatePrerelease` accepts. -/
def validPre (p : String) : Prop :=
  p = "" ∨ ∀ part ∈ Split p.data ['.'], validPart part

/-- The last steps of `Compare`: a release is above a prerelease of the same
numbers, two prereleases compare by `comparePrerelease`. -/
def comparePre (p q : String) : Int :=
  if p = "" ∧ q = "" then 0
  else if p = "" then 1
  else if q = "" then -1
  else comparePrerelease p q

/-- A version whose prerelease is as `NewVersion` accepts it. -/
def Version.Valid (v : Version) : Prop := validPre v.pre

end semver

namespace resolver
open semver

/-- The constraint that `~3.4` parses to: one tilde comparator with the bound 3.4.0,
dirty in its patch segment. -/
def tilde34 : Constraints :=
  { constraints := [[{ con := { major := 3, minor := 4, patch := 0, pre := "", metadata := "",
                                original := "3.4.0" },
                       orig := "3.4", origfunc := "~", minorDirty := false, dirty := true,
                       patchDirty := true }]],
    containsPre := [false], IncludePrerelease := false }

/-- The precedence of two versions that `Compare` implements: the numbers decide
first, major before minor before patch, and with equal numbers a prerelease is
lower than the release. -/
def Precedes (a b : Version) : Prop :=
  a.major < b.major ∨
  (a.major = b.major ∧ a.minor < b.minor) ∨
  (a.major = b.major ∧ a.minor = b.minor ∧ a.patch < b.patch) ∨
  (a.major = b.major ∧ a.minor = b.minor ∧ a.patch = b.patch ∧ a.pre ≠ "" ∧ b.pre = "")

/-- The constraint that `~3.4.0-0` parses to: one tilde comparator whose bound
3.4.0-0 has the prerelease `0`. -/
def tilde340pre : Constraints :=
  { constraints := [[{ con := { major := 3, minor := 4, patch := 0, pre := "0", metadata := "",
                                original := "3.4.0-0" },
                       orig := "3.4.0-0", origfunc := "~", minorDirty := false, dirty := false,
                       patchDirty := false }]],
    containsPre := [true], IncludePrerelease := false }

/-- The version that `3.4.0-SNAPSHOT` parses to. -/
def snapshot340 : Version :=
  { major := 3, minor := 4, patch := 0, pre := "SNAPSHOT", metadata := "",
    original := "3.4.0-SNAPSHOT" }

/-- A Hangar registry with three versions; one of them has no download for the
default platform. -/
def sampleHangar : HangarResolver :=
  { client := fun _ => .ok { Result := [
      { Name := "3.5.0", Downloads := [("VELOCITY", { DownloadURL := "https://h.example/350.jar" })] },
      { Name := "3.4.9", Downloads := [("PAPER", { DownloadURL := "https://h.example/349.jar" })] },
      { Name := "3.4.5", Downloads := [("VELOCITY", { FileInfo := { SHA256Hash := "ab" },
                                                      DownloadURL := "https://h.example/345.jar" })] }] },
    now := 0 }

/-- A Modrinth registry with two versions. -/
def sampleModrinth : ModrinthResolver :=
  { client := fun _ _ _ => .ok [
      { VersionNumber := "3.5.0", Files := [{ URL := "https://m.example/350.jar" }] },
      { VersionNumber := "3.4.5",
        Files := [{ URL := "https://m.example/345-sources.jar" },
                  { URL := "https://m.example/345.jar", Primary := true }] }],
    now := 0 }

/-- A PaperMC registry with three versions, oldest first, each with two builds. -/
def samplePaperMC : PaperMCResolver :=
  { projects := fun _ => .ok ["3.3.0", "3.4.0", "3.5.0"],
    builds := fun _ _ => .ok [{ Build := 1, Name := "a-1.jar" }, { Build := 2, Name := "a-2.jar" }],
    now := 0 }

/-- A request with the constraint `~3.4` and nothing else. -/
def sampleRequest : PluginConfig := { Version := "~3.4" }

/-- The result of the Hangar adapter on the sample registry and request. -/
def sampleHangarResult : Result :=
  { Source := "hangar", Version := "3.4.5", Platform := "VELOCITY",
    URL := "https://h.example/345.jar", SHA256 := "ab", ResolvedAt := 0 }

/-- The result of the Modrinth adapter on the sample registry and request. -/
def sampleModrinthResult : Result :=
  { Source := "modrinth", Version := "3.4.5", Loader := "velocity",
    URL := "https://m.example/345.jar", ResolvedAt := 0 }

/-- The result of the PaperMC adapter on the sample registry and request. -/
def samplePaperMCResult : Result :=
  { Source := "papermc", Project := "velocity", Version := "3.4.0", Build := 2,
    URL := "https://api.papermc.io/v2/projects/velocity/versions/3.4.0/builds/2/downloads/a-2.jar",
    ResolvedAt := 0 }

/-- Exactly one of the two locator fields of a result is populated. -/
def exactlyOneLocator (r : Result) : Prop :=
  (r.URL ≠ "" ∧ r.S3URI = "") ∨ (r.URL = "" ∧ r.S3URI ≠ "")

/-- A Hangar registry whose only version has a download entry for the platform
without a download URL (a file hosted elsewhere). -/
def hangarWithoutURL : HangarResolver :=
  { client := fun _ => .ok { Result := [
      { Name := "1.0.0", Downloads := [("VELOCITY", { FileInfo := { SHA256Hash := "ab" } })] }] },
    now := 0 }

/-- A Modrinth registry whose only version has no files. -/
def modrinthWithoutFiles : ModrinthResolver :=
  { client := fun _ _ _ => .ok [{ VersionNumber := "1.0.0", Files := [] }], now := 0 }

/-- A request to the Object-Storage adapter with a key template. -/
def sampleS3Request : PluginConfig :=
  { Bucket := "b", Key := "plugins/$\x7bversion\x7d.jar", Version := "2.1.0" }

/-- The result of the Object-Storage adapter on the sample request. -/
def sampleS3Result : Result :=
  { Source := "s3", Version := "2.1.0", S3URI := "s3://b/plugins/2.1.0.jar", ResolvedAt := 0 }

/-- A request to the Direct-URL adapter. -/
def sampleURLRequest : PluginConfig := { URL := "https://u.example/p.jar" }

/-- The result of the Direct-URL adapter on the sample request. -/
def sampleURLResult : Result :=
  { Source := "url", Version := "unknown", URL := "https://u.example/p.jar", ResolvedAt := 0 }

end resolver

namespace GoRegexp

/-- The greedy star of a character class, by recursion on the text: the longest
run of characters of the class is tried first, then the shorter ones. -/
def starCls {R : Type} (p : Char → Bool) (k : List Char → Caps → Option R) (c : Caps) :
    List Char → Option R
  | [] => k [] c
  | a :: t =>
    if p a then
      match starCls p k c t with
      | some r => some r
      | none => k (a :: t) c
    else k (a :: t) c

/-- The text does not go on with a character of the class. -/
def stopsAt (p : Char → Bool) (rest : List Char) : Prop :=
  ∀ a t, rest = a :: t → p a = false

end GoRegexp

namespace resolver
open GoRegexp GoStrconv GoStrings semver

/-- The text after a leading dot, when there is one. -/
def dotTail : List Char → Option (List Char)
  | [] => none
  | a :: t => if a = '.' then some t else none

/-- The longest leading part of `s` of the form major.minor or major.minor.patch,
three runs of digits separated by dots, in the words of the specification; empty
when `s` does not begin with digits, a dot and a digit. -/
def leadingNumeric (s : List Char) : List Char :=
  match dotTail (s.dropWhile isDigit) with
  | none => []
  | some r =>
    if s.takeWhile isDigit = [] ∨ r.takeWhile isDigit = [] then []
    else
      match dotTail (r.dropWhile isDigit) with
      | none => s.takeWhile isDigit ++ '.' :: r.takeWhile isDigit
      | some q =>
        if q.takeWhile isDigit = [] then s.takeWhile isDigit ++ '.' :: r.takeWhile isDigit
        else s.takeWhile isDigit ++ '.' :: r.takeWhile isDigit ++ '.' :: q.takeWhile isDigit

/-- What follows `leadingNumeric s` in `s`; `none` when `s` has no such leading part. -/
def afterNumeric (s : List Char) : Option (List Char) :=
  match dotTail (s.dropWhile isDigit) with
  | none => none
  | some r =>
    if s.takeWhile isDigit = [] ∨ r.takeWhile isDigit = [] then none
    else
      match dotTail (r.dropWhile isDigit) with
      | none => some (r.dropWhile isDigit)
      | some q =>
        if q.takeWhile isDigit = [] then some (r.dropWhile isDigit)
        else some (q.dropWhile isDigit)

/-- The form major.minor.patch[-prerelease][+buildmeta] of a strict version, in the
words of the specification: three runs of digits separated by dots, then an
optional prerelease and optional build metadata, and nothing else. -/
def strictForm (s : List Char) : Bool :=
  (matchAt (Re.cat [Re.plus digit, Re.chr '.', Re.plus digit, Re.chr '.', Re.plus digit,
    tailRe 1, .eos]) s).isSome

end resolver

namespace GoRegexp
open GoStrconv

/-- A non-empty run of digits. -/
def IsNumeral (n : List Char) : Prop := n ≠ [] ∧ ∀ d ∈ n, isDigit d = true

end GoRegexp

namespace semver
open GoRegexp GoStrconv GoStrings

/-- Three numerals separated by dots. -/
def dotted (M m p : List Char) : List Char := M ++ '.' :: (m ++ '.' :: p)

/-- The full bound of an equality comparator: the constraint `=M.m.p`. -/
def exactly (M m p : List Char) : constraint :=
  { con := { major := decimal M, minor := decimal m, patch := decimal p, pre := "",
             metadata := "", original := String.mk (dotted M m p) },
    orig := String.mk (dotted M m p), origfunc := "=", minorDirty := false, dirty := false,
    patchDirty := false }

/-- The constraints that `=M.m.p` parses to: one group with the one comparator. -/
def exactlyOne (M m p : List Char) : Constraints :=
  { constraints := [[exactly M m p]], containsPre := [false], IncludePrerelease := false }

end semver

namespace resolver
open GoRegexp GoStrconv GoStrings semver

/-- The texts of the form major.minor or major.minor.patch: two or three non-empty
runs of digits separated by dots. -/
def IsNumericForm (t : List Char) : Prop :=
  ∃ M m, IsNumeral M ∧ IsNumeral m ∧
    (t = M ++ '.' :: m ∨ ∃ p, IsNumeral p ∧ t = M ++ '.' :: (m ++ '.' :: p))

/-- The candidate parses to the release with the numbers `a`, `b`, `c`. -/
def isRelease (a b c : Nat) (v : String) : Bool :=
  match ParseVersion v with
  | .ok sv => decide (sv.major = a ∧ sv.minor = b ∧ sv.patch = c ∧ sv.pre = "")
  | .error _ => false

/-- The constraint that `3.4` and `=3.4` parse to: an equality comparator whose
bound 3.4.0 is dirty in its patch segment, which makes it a tilde range. -/
def equals34 : Constraints :=
  { constraints := [[{ con := { major := 3, minor := 4, patch := 0, pre := "", metadata := "",
                                original := "3.4.0" },
                       orig := "3.4", origfunc := "=", minorDirty := false, dirty := true,
                       patchDirty := true }]],
    containsPre := [false], IncludePrerelease := false }

/-- The constraint that `5.0.0` and `=5.0.0` parse to. -/
def equals500 : Constraints :=
  { constraints := [[{ con := { major := 5, minor := 0, patch := 0, pre := "", metadata := "",
                                original := "5.0.0" },
                       orig := "5.0.0", origfunc := "=", minorDirty := false, dirty := false,
                       patchDirty := false }]],
    containsPre := [false], IncludePrerelease := false }

end resolver

namespace resolver
open GoStrings

/-- The ways the Object-Storage adapter fails, in the words of the specification. -/
inductive S3Failure where
  /-- A required field (bucket, key) is absent from the request. -/
  | MissingField : S3Failure
  /-- The key has a version placeholder and the version is `latest`. -/
  | AmbiguousVersion : S3Failure
  deriving DecidableEq

/-- In the words of the specification: the key with every occurrence of the token
`$\x7bversion\x7d` replaced by `v`, that is, the key cut at the occurrences of the
token and the pieces joined again with `v` between them. -/
def substituteVersion (key v : String) : String :=
  String.mk (List.intercalate v.data (Split key.data versionPlaceholder.data))

/-- The reference of the specification for `S3Resolver.Resolve`, at the time `now`. -/
def s3Reference (now : Nat) (cfg : PluginConfig) : Except S3Failure Result :=
  if cfg.Bucket = "" ∨ cfg.Key = "" then .error .MissingField
  else
    let v := if cfg.Version = "" then "latest" else cfg.Version
    if versionPlaceholder.data <:+: cfg.Key.data ∧ v = "latest" then .error .AmbiguousVersion
    else
      .ok { Source := "s3", Version := v, URL := "",
            S3URI := "s3://" ++ cfg.Bucket ++ "/" ++ substituteVersion cfg.Key v,
            ResolvedAt := now }

/-- The sample request to the Object-Storage adapter, without its version. -/
def sampleS3Unset : PluginConfig :=
  { Bucket := "b", Key := "plugins/$\x7bversion\x7d.jar" }

end resolver

namespace resolver

/-- The registry after the calls `Register` of `regs`, from the left, on the
registry `r0`. -/
def Registry.RegisterAll (r0 : Registry) (regs : List Resolver) : Registry :=
  regs.foldl Registry.Register r0

/-- Three adapters, two of them under the name `s3` with different clocks. -/
def sampleAdapters : List Resolver :=
  [S3Resolver.toResolver { now := 1 }, URLResolver.toResolver { now := 2 },
   S3Resolver.toResolver { now := 3 }]

end resolver

namespace resolver

/-- A Hangar registry whose only version has a download for another platform. -/
def hangarPaperOnly : HangarResolver :=
  { client := fun _ => .ok { Result := [
      { Name := "3.4.9", Downloads := [("PAPER", { DownloadURL := "https://h.example/349.jar" })] }] },
    now := 0 }

end resolver

namespace resolver

end resolver

namespace resolver

/-- A request without a constraint. -/
def latestRequest : PluginConfig := { Version := "latest" }

/-- The result of the PaperMC adapter on the sample registry without a constraint. -/
def samplePaperMCLatest : Result :=
  { Source := "papermc", Project := "velocity", Version := "3.5.0", Build := 2,
    URL := "https://api.papermc.io/v2/projects/velocity/versions/3.5.0/builds/2/downloads/a-2.jar",
    ResolvedAt := 0 }

end resolver

namespace GoStrings

/-- No proper end of `tok` is a beginning of `tok`: two occurrences of `tok` in a
text do not overlap. -/
def borderFree (tok : List Char) : Bool :=
  (List.range tok.length).all (fun k => k == 0 || !(tok.drop k).isPrefixOf tok)

end GoStrings

namespace semver
open GoRegexp GoStrconv GoStrings

/-- A non-empty run of characters of `[0-9A-Za-z-]`: one part of a prerelease or of
build metadata. -/
def IsIdent (p : List Char) : Prop := p ≠ [] ∧ ∀ c ∈ p, isAllowed c = true

/-- Parts joined by dots. -/
def dots (parts : List (List Char)) : List Char := List.intercalate ['.'] parts

/-- Parts, each after a dot. -/
def dotsTail : List (List Char) → List Char
  | [] => []
  | p :: ps => '.' :: (p ++ dotsTail ps)

/-- The captures of the inner group `g` of `identsRe` on the parts after the first,
the last part first. -/
def innerCaps (g : Nat) (ps : List (List Char)) : Caps :=
  (ps.map (fun p => (g, '.' :: p))).reverse

/-- The end of a match of the whole text `t`: the match that `matchAt` returns. -/
def finish (t : List Char) : List Char → Caps → Option Match :=
  fun s1 c => some ⟨t.take (t.length - s1.length), s1, c⟩

/-- The end `$` of `looseVersionRegex`, as a continuation. -/
def endK (t : List Char) : List Char → Caps → Option Match :=
  fun s c => Re.eos.run s c (finish t)

/-- The pattern `looseVersionRegex` from the build metadata on. -/
def metaK (t : List Char) : List Char → Caps → Option Match :=
  fun s c => (Re.opt (.grp 7 (.seq (Re.chr '+') (identsRe 8)))).run s c (endK t)

/-- The pattern `looseVersionRegex` from the prerelease on. -/
def preK (t : List Char) : List Char → Caps → Option Match :=
  fun s c => (Re.opt (.grp 4 (.seq (Re.chr '-') (identsRe 5)))).run s c (metaK t)

/-- The pattern `looseVersionRegex` from the patch number on. -/
def patchK (t : List Char) : List Char → Caps → Option Match :=
  fun s c => (Re.opt (.grp 3 (.seq (Re.chr '.') (Re.plus digit)))).run s c (preK t)

/-- The pattern `looseVersionRegex` from the minor number on. -/
def minorK (t : List Char) : List Char → Caps → Option Match :=
  fun s c => (Re.opt (.grp 2 (.seq (Re.chr '.') (Re.plus digit)))).run s c (patchK t)

/-- The pattern `looseVersionRegex` from the major number on. -/
def majorK (t : List Char) : List Char → Caps → Option Match :=
  fun s c => (Re.grp 1 (Re.plus digit)).run s c (minorK t)

/-- The text of an optional part that begins with the character `a`: nothing when
there are no parts. -/
def optText (a : Char) : List (List Char) → List Char
  | [] => []
  | p :: ps => a :: dots (p :: ps)

/-- The captures of an optional part of `tailRe`: the group `g` with the leading
character, the group `g + 1` without, and the inner group `g + 2`. -/
def optCaps (g : Nat) (a : Char) : List (List Char) → Caps → Caps
  | [], c => c
  | p :: ps, c => (g, a :: dots (p :: ps)) :: (g + 1, dots (p :: ps)) :: (innerCaps (g + 2) ps ++ c)

/-- The captures of the numbers after the first: group `g` for the first of them,
`g + 1` for the next. -/
def numCaps : Nat → List (List Char) → Caps → Caps
  | _, [], c => c
  | g, n :: ns, c => numCaps (g + 1) ns ((g, '.' :: n) :: c)

/-- The text of the group of an optional number: a dot and the number. -/
def dotNum : Option (List Char) → List Char
  | none => []
  | some n => '.' :: n

/-- The value of an optional number segment in `NewVersion`: 0 when the number is
not written. -/
def segValue : Option (List Char) → Except GoError Nat
  | none => .ok 0
  | some n => parseSegment n

/-- The parts of a version string of the lenient form
`[v]major[.minor[.patch]][-prerelease][+buildmeta]`: whether it begins with `v`,
the one to three numbers, the dot separated parts of the prerelease and those of
the build metadata (no parts: the prerelease, the metadata is absent). -/
structure LooseParts where
  /-- The text begins with `v`. -/
  hasV : Bool
  /-- The numbers: major, then minor and patch when written. -/
  nums : List (List Char)
  /-- The parts of the prerelease. -/
  pre : List (List Char)
  /-- The parts of the build metadata. -/
  meta : List (List Char)

/-- The version string with these parts. -/
def LooseParts.render (x : LooseParts) : List Char :=
  (if x.hasV then ['v'] else []) ++
    (dots x.nums ++ (optText '-' x.pre ++ optText '+' x.meta))

/-- The parts are as `NewVersion` accepts them: one to three numbers, each a
non-empty run of digits with a value that fits 64 bits; the parts of the prerelease
non-empty runs of `[0-9A-Za-z-]`, a numeric one without a leading zero; the parts
of the build metadata non-empty runs of `[0-9A-Za-z-]`. -/
def LooseParts.Valid (x : LooseParts) : Prop :=
  x.nums ≠ [] ∧ x.nums.length ≤ 3 ∧ (∀ n ∈ x.nums, IsNumeral n ∧ decimal n < 2 ^ 64) ∧
  (∀ p ∈ x.pre, IsIdent p ∧ validPart p) ∧ (∀ p ∈ x.meta, IsIdent p)

/-- The version that the parts denote: a number that is not written is 0. -/
def LooseParts.version (x : LooseParts) (original : List Char) : Version :=
  { major := decimal (x.nums.getD 0 []), minor := decimal (x.nums.getD 1 []),
    patch := decimal (x.nums.getD 2 []), pre := String.mk (dots x.pre),
    metadata := String.mk (dots x.meta), original := String.mk original }

end semver

namespace resolver
open GoRegexp GoStrconv GoStrings semver

/-- In the words of the specification: the text is two or three numbers separated
by dots (major.minor or major.minor.patch), each a non-empty run of digits with a
value that fits 64 bits; `nums` are the numbers. -/
def IsNumericVersion (nums : List (List Char)) (s : List Char) : Prop :=
  2 ≤ nums.length ∧ nums.length ≤ 3 ∧ (∀ n ∈ nums, IsNumeral n ∧ decimal n < 2 ^ 64) ∧
    s = dots nums

/-- The release with the numbers `nums`, read from the text `original`. -/
def releaseOf (nums : List (List Char)) (original : List Char) : Version :=
  LooseParts.version { hasV := false, nums := nums, pre := [], meta := [] } original

end resolver

/-! ## General facts on `ParseConstraint` and `FilterVersions` -/

namespace resolver

theorem ParseConstraint_some_ne {constraint : String} {c : semver.Constraints}
    (hc : ParseConstraint constraint = .ok (some c)) :
    ¬ (constraint = "" ∨ constraint = "latest") := by
  intro h
  unfold ParseConstraint at hc
  rw [if_pos h] at hc
  cases hc

theorem ParseConstraint_none_iff (constraint : String) :
    ParseConstraint constraint = .ok none ↔ (constraint = "" ∨ constraint = "latest") := by
  constructor
  · intro h
    by_contra hne
    unfold ParseConstraint at h
    rw [if_neg hne] at h
    revert h
    simp only []
    split <;> intro h <;> cases h
  · intro h
    unfold ParseConstraint
    rw [if_pos h]

theorem FilterVersions_eq (S : GoSort.Slice) (versions : List String) {constraint : String}
    {c : semver.Constraints} (hc : ParseConstraint constraint = .ok (some c)) :
    FilterVersions S versions constraint =
      .ok ((S.sort newerFirst (matchedPairs c versions)).map (fun v => v.original)) := by
  unfold FilterVersions
  rw [if_neg (ParseConstraint_some_ne hc), hc]
  rfl

theorem matchedPairs_cons (c : semver.Constraints) (v : String) (rest : List String) :
    matchedPairs c (v :: rest) =
      match ParseVersion v with
      | .error _ => matchedPairs c rest
      | .ok sv =>
        if c.Check sv then { original := v, parsed := sv } :: matchedPairs c rest
        else matchedPairs c rest := by
  rw [matchedPairs]

theorem matchedPairs_originals (c : semver.Constraints) (versions : List String) :
    (matchedPairs c versions).map (fun v => v.original) = versions.filter (satisfies c) := by
  induction versions with
  | nil => rfl
  | cons v rest ih =>
    rw [matchedPairs_cons, List.filter_cons]
    cases hp : ParseVersion v with
    | error e =>
      have hs : satisfies c v = false := by unfold satisfies; rw [hp]
      simpa [hs] using ih
    | ok sv =>
      have hs : satisfies c v = c.Check sv := by unfold satisfies; rw [hp]
      cases hk : c.Check sv with
      | false => simpa [hs, hk] using ih
      | true => simpa [hs, hk] using ih

theorem matchedPairs_parsed (c : semver.Constraints) (versions : List String) :
    ∀ p ∈ matchedPairs c versions,
      ParseVersion p.original = .ok p.parsed ∧ c.Check p.parsed = true ∧
        p.original ∈ versions := by
  induction versions with
  | nil => intro p hp; simp [matchedPairs] at hp
  | cons v rest ih =>
    intro p hp
    rw [matchedPairs_cons] at hp
    cases hv : ParseVersion v with
    | error e =>
      rw [hv] at hp
      obtain ⟨h1, h2, h3⟩ := ih p hp
      exact ⟨h1, h2, List.mem_cons_of_mem _ h3⟩
    | ok sv =>
      rw [hv] at hp
      cases hk : c.Check sv with
      | false =>
        simp only [hk] at hp
        obtain ⟨h1, h2, h3⟩ := ih p (by simpa using hp)
        exact ⟨h1, h2, List.mem_cons_of_mem _ h3⟩
      | true =>
        simp only [hk] at hp
        rcases List.mem_cons.mp (by simpa using hp) with h | h
        · subst h
          exact ⟨hv, hk, List.mem_cons_self _ _⟩
        · obtain ⟨h1, h2, h3⟩ := ih p h
          exact ⟨h1, h2, List.mem_cons_of_mem _ h3⟩

end resolver

/-! ## Order facts about Go strings and decimal numerals -/

namespace GoStrings

theorem char_eq_of_toNat_eq {a b : Char} (h : a.toNat = b.toNat) : a = b := by
  rw [← Char.ofNat_toNat a, ← Char.ofNat_toNat b, h]

theorem less_irrefl (s : List Char) : less s s = false := by
  induction s with
  | nil => rfl
  | cons a as ih => simp [less, ih]

theorem less_asymm : ∀ (s o : List Char), less s o = true → less o s = false
  | [], [], h => by simp [less] at h
  | [], _ :: _, _ => by simp [less]
  | _ :: _, [], h => by simp [less] at h
  | a :: as, b :: bs, h => by
    unfold less at h ⊢
    by_cases h1 : a.toNat < b.toNat
    · have h2 : ¬ b.toNat < a.toNat := by omega
      simp [h1, h2]
    · by_cases h2 : b.toNat < a.toNat
      · simp [h1, h2] at h
      · simp only [h1, h2, if_false] at h ⊢
        exact less_asymm as bs h

theorem less_trans : ∀ (a b c : List Char), less a b = true → less b c = true →
    less a c = true
  | [], [], _, h, _ => by simp [less] at h
  | [], _ :: _, [], _, h => by simp [less] at h
  | [], _ :: _, _ :: _, _, _ => by simp [less]
  | _ :: _, [], _, h, _ => by simp [less] at h
  | _ :: _, _ :: _, [], _, h => by simp [less] at h
  | x :: xs, y :: ys, z :: zs, h1, h2 => by
    unfold less at h1 h2 ⊢
    by_cases hxy : x.toNat < y.toNat
    · by_cases hyz : y.toNat < z.toNat
      · have : x.toNat < z.toNat := by omega
        simp [this]
      · by_cases hzy : z.toNat < y.toNat
        · simp [hyz, hzy] at h2
        · have : x.toNat < z.toNat := by omega
          simp [this]
    · by_cases hyx : y.toNat < x.toNat
      · simp [hxy, hyx] at h1
      · simp only [hxy, hyx, if_false] at h1
        by_cases hyz : y.toNat < z.toNat
        · have : x.toNat < z.toNat := by omega
          simp [this]
        · by_cases hzy : z.toNat < y.toNat
          · simp [hyz, hzy] at h2
          · simp only [hyz, hzy, if_false] at h2
            have e1 : ¬ x.toNat < z.toNat := by omega
            have e2 : ¬ z.toNat < x.toNat := by omega
            simp only [e1, e2, if_false]
            exact less_trans xs ys zs h1 h2

theorem less_total : ∀ (s o : List Char), s ≠ o → less s o = true ∨ less o s = true
  | [], [], h => absurd rfl h
  | [], _ :: _, _ => by simp [less]
  | _ :: _, [], _ => by simp [less]
  | a :: as, b :: bs, h => by
    unfold less
    by_cases h1 : a.toNat < b.toNat
    · simp [h1]
    · by_cases h2 : b.toNat < a.toNat
      · simp [h2]
      · have hab : a = b := char_eq_of_toNat_eq (by omega)
        subst hab
        simp only [h1, if_false]
        exact less_total as bs (fun e => h (by rw [e]))

end GoStrings

namespace GoStrconv

theorem digitVal_lt {c : Char} (h : isDigit c = true) : digitVal c < 10 := by
  unfold isDigit at h
  unfold digitVal
  simp only [Bool.and_eq_true, decide_eq_true_eq] at h
  omega

theorem digitVal_inj {a b : Char} (ha : isDigit a = true) (hb : isDigit b = true)
    (h : digitVal a = digitVal b) : a = b := by
  unfold isDigit at ha hb
  unfold digitVal at h
  simp only [Bool.and_eq_true, decide_eq_true_eq] at ha hb
  exact GoStrings.char_eq_of_toNat_eq (by omega)

theorem eq_zero_char {a : Char} (ha : isDigit a = true) (h : digitVal a = 0) : a = '0' := by
  have h0 : isDigit '0' = true := by decide
  exact digitVal_inj ha h0 (by rw [h]; decide)

theorem foldl_decimal (s : List Char) (acc : Nat) :
    s.foldl (fun acc c => 10 * acc + digitVal c) acc =
      Nat.ofDigits 10 ((s.map digitVal).reverse ++ [acc]) := by
  induction s generalizing acc with
  | nil => simp [Nat.ofDigits_singleton]
  | cons c cs ih =>
    rw [List.foldl_cons, ih]
    simp only [List.map_cons, List.reverse_cons, List.append_assoc, List.singleton_append]
    rw [Nat.ofDigits_append, Nat.ofDigits_append]
    simp only [Nat.ofDigits_cons, Nat.ofDigits_singleton, List.length_reverse, List.length_map,
      Nat.ofDigits_nil]
    ring

theorem decimal_eq (s : List Char) :
    decimal s = Nat.ofDigits 10 ((s.map digitVal).reverse) := by
  unfold decimal
  rw [foldl_decimal, Nat.ofDigits_append]
  simp [Nat.ofDigits_singleton]

theorem map_digitVal_inj : ∀ (s o : List Char), s.all isDigit = true → o.all isDigit = true →
    s.map digitVal = o.map digitVal → s = o
  | [], [], _, _, _ => rfl
  | [], _ :: _, _, _, h => by simp at h
  | _ :: _, [], _, _, h => by simp at h
  | a :: as, b :: bs, hs, ho, h => by
    simp only [List.all_cons, Bool.and_eq_true] at hs ho
    simp only [List.map_cons, List.cons.injEq] at h
    rw [digitVal_inj hs.1 ho.1 h.1, map_digitVal_inj as bs hs.2 ho.2 h.2]

theorem digits_decimal (a : Char) (t : List Char) (hs : (a :: t).all isDigit = true)
    (ha : a ≠ '0') : Nat.digits 10 (decimal (a :: t)) = ((a :: t).map digitVal).reverse := by
  rw [decimal_eq]
  apply Nat.digits_ofDigits 10 (by norm_num)
  · intro l hl
    rw [List.mem_reverse, List.mem_map] at hl
    obtain ⟨c, hc, rfl⟩ := hl
    exact digitVal_lt (List.all_eq_true.mp hs c hc)
  · intro hne
    simp only [List.map_cons, List.reverse_cons, List.getLast_append_singleton]
    intro h0
    simp only [List.all_cons, Bool.and_eq_true] at hs
    exact ha (eq_zero_char hs.1 h0)

/-- A numeral without a leading zero is `0` itself or starts with another digit. -/
theorem numeral_cases (s : List Char) (hs0 : s ≠ [])
    (hz : ¬ (1 < s.length ∧ s.head? = some '0')) :
    s = ['0'] ∨ ∃ a t, s = a :: t ∧ a ≠ '0' := by
  cases s with
  | nil => exact absurd rfl hs0
  | cons a t =>
    by_cases ha : a = '0'
    · left
      subst ha
      cases t with
      | nil => rfl
      | cons b u => exact absurd ⟨by simp, rfl⟩ hz
    · exact Or.inr ⟨a, t, rfl, ha⟩

theorem decimal_inj (s o : List Char) (hs : s.all isDigit = true) (ho : o.all isDigit = true)
    (hs0 : s ≠ []) (ho0 : o ≠ []) (hsz : ¬ (1 < s.length ∧ s.head? = some '0'))
    (hoz : ¬ (1 < o.length ∧ o.head? = some '0')) (h : decimal s = decimal o) : s = o := by
  have hzero : decimal ['0'] = 0 := by decide
  rcases numeral_cases s hs0 hsz with rfl | ⟨a, t, rfl, ha⟩ <;>
    rcases numeral_cases o ho0 hoz with rfl | ⟨b, u, rfl, hb⟩
  · rfl
  · have hd := digits_decimal b u ho hb
    rw [← h, hzero] at hd
    simp at hd
  · have hd := digits_decimal a t hs ha
    rw [h, hzero] at hd
    simp at hd
  · have h1 := digits_decimal a t hs ha
    have h2 := digits_decimal b u ho hb
    rw [h] at h1
    rw [h1] at h2
    exact map_digitVal_inj _ _ hs ho (List.reverse_injective h2)

end GoStrconv

/-! ## The precedence of `semver` is a total preorder on parsed versions -/

namespace semver
open GoStrings GoStrconv GoRegexp

theorem ParseUint_some {s : List Char} {n : Nat} (h : ParseUint s = some n) :
    s ≠ [] ∧ s.all isDigit = true ∧ n = decimal s := by
  unfold ParseUint at h
  cases s with
  | nil => simp at h
  | cons a t =>
    simp only [List.isEmpty_cons, Bool.false_eq_true, if_false] at h
    split at h
    · rename_i hd
      split at h
      · exact ⟨by simp, hd, by simpa using h.symm⟩
      · cases h
    · cases h

theorem ParseUint_inj {s o : List Char} {n : Nat} (hs : validPart s) (ho : validPart o)
    (h1 : ParseUint s = some n) (h2 : ParseUint o = some n) : s = o := by
  obtain ⟨a1, a2, a3⟩ := ParseUint_some h1
  obtain ⟨b1, b2, b3⟩ := ParseUint_some h2
  exact decimal_inj s o a2 b2 a1 b1 (hs.2 a2) (ho.2 b2) (by rw [← a3, ← b3])

theorem comparePrePart_self (s : List Char) : comparePrePart s s = 0 := by
  simp [comparePrePart]

theorem comparePrePart_values (s o : List Char) :
    comparePrePart s o = -1 ∨ comparePrePart s o = 0 ∨ comparePrePart s o = 1 := by
  unfold comparePrePart
  repeat' split
  all_goals simp

theorem comparePrePart_eq_zero {s o : List Char} (h : comparePrePart s o = 0) : s = o := by
  by_contra hne
  unfold comparePrePart at h
  rw [if_neg hne] at h
  revert h
  repeat' split
  all_goals simp

theorem comparePrePart_nil_right {s : List Char} (hs : s ≠ []) : comparePrePart s [] = 1 := by
  simp [comparePrePart, hs]

theorem comparePrePart_nil_left {o : List Char} (ho : o ≠ []) : comparePrePart [] o = -1 := by
  have h : ([] : List Char) ≠ o := fun e => ho e.symm
  simp [comparePrePart, ho, h]

/-- The unfolding of `comparePrePart` on two different non-empty parts. -/
theorem comparePrePart_ne {s o : List Char} (hs : s ≠ []) (ho : o ≠ []) (hne : s ≠ o) :
    comparePrePart s o =
      match ParseUint o, ParseUint s with
      | none, none => if less o s then 1 else -1
      | none, some _ => -1
      | some _, none => 1
      | some oi, some si => if si > oi then 1 else -1 := by
  unfold comparePrePart
  rw [if_neg hne, if_neg hs, if_neg ho]

theorem comparePrePart_antisymm {s o : List Char} (hs : validPart s) (ho : validPart o) :
    comparePrePart s o = 1 ↔ comparePrePart o s = -1 := by
  by_cases hne : s = o
  · subst hne
    simp [comparePrePart_self]
  · have hne2 : o ≠ s := fun e => hne e.symm
    rw [comparePrePart_ne hs.1 ho.1 hne, comparePrePart_ne ho.1 hs.1 hne2]
    cases h1 : ParseUint s with
    | none =>
      cases h2 : ParseUint o with
      | none =>
        simp only []
        rcases less_total s o hne with h | h
        · simp [h, less_asymm s o h]
        · simp [h, less_asymm o s h]
      | some oi => simp
    | some si =>
      cases h2 : ParseUint o with
      | none => simp
      | some oi =>
        simp only []
        have hd : si ≠ oi := by
          intro e
          subst e
          exact hne (ParseUint_inj hs ho h1 h2)
        by_cases hlt : si > oi
        · have : ¬ oi > si := by omega
          simp [hlt, this]
        · have : oi > si := by omega
          simp [hlt, this]

theorem comparePrePart_trans {s o t : List Char} (hs : validPart s) (ho : validPart o)
    (ht : validPart t) (h1 : comparePrePart s o = -1) (h2 : comparePrePart o t = -1) :
    comparePrePart s t = -1 := by
  have hso : s ≠ o := by
    intro e; subst e; rw [comparePrePart_self] at h1; exact absurd h1 (by decide)
  have hot : o ≠ t := by
    intro e; subst e; rw [comparePrePart_self] at h2; exact absurd h2 (by decide)
  have hst : s ≠ t := by
    intro e
    subst e
    have := (comparePrePart_antisymm ho hs).mpr h1
    rw [this] at h2
    exact absurd h2 (by decide)
  rw [comparePrePart_ne hs.1 ho.1 hso] at h1
  rw [comparePrePart_ne ho.1 ht.1 hot] at h2
  rw [comparePrePart_ne hs.1 ht.1 hst]
  cases e1 : ParseUint s <;> cases e2 : ParseUint o <;> cases e3 : ParseUint t <;>
    simp only [e1, e2, e3] at h1 h2 ⊢ <;> try (first | rfl | (exact absurd h1 (by decide)) |
      (exact absurd h2 (by decide)))
  · have a1 : less o s = false := by
      cases h : less o s with
      | false => rfl
      | true => rw [h] at h1; exact absurd h1 (by decide)
    have a2 : less t o = false := by
      cases h : less t o with
      | false => rfl
      | true => rw [h] at h2; exact absurd h2 (by decide)
    have b1 : less s o = true := by
      rcases less_total s o hso with h | h
      · exact h
      · rw [h] at a1; cases a1
    have b2 : less o t = true := by
      rcases less_total o t hot with h | h
      · exact h
      · rw [h] at a2; cases a2
    rw [less_asymm s t (less_trans s o t b1 b2)]
    rfl
  · rename_i si oi ti
    have a1 : ¬ si > oi := by
      intro h; rw [if_pos h] at h1; exact absurd h1 (by decide)
    have a2 : ¬ oi > ti := by
      intro h; rw [if_pos h] at h2; exact absurd h2 (by decide)
    have a3 : ¬ si > ti := by omega
    rw [if_neg a3]

theorem cmpParts_nil_nil : comparePrereleaseParts [] [] = 0 := rfl

theorem cmpParts_cons_nil {s : List Char} (ss : List (List Char)) (hs : validPart s) :
    comparePrereleaseParts (s :: ss) [] = 1 := by
  unfold comparePrereleaseParts
  simp only [List.length_cons, List.length_nil, Nat.zero_le, max_eq_left]
  rw [comparePrereleaseLoop]
  simp [comparePrePart_nil_right hs.1]

theorem cmpParts_nil_cons {o : List Char} (os : List (List Char)) (ho : validPart o) :
    comparePrereleaseParts [] (o :: os) = -1 := by
  unfold comparePrereleaseParts
  simp only [List.length_cons, List.length_nil, Nat.zero_le, max_eq_right]
  rw [comparePrereleaseLoop]
  simp [comparePrePart_nil_left ho.1]

theorem cmpParts_cons_cons (s o : List Char) (ss os : List (List Char)) :
    comparePrereleaseParts (s :: ss) (o :: os) =
      if comparePrePart s o ≠ 0 then comparePrePart s o else comparePrereleaseParts ss os := by
  unfold comparePrereleaseParts
  have h : max (s :: ss).length (o :: os).length = max ss.length os.length + 1 := by
    simp only [List.length_cons]
    omega
  rw [h, comparePrereleaseLoop]
  rfl

theorem cmpParts_self (a : List (List Char)) (ha : ∀ p ∈ a, validPart p) :
    comparePrereleaseParts a a = 0 := by
  induction a with
  | nil => rfl
  | cons s ss ih =>
    rw [cmpParts_cons_cons, comparePrePart_self]
    simpa using ih (fun p hp => ha p (List.mem_cons_of_mem _ hp))

theorem cmpParts_values : ∀ (a b : List (List Char)), (∀ p ∈ a, validPart p) →
    (∀ p ∈ b, validPart p) →
    comparePrereleaseParts a b = -1 ∨ comparePrereleaseParts a b = 0 ∨
      comparePrereleaseParts a b = 1
  | [], [], _, _ => Or.inr (Or.inl rfl)
  | s :: ss, [], ha, _ => Or.inr (Or.inr (cmpParts_cons_nil ss (ha s (List.mem_cons_self _ _))))
  | [], o :: os, _, hb => Or.inl (cmpParts_nil_cons os (hb o (List.mem_cons_self _ _)))
  | s :: ss, o :: os, ha, hb => by
    rw [cmpParts_cons_cons]
    by_cases h : comparePrePart s o = 0
    · rw [if_neg (by simpa using h)]
      exact cmpParts_values ss os (fun p hp => ha p (List.mem_cons_of_mem _ hp))
        (fun p hp => hb p (List.mem_cons_of_mem _ hp))
    · rw [if_pos h]
      rcases comparePrePart_values s o with h1 | h1 | h1
      · exact Or.inl h1
      · exact absurd h1 h
      · exact Or.inr (Or.inr h1)

theorem cmpParts_antisymm : ∀ (a b : List (List Char)), (∀ p ∈ a, validPart p) →
    (∀ p ∈ b, validPart p) →
    (comparePrereleaseParts a b = 1 ↔ comparePrereleaseParts b a = -1)
  | [], [], _, _ => by simp [cmpParts_nil_nil]
  | s :: ss, [], ha, _ => by
    have hs := ha s (List.mem_cons_self _ _)
    simp [cmpParts_cons_nil ss hs, cmpParts_nil_cons ss hs]
  | [], o :: os, _, hb => by
    have ho := hb o (List.mem_cons_self _ _)
    simp [cmpParts_cons_nil os ho, cmpParts_nil_cons os ho]
  | s :: ss, o :: os, ha, hb => by
    have hs := ha s (List.mem_cons_self _ _)
    have ho := hb o (List.mem_cons_self _ _)
    rw [cmpParts_cons_cons, cmpParts_cons_cons]
    by_cases h : s = o
    · subst h
      simp only [comparePrePart_self, ne_eq, not_true_eq_false, if_false]
      exact cmpParts_antisymm ss os (fun p hp => ha p (List.mem_cons_of_mem _ hp))
        (fun p hp => hb p (List.mem_cons_of_mem _ hp))
    · have h1 : comparePrePart s o ≠ 0 := fun e => h (comparePrePart_eq_zero e)
      have h2 : comparePrePart o s ≠ 0 := fun e => h (comparePrePart_eq_zero e).symm
      rw [if_pos h1, if_pos h2]
      exact comparePrePart_antisymm hs ho

theorem cmpParts_trans : ∀ (a b c : List (List Char)), (∀ p ∈ a, validPart p) →
    (∀ p ∈ b, validPart p) → (∀ p ∈ c, validPart p) →
    comparePrereleaseParts a b = -1 → comparePrereleaseParts b c = -1 →
    comparePrereleaseParts a c = -1
  | [], [], _, _, _, _, h, _ => by simp [cmpParts_nil_nil] at h
  | [], _ :: _, [], _, hb, _, _, h => by
    rw [cmpParts_cons_nil _ (hb _ (List.mem_cons_self _ _))] at h
    exact absurd h (by decide)
  | [], _ :: _, t :: ts, _, _, hc, _, _ => cmpParts_nil_cons ts (hc t (List.mem_cons_self _ _))
  | _ :: _, [], _, ha, _, _, h, _ => by
    rw [cmpParts_cons_nil _ (ha _ (List.mem_cons_self _ _))] at h
    exact absurd h (by decide)
  | _ :: _, _ :: _, [], _, hb, _, _, h => by
    rw [cmpParts_cons_nil _ (hb _ (List.mem_cons_self _ _))] at h
    exact absurd h (by decide)
  | s :: ss, o :: os, t :: ts, ha, hb, hc, h1, h2 => by
    have hs := ha s (List.mem_cons_self _ _)
    have ho := hb o (List.mem_cons_self _ _)
    have ht := hc t (List.mem_cons_self _ _)
    have ha2 : ∀ p ∈ ss, validPart p := fun p hp => ha p (List.mem_cons_of_mem _ hp)
    have hb2 : ∀ p ∈ os, validPart p := fun p hp => hb p (List.mem_cons_of_mem _ hp)
    have hc2 : ∀ p ∈ ts, validPart p := fun p hp => hc p (List.mem_cons_of_mem _ hp)
    rw [cmpParts_cons_cons] at h1 h2 ⊢
    by_cases e1 : s = o
    · subst e1
      simp only [comparePrePart_self, ne_eq, not_true_eq_false, if_false] at h1
      by_cases e2 : s = t
      · subst e2
        simp only [comparePrePart_self, ne_eq, not_true_eq_false, if_false] at h2 ⊢
        exact cmpParts_trans ss os ts ha2 hb2 hc2 h1 h2
      · have n2 : comparePrePart s t ≠ 0 := fun e => e2 (comparePrePart_eq_zero e)
        rw [if_pos n2] at h2 ⊢
        exact h2
    · have n1 : comparePrePart s o ≠ 0 := fun e => e1 (comparePrePart_eq_zero e)
      rw [if_pos n1] at h1
      by_cases e2 : o = t
      · subst e2
        rw [if_pos n1]
        exact h1
      · have n2 : comparePrePart o t ≠ 0 := fun e => e2 (comparePrePart_eq_zero e)
        rw [if_pos n2] at h2
        have h3 := comparePrePart_trans hs ho ht h1 h2
        have n3 : comparePrePart s t ≠ 0 := by rw [h3]; decide
        rw [if_pos n3]
        exact h3

theorem cmpParts_eq_zero : ∀ (a b : List (List Char)), (∀ p ∈ a, validPart p) →
    (∀ p ∈ b, validPart p) → comparePrereleaseParts a b = 0 → a = b
  | [], [], _, _, _ => rfl
  | s :: ss, [], ha, _, h => by
    rw [cmpParts_cons_nil ss (ha s (List.mem_cons_self _ _))] at h
    exact absurd h (by decide)
  | [], o :: os, _, hb, h => by
    rw [cmpParts_nil_cons os (hb o (List.mem_cons_self _ _))] at h
    exact absurd h (by decide)
  | s :: ss, o :: os, ha, hb, h => by
    rw [cmpParts_cons_cons] at h
    by_cases e : comparePrePart s o = 0
    · rw [if_neg (by simpa using e)] at h
      rw [comparePrePart_eq_zero e, cmpParts_eq_zero ss os
        (fun p hp => ha p (List.mem_cons_of_mem _ hp))
        (fun p hp => hb p (List.mem_cons_of_mem _ hp)) h]
    · rw [if_pos e] at h
      exact absurd h e

theorem OrderLaws.zero_symm {α : Type} {P : α → Prop} {f : α → α → Int}
    (L : OrderLaws P f) {a b : α} (ha : P a) (hb : P b) (h : f a b = 0) : f b a = 0 := by
  rcases L.vals b a hb ha with h1 | h1 | h1
  · have := (L.antisymm a b ha hb).mpr h1
    omega
  · exact h1
  · have := (L.antisymm b a hb ha).mp h1
    omega

theorem OrderLaws.congr_right {α : Type} {P : α → Prop} {f : α → α → Int}
    (L : OrderLaws P f) {a b c : α} (ha : P a) (hb : P b) (hc : P c) (h : f a b = 0) :
    f c a = f c b := by
  have e := L.congr a b c ha hb hc h
  rcases L.vals c a hc ha with h1 | h1 | h1
  · have h2 := (L.antisymm a c ha hc).mpr h1
    rw [e] at h2
    rw [h1, (L.antisymm b c hb hc).mp h2]
  · have h2 := L.zero_symm hc ha h1
    rw [e] at h2
    rw [h1, L.zero_symm hb hc h2]
  · have h2 := (L.antisymm c a hc ha).mp h1
    rw [e] at h2
    rcases L.vals c b hc hb with h3 | h3 | h3
    · have := (L.antisymm b c hb hc).mpr h3
      omega
    · have := L.zero_symm hc hb h3
      omega
    · rw [h1, h3]

theorem OrderLaws.lex {α β : Type} {P : α → Prop} {Q : β → Prop} {f : α → α → Int}
    {g : β → β → Int} (L : OrderLaws P f) (M : OrderLaws Q g) :
    OrderLaws (fun x : α × β => P x.1 ∧ Q x.2) (lexCompare f g) where
  vals := by
    intro a b ha hb
    unfold lexCompare
    split
    · rename_i h
      rcases L.vals a.1 b.1 ha.1 hb.1 with h1 | h1 | h1
      · exact Or.inl h1
      · exact absurd h1 h
      · exact Or.inr (Or.inr h1)
    · exact M.vals a.2 b.2 ha.2 hb.2
  self := by
    intro a ha
    unfold lexCompare
    rw [L.self a.1 ha.1]
    simpa using M.self a.2 ha.2
  antisymm := by
    intro a b ha hb
    unfold lexCompare
    rcases L.vals a.1 b.1 ha.1 hb.1 with h1 | h1 | h1
    · have h2 : f b.1 a.1 = 1 := (L.antisymm b.1 a.1 hb.1 ha.1).mpr h1
      simp [h1, h2]
    · have h2 := L.zero_symm ha.1 hb.1 h1
      simpa [h1, h2] using M.antisymm a.2 b.2 ha.2 hb.2
    · have h2 := (L.antisymm a.1 b.1 ha.1 hb.1).mp h1
      simp [h1, h2]
  trans := by
    intro a b c ha hb hc h1 h2
    unfold lexCompare at h1 h2 ⊢
    rcases L.vals a.1 b.1 ha.1 hb.1 with e1 | e1 | e1
    · rcases L.vals b.1 c.1 hb.1 hc.1 with e2 | e2 | e2
      · have e3 := L.trans a.1 b.1 c.1 ha.1 hb.1 hc.1 e1 e2
        simp [e3]
      · have e3 := L.congr_right hb.1 hc.1 ha.1 e2
        rw [e1] at e3
        simp [← e3]
      · simp [e2] at h2
    · have e3 := L.congr a.1 b.1 c.1 ha.1 hb.1 hc.1 e1
      rw [e3]
      simp only [e1, ne_eq, not_true_eq_false, if_false] at h1
      rcases L.vals b.1 c.1 hb.1 hc.1 with e2 | e2 | e2
      · simp [e2]
      · simp only [e2, ne_eq, not_true_eq_false, if_false] at h2 ⊢
        exact M.trans a.2 b.2 c.2 ha.2 hb.2 hc.2 h1 h2
      · simp [e2] at h2
    · simp [e1] at h1
  congr := by
    intro a b c ha hb hc h
    unfold lexCompare at h ⊢
    by_cases e1 : f a.1 b.1 = 0
    · simp only [e1, ne_eq, not_true_eq_false, if_false] at h
      rw [L.congr a.1 b.1 c.1 ha.1 hb.1 hc.1 e1, M.congr a.2 b.2 c.2 ha.2 hb.2 hc.2 h]
    · rw [if_pos e1] at h
      exact absurd h e1

theorem OrderLaws.pullback {α β : Type} {Q : β → Prop} {g : β → β → Int}
    (M : OrderLaws Q g) (key : α → β) :
    OrderLaws (fun a => Q (key a)) (fun a b => g (key a) (key b)) where
  vals := fun _ _ ha hb => M.vals _ _ ha hb
  self := fun _ ha => M.self _ ha
  antisymm := fun _ _ ha hb => M.antisymm _ _ ha hb
  trans := fun _ _ _ ha hb hc => M.trans _ _ _ ha hb hc
  congr := fun _ _ _ ha hb hc => M.congr _ _ _ ha hb hc

theorem compareSegment_laws : OrderLaws (fun _ : Nat => True) compareSegment where
  vals := by
    intro a b _ _
    unfold compareSegment
    split
    · exact Or.inl rfl
    · split
      · exact Or.inr (Or.inr rfl)
      · exact Or.inr (Or.inl rfl)
  self := by
    intro a _
    simp [compareSegment]
  antisymm := by
    intro a b _ _
    unfold compareSegment
    by_cases h1 : a < b
    · have h2 : ¬ b < a := by omega
      have h3 : b > a := h1
      simp [h1, h2, h3]
    · by_cases h2 : b < a
      · have h3 : a > b := h2
        simp [h1, h2, h3]
      · have h3 : ¬ a > b := h2
        have h4 : ¬ b > a := h1
        simp [h1, h2, h3, h4]
  trans := by
    intro a b c _ _ _
    unfold compareSegment
    intro h1 h2
    have a1 : a < b := by
      by_contra h
      rw [if_neg h] at h1
      split at h1 <;> exact absurd h1 (by decide)
    have a2 : b < c := by
      by_contra h
      rw [if_neg h] at h2
      split at h2 <;> exact absurd h2 (by decide)
    rw [if_pos (by omega)]
  congr := by
    intro a b c _ _ _
    unfold compareSegment
    intro h
    have e : a = b := by
      by_contra hne
      by_cases h1 : a < b
      · rw [if_pos h1] at h; exact absurd h (by decide)
      · have h2 : a > b := by omega
        rw [if_neg h1, if_pos h2] at h; exact absurd h (by decide)
    rw [e]

theorem comparePre_of_ne {p q : String} (hp : p ≠ "") (hq : q ≠ "") :
    comparePre p q = comparePrereleaseParts (Split p.data ['.']) (Split q.data ['.']) := by
  unfold comparePre comparePrerelease
  simp [hp, hq]

theorem validPre_parts {p : String} (h : validPre p) (hp : p ≠ "") :
    ∀ part ∈ Split p.data ['.'], validPart part := by
  rcases h with h | h
  · exact absurd h hp
  · exact h

theorem comparePre_laws : OrderLaws validPre comparePre where
  vals := by
    intro a b ha hb
    by_cases h1 : a = ""
    · by_cases h2 : b = "" <;> simp [comparePre, h1, h2]
    · by_cases h2 : b = ""
      · simp [comparePre, h1, h2]
      · rw [comparePre_of_ne h1 h2]
        exact cmpParts_values _ _ (validPre_parts ha h1) (validPre_parts hb h2)
  self := by
    intro a ha
    by_cases h1 : a = ""
    · simp [comparePre, h1]
    · rw [comparePre_of_ne h1 h1]
      exact cmpParts_self _ (validPre_parts ha h1)
  antisymm := by
    intro a b ha hb
    by_cases h1 : a = ""
    · by_cases h2 : b = "" <;> simp [comparePre, h1, h2]
    · by_cases h2 : b = ""
      · simp [comparePre, h1, h2]
      · rw [comparePre_of_ne h1 h2, comparePre_of_ne h2 h1]
        exact cmpParts_antisymm _ _ (validPre_parts ha h1) (validPre_parts hb h2)
  trans := by
    intro a b c ha hb hc
    by_cases h1 : a = ""
    · by_cases h2 : b = "" <;> simp [comparePre, h1, h2]
    · by_cases h2 : b = ""
      · by_cases h3 : c = "" <;> simp [comparePre, h1, h2, h3]
      · by_cases h3 : c = ""
        · simp [comparePre, h1, h2, h3]
        · rw [comparePre_of_ne h1 h2, comparePre_of_ne h2 h3, comparePre_of_ne h1 h3]
          exact cmpParts_trans _ _ _ (validPre_parts ha h1) (validPre_parts hb h2)
            (validPre_parts hc h3)
  congr := by
    intro a b c ha hb hc h
    by_cases h1 : a = ""
    · by_cases h2 : b = ""
      · rw [h1, h2]
      · simp [comparePre, h1, h2] at h
    · by_cases h2 : b = ""
      · simp [comparePre, h1, h2] at h
      · rw [comparePre_of_ne h1 h2] at h
        have e := cmpParts_eq_zero _ _ (validPre_parts ha h1) (validPre_parts hb h2) h
        by_cases h3 : c = ""
        · simp [comparePre, h1, h2, h3]
        · rw [comparePre_of_ne h1 h3, comparePre_of_ne h2 h3, e]

theorem Compare_eq_lex (v o : Version) :
    v.Compare o =
      lexCompare compareSegment (lexCompare compareSegment (lexCompare compareSegment comparePre))
        (v.major, v.minor, v.patch, v.pre) (o.major, o.minor, o.patch, o.pre) := by
  unfold Version.Compare lexCompare comparePre
  rfl

theorem Compare_laws : OrderLaws Version.Valid Version.Compare := by
  have L := (compareSegment_laws.lex (compareSegment_laws.lex
    (compareSegment_laws.lex comparePre_laws))).pullback
      (fun v : Version => (v.major, v.minor, v.patch, v.pre))
  have e : Version.Compare = (fun a b : Version =>
      lexCompare compareSegment (lexCompare compareSegment (lexCompare compareSegment comparePre))
        (a.major, a.minor, a.patch, a.pre) (b.major, b.minor, b.patch, b.pre)) := by
    funext a b
    exact Compare_eq_lex a b
  rw [e]
  refine ⟨?_, ?_, ?_, ?_, ?_⟩
  · exact fun a b ha hb => L.vals a b ⟨trivial, trivial, trivial, ha⟩ ⟨trivial, trivial, trivial, hb⟩
  · exact fun a ha => L.self a ⟨trivial, trivial, trivial, ha⟩
  · exact fun a b ha hb =>
      L.antisymm a b ⟨trivial, trivial, trivial, ha⟩ ⟨trivial, trivial, trivial, hb⟩
  · exact fun a b c ha hb hc => L.trans a b c ⟨trivial, trivial, trivial, ha⟩
      ⟨trivial, trivial, trivial, hb⟩ ⟨trivial, trivial, trivial, hc⟩
  · exact fun a b c ha hb hc => L.congr a b c ⟨trivial, trivial, trivial, ha⟩
      ⟨trivial, trivial, trivial, hb⟩ ⟨trivial, trivial, trivial, hc⟩

/-- On valid versions `GreaterThan` meets the requirement of `sort.Slice`. -/
theorem GreaterThan_isOrdering {α : Type} (parsed : α → Version) (l : List α)
    (hv : ∀ a ∈ l, (parsed a).Valid) :
    GoSort.IsOrdering (fun a b => (parsed a).GreaterThan (parsed b)) l := by
  have L := Compare_laws
  refine ⟨?_, ?_, ?_⟩
  · intro a ha
    simp [Version.GreaterThan, L.self _ (hv a ha)]
  · intro a ha b hb c hc h1 h2
    simp only [Version.GreaterThan, decide_eq_true_eq] at h1 h2 ⊢
    have e1 : (parsed a).Compare (parsed b) = 1 := by
      rcases L.vals _ _ (hv a ha) (hv b hb) with h | h | h <;> omega
    have e2 : (parsed b).Compare (parsed c) = 1 := by
      rcases L.vals _ _ (hv b hb) (hv c hc) with h | h | h <;> omega
    have f1 := (L.antisymm _ _ (hv a ha) (hv b hb)).mp e1
    have f2 := (L.antisymm _ _ (hv b hb) (hv c hc)).mp e2
    have f3 := L.trans _ _ _ (hv c hc) (hv b hb) (hv a ha) f2 f1
    have := (L.antisymm _ _ (hv a ha) (hv c hc)).mpr f3
    omega
  · intro a ha b hb c hc h1 h2
    simp only [Version.GreaterThan, decide_eq_false_iff_not, not_lt] at h1 h2 ⊢
    rcases L.vals _ _ (hv a ha) (hv b hb) with e1 | e1 | e1
    · rcases L.vals _ _ (hv b hb) (hv c hc) with e2 | e2 | e2
      · have := L.trans _ _ _ (hv a ha) (hv b hb) (hv c hc) e1 e2
        omega
      · have := L.congr_right (hv b hb) (hv c hc) (hv a ha) e2
        omega
      · omega
    · have := L.congr _ _ _ (hv a ha) (hv b hb) (hv c hc) e1
      omega
    · omega

theorem validatePrereleaseParts_ok : ∀ (ps : List (List Char)),
    validatePrereleaseParts ps = .ok () → ∀ p ∈ ps, validPart p
  | [], _ => by simp
  | q :: rest, h => by
    unfold validatePrereleaseParts at h
    split at h
    · cases h
    · rename_i hne
      have hq : validPart q := by
        refine ⟨by simpa using hne, ?_⟩
        intro hd
        rw [if_pos hd] at h
        split at h
        · cases h
        · rename_i hz
          simpa using hz
      have hrest : validatePrereleaseParts rest = .ok () := by
        split at h
        · split at h
          · cases h
          · exact h
        · split at h
          · cases h
          · exact h
      intro p hp
      rcases List.mem_cons.mp hp with e | e
      · rw [e]; exact hq
      · exact validatePrereleaseParts_ok rest hrest p e

theorem NewVersion_valid {s : List Char} {v : Version} (h : NewVersion s = .ok v) :
    v.Valid := by
  unfold NewVersion at h
  split at h
  · cases h
  · split at h
    · cases h
    · split at h
      · cases h
      · split at h
        · cases h
        · split at h
          · cases h
          · rename_i hpre
            split at h
            · cases h
            · injection h with h
              subst h
              unfold Version.Valid validPre
              simp only []
              split at hpre
              · right
                exact validatePrereleaseParts_ok _ hpre
              · rename_i hnil
                left
                simp only [ne_eq, not_not] at hnil
                rw [hnil]

theorem ParseVersion_valid {s : String} {v : Version} (h : resolver.ParseVersion s = .ok v) :
    v.Valid := by
  unfold resolver.ParseVersion at h
  simp only [] at h
  split at h
  · split at h
    · exact NewVersion_valid h
    · cases h
  · injection h with h
    subst h
    rename_i hv
    exact NewVersion_valid hv

end semver

/-! ## `sort.Slice` on short slices -/

namespace GoSort

theorem sort_nil (S : Slice) {α : Type} (less : α → α → Bool) : S.sort less [] = [] :=
  List.Perm.eq_nil (S.perm less [])

theorem sort_singleton (S : Slice) {α : Type} (less : α → α → Bool) (a : α) :
    S.sort less [a] = [a] :=
  List.perm_singleton.mp (S.perm less [a])

/-- Two elements of which the second is `less` than the first are swapped. -/
theorem sort_pair (S : Slice) {α : Type} (less : α → α → Bool) (a b : α)
    (ho : IsOrdering less [a, b]) (hba : less b a = true) : S.sort less [a, b] = [b, a] := by
  have hp := S.perm less [a, b]
  have hs := S.sorted less [a, b] ho
  have hl := hp.length_eq
  match hout : S.sort less [a, b] with
  | [] => rw [hout] at hl; simp at hl
  | [_] => rw [hout] at hl; simp at hl
  | _ :: _ :: _ :: _ => rw [hout] at hl; simp at hl
  | [x, y] =>
    rw [hout] at hp hs
    have hx : x = a ∨ x = b := by
      have : x ∈ [a, b] := hp.mem_iff.mp (by simp)
      simpa using this
    have hxy : less y x = false := by
      simpa using hs
    rcases hx with rfl | rfl
    · have hy : y = b := by
        have h1 := (List.perm_cons x).mp hp
        simpa using List.perm_singleton.mp h1
      subst hy
      rw [hba] at hxy
      cases hxy
    · have h2 : [a, x].Perm [x, a] := List.Perm.swap x a []
      have h1 := (List.perm_cons x).mp (hp.trans h2)
      have hy : y = a := by simpa using List.perm_singleton.mp h1
      rw [hy]

end GoSort

/-! ## The claims on `FilterVersions` and `SelectBestVersion` -/

namespace resolver
open semver

set_option maxRecDepth 100000 in
theorem ParseConstraint_tilde34 : ParseConstraint "~3.4" = .ok (some tilde34) := by decide

theorem sorted_mem {S : GoSort.Slice} {c : Constraints} {versions : List String}
    {p : versionPair} (hp : p ∈ S.sort newerFirst (matchedPairs c versions)) :
    p ∈ matchedPairs c versions :=
  (S.perm newerFirst (matchedPairs c versions)).mem_iff.mp hp

theorem newerFirst_isOrdering (c : Constraints) (versions : List String) :
    GoSort.IsOrdering newerFirst (matchedPairs c versions) :=
  GreaterThan_isOrdering (fun p : versionPair => p.parsed) _
    (fun p hp => ParseVersion_valid (matchedPairs_parsed c versions p hp).1)

theorem FilterVersions_perm (S : GoSort.Slice) (versions : List String) {constraint : String}
    {c : Constraints} (hc : ParseConstraint constraint = .ok (some c)) :
    ∃ out, FilterVersions S versions constraint = .ok out ∧
      out.Perm (versions.filter (satisfies c)) := by
  refine ⟨_, FilterVersions_eq S versions hc, ?_⟩
  rw [← matchedPairs_originals]
  exact (S.perm newerFirst _).map _

/-- C1: for every candidate list and every constraint that `ParseConstraint` turns
into a constraint (a well-formed one other than the empty string and `latest`),
`FilterVersions` returns without error, and its result holds exactly the candidates
that parse and whose version satisfies the constraint, as the original strings and
each as often as in the input; unparseable candidates are dropped without an error,
and the empty list gives the empty result. -/
theorem FilterVersions_exact (S : GoSort.Slice) (versions : List String) (constraint : String)
    (c : Constraints) (hc : ParseConstraint constraint = .ok (some c)) :
    (∃ out, FilterVersions S versions constraint = .ok out ∧
      out.Perm (versions.filter (satisfies c)) ∧
      ∀ v, out.count v = if satisfies c v then versions.count v else 0) ∧
    FilterVersions S [] constraint = .ok [] := by
  refine ⟨⟨_, FilterVersions_eq S versions hc, ?_, ?_⟩, ?_⟩
  · rw [← matchedPairs_originals]
    exact (S.perm newerFirst _).map _
  · intro v
    have hp : ((S.sort newerFirst (matchedPairs c versions)).map (fun v => v.original)).Perm
        (versions.filter (satisfies c)) := by
      rw [← matchedPairs_originals]
      exact (S.perm newerFirst _).map _
    rw [hp.count_eq]
    by_cases h : satisfies c v = true
    · rw [if_pos h, List.count_filter h]
    · rw [if_neg h, List.count_eq_zero]
      intro hv
      exact h (List.mem_filter.mp hv).2
  · rw [FilterVersions_eq S [] hc]
    simp [matchedPairs, GoSort.sort_nil]

theorem FilterVersions_exact_witness :
    ParseConstraint "~3.4" = .ok (some tilde34) ∧
    ((∃ out, FilterVersions GoSort.insertion ["3.4.0", "not-a-version", "3.4.5", "3.5.0"] "~3.4"
        = .ok out ∧
      out.Perm (["3.4.0", "not-a-version", "3.4.5", "3.5.0"].filter (satisfies tilde34)) ∧
      ∀ v, out.count v =
        if satisfies tilde34 v then ["3.4.0", "not-a-version", "3.4.5", "3.5.0"].count v else 0) ∧
    FilterVersions GoSort.insertion [] "~3.4" = .ok []) :=
  ⟨ParseConstraint_tilde34,
    FilterVersions_exact GoSort.insertion ["3.4.0", "not-a-version", "3.4.5", "3.5.0"] "~3.4"
      tilde34 ParseConstraint_tilde34⟩

theorem compareSegment_lt {x y : Nat} (h : x < y) : compareSegment x y = -1 := by
  simp [compareSegment, h]

theorem compareSegment_self (x : Nat) : compareSegment x x = 0 := by
  simp [compareSegment]

theorem LessThan_of_Precedes {a b : Version} (h : Precedes a b) : a.LessThan b = true := by
  unfold Version.LessThan Version.Compare
  rcases h with h | ⟨h1, h⟩ | ⟨h1, h2, h⟩ | ⟨h1, h2, h3, h4, h5⟩
  · simp [compareSegment_lt h]
  · simp [h1, compareSegment_self, compareSegment_lt h]
  · simp [h1, h2, compareSegment_self, compareSegment_lt h]
  · simp [h1, h2, h3, h4, h5, compareSegment_self]

theorem matchedPairs_tilde34 :
    matchedPairs tilde34 ["3.4.0", "3.4.5", "3.5.0", "3.3.9"] =
      [{ original := "3.4.0", parsed := { major := 3, minor := 4, patch := 0, pre := "",
                                          metadata := "", original := "3.4.0" } },
       { original := "3.4.5", parsed := { major := 3, minor := 4, patch := 5, pre := "",
                                          metadata := "", original := "3.4.5" } }] := by
  decide

/-- C2: for every candidate list and every constraint that `ParseConstraint` turns
into a constraint, the result of `FilterVersions` is sorted by parsed version in
descending precedence: every element parses, and no element is lower (`LessThan`)
than one that comes after it, in particular not lower than its right neighbour;
`LessThan` compares the numbers first and puts a prerelease of X below the release
of X.  For the candidates 3.4.0, 3.4.5, 3.5.0, 3.3.9 and the constraint `~3.4` the
result is exactly 3.4.5, 3.4.0. -/
theorem FilterVersions_sorted (S : GoSort.Slice) :
    (∀ (versions : List String) (constraint : String) (c : Constraints),
      ParseConstraint constraint = .ok (some c) →
      ∃ out, FilterVersions S versions constraint = .ok out ∧
        out.Pairwise (fun a b => ∃ pa pb, ParseVersion a = .ok pa ∧ ParseVersion b = .ok pb ∧
          pa.LessThan pb = false) ∧
        out.Chain' (fun a b => ∃ pa pb, ParseVersion a = .ok pa ∧ ParseVersion b = .ok pb ∧
          pa.LessThan pb = false)) ∧
    (∀ a b : Version, Precedes a b → a.LessThan b = true) ∧
    FilterVersions S ["3.4.0", "3.4.5", "3.5.0", "3.3.9"] "~3.4" = .ok ["3.4.5", "3.4.0"] := by
  refine ⟨?_, fun a b h => LessThan_of_Precedes h, ?_⟩
  · intro versions constraint c hc
    have hpw : ((S.sort newerFirst (matchedPairs c versions)).map (fun v => v.original)).Pairwise
        (fun a b => ∃ pa pb, ParseVersion a = .ok pa ∧ ParseVersion b = .ok pb ∧
          pa.LessThan pb = false) := by
      rw [List.pairwise_map]
      refine List.Pairwise.imp_of_mem ?_
        (S.sorted newerFirst _ (newerFirst_isOrdering c versions))
      intro p q hp hq hqp
      have hp1 := matchedPairs_parsed c versions p (sorted_mem hp)
      have hq1 := matchedPairs_parsed c versions q (sorted_mem hq)
      refine ⟨p.parsed, q.parsed, hp1.1, hq1.1, ?_⟩
      have vp := ParseVersion_valid hp1.1
      have vq := ParseVersion_valid hq1.1
      simp only [newerFirst, Version.GreaterThan, decide_eq_false_iff_not, not_lt] at hqp
      simp only [Version.LessThan, decide_eq_false_iff_not, not_lt]
      rcases Compare_laws.vals _ _ vp vq with h | h | h
      · have := (Compare_laws.antisymm _ _ vq vp).mpr h
        omega
      · omega
      · omega
    exact ⟨_, FilterVersions_eq S versions hc, hpw, hpw.chain'⟩
  · rw [FilterVersions_eq S _ ParseConstraint_tilde34, matchedPairs_tilde34]
    have ho := newerFirst_isOrdering tilde34 ["3.4.0", "3.4.5", "3.5.0", "3.3.9"]
    rw [matchedPairs_tilde34] at ho
    rw [GoSort.sort_pair S newerFirst _ _ ho (by decide)]
    rfl

theorem FilterVersions_sorted_witness :
    ParseConstraint "~3.4" = .ok (some tilde34) ∧
    ∃ out, FilterVersions GoSort.insertion ["3.3.9", "3.4.0", "junk", "3.4.5-rc1", "3.4.5"] "~3.4"
        = .ok out ∧
      out.Pairwise (fun a b => ∃ pa pb, ParseVersion a = .ok pa ∧ ParseVersion b = .ok pb ∧
        pa.LessThan pb = false) ∧
      out.Chain' (fun a b => ∃ pa pb, ParseVersion a = .ok pa ∧ ParseVersion b = .ok pb ∧
        pa.LessThan pb = false) :=
  ⟨ParseConstraint_tilde34,
    (FilterVersions_sorted GoSort.insertion).1 ["3.3.9", "3.4.0", "junk", "3.4.5-rc1", "3.4.5"]
      "~3.4" tilde34 ParseConstraint_tilde34⟩

/-- C5: for every non-empty candidate list, `SelectBestVersion` with the constraint
`""` or `latest` returns the first element and no error, whatever the strings are:
nothing is parsed or reordered. -/
theorem SelectBestVersion_no_constraint (S : GoSort.Slice) (first : String)
    (rest : List String) :
    SelectBestVersion S (first :: rest) "" = .ok first ∧
    SelectBestVersion S (first :: rest) "latest" = .ok first ∧
    SelectBestVersion S ["not-a-version", "5.0.0"] "" = .ok "not-a-version" := by
  refine ⟨?_, ?_, ?_⟩ <;> simp [SelectBestVersion]

/-- C6: `SelectBestVersion` returns the empty selection and no error (1) on the
empty candidate list, for every constraint string whatsoever, and (2) when the
constraint is one that `ParseConstraint` turns into a constraint and no candidate
parses and satisfies it; (3) when some candidate does, `FilterVersions` returns a
non-empty list and `SelectBestVersion` returns its first element. -/
theorem SelectBestVersion_selection (S : GoSort.Slice) :
    (∀ constraint : String, SelectBestVersion S [] constraint = .ok "") ∧
    (∀ (versions : List String) (constraint : String) (c : Constraints),
      ParseConstraint constraint = .ok (some c) →
      (∀ v ∈ versions, satisfies c v = false) →
      SelectBestVersion S versions constraint = .ok "") ∧
    (∀ (versions : List String) (constraint : String) (c : Constraints),
      ParseConstraint constraint = .ok (some c) →
      (∃ v ∈ versions, satisfies c v = true) →
      ∃ best others, FilterVersions S versions constraint = .ok (best :: others) ∧
        SelectBestVersion S versions constraint = .ok best) := by
  refine ⟨fun _ => rfl, ?_, ?_⟩
  · intro versions constraint c hc hnone
    obtain ⟨out, hout, hperm⟩ := FilterVersions_perm S versions hc
    have hnil : versions.filter (satisfies c) = [] := by
      rw [List.filter_eq_nil_iff]
      intro v hv
      rw [hnone v hv]
      simp
    rw [hnil] at hperm
    have hout2 : out = [] := hperm.eq_nil
    subst hout2
    cases versions with
    | nil => rfl
    | cons v rest =>
      simp only [SelectBestVersion]
      rw [if_neg (ParseConstraint_some_ne hc), hout]
  · intro versions constraint c hc hsome
    obtain ⟨v, hv, hsat⟩ := hsome
    obtain ⟨out, hout, hperm⟩ := FilterVersions_perm S versions hc
    have hmem : v ∈ out := hperm.mem_iff.mpr (List.mem_filter.mpr ⟨hv, hsat⟩)
    cases out with
    | nil => simp at hmem
    | cons best others =>
      refine ⟨best, others, hout, ?_⟩
      cases versions with
      | nil => simp at hv
      | cons w rest =>
        simp only [SelectBestVersion]
        rw [if_neg (ParseConstraint_some_ne hc), hout]

theorem SelectBestVersion_selection_witness :
    (ParseConstraint "~3.4" = .ok (some tilde34) ∧
      (∀ v ∈ ["3.5.0", "junk"], satisfies tilde34 v = false) ∧
      SelectBestVersion GoSort.insertion ["3.5.0", "junk"] "~3.4" = .ok "") ∧
    ((∃ v ∈ ["3.5.0", "3.4.1"], satisfies tilde34 v = true) ∧
      ∃ best others, FilterVersions GoSort.insertion ["3.5.0", "3.4.1"] "~3.4"
          = .ok (best :: others) ∧
        SelectBestVersion GoSort.insertion ["3.5.0", "3.4.1"] "~3.4" = .ok best) :=
  ⟨⟨ParseConstraint_tilde34, by decide,
      (SelectBestVersion_selection GoSort.insertion).2.1 ["3.5.0", "junk"] "~3.4" tilde34
        ParseConstraint_tilde34 (by decide)⟩,
    ⟨by decide,
      (SelectBestVersion_selection GoSort.insertion).2.2 ["3.5.0", "3.4.1"] "~3.4" tilde34
        ParseConstraint_tilde34 (by decide)⟩⟩

/-- C8: for every candidate list, unparseable strings included, `FilterVersions`
with the constraint `""` or `latest` returns the input list unchanged (same elements,
same order, nothing dropped) and no error. -/
theorem FilterVersions_no_constraint (S : GoSort.Slice) (versions : List String) :
    FilterVersions S versions "" = .ok versions ∧
    FilterVersions S versions "latest" = .ok versions ∧
    FilterVersions S ["5.0.0", "not-a-version"] "" = .ok ["5.0.0", "not-a-version"] := by
  refine ⟨?_, ?_, ?_⟩ <;> simp [FilterVersions]

end resolver

/-! ## Prereleases and constraints -/

namespace semver

theorem mapM_ok_forall {α β : Type} (f : α → Except GoError β) :
    ∀ (l : List α) (out : List β), l.mapM f = .ok out →
      List.Forall₂ (fun a b => f a = .ok b) l out
  | [], out, h => by
    simp only [List.mapM_nil, pure, Except.pure] at h
    injection h with h
    subst h
    exact List.Forall₂.nil
  | a :: as, out, h => by
    rw [List.mapM_cons] at h
    cases ha : f a with
    | error e => rw [ha] at h; cases h
    | ok b =>
      rw [ha] at h
      cases hb : as.mapM f with
      | error e => rw [hb] at h; cases h
      | ok bs =>
        rw [hb] at h
        simp only [bind, Except.bind, pure, Except.pure] at h
        injection h with h
        subst h
        exact List.Forall₂.cons ha (mapM_ok_forall f as bs hb)

theorem mapM_ok_mem {α β : Type} (f : α → Except GoError β) (l : List α) (out : List β)
    (h : l.mapM f = .ok out) : ∀ b ∈ out, ∃ a ∈ l, f a = .ok b := by
  have hall := mapM_ok_forall f l out h
  induction hall with
  | nil => intro b hb; simp at hb
  | cons hab _ ih =>
    intro b hb
    rename_i a1 b1 l1 l2 hrest
    have hrest2 : l1.mapM f = .ok l2 := by
      rw [List.mapM_cons, hab] at h
      cases hm : l1.mapM f with
      | error e => rw [hm] at h; cases h
      | ok bs =>
        rw [hm] at h
        simp only [bind, Except.bind, pure, Except.pure] at h
        injection h with h
        injection h with _ h2
        rw [h2]
    rcases List.mem_cons.mp hb with e | e
    · exact ⟨a1, List.mem_cons_self _ _, e ▸ hab⟩
    · obtain ⟨a, ha, hfa⟩ := ih hrest2 b e
      exact ⟨a, List.mem_cons_of_mem _ ha, hfa⟩

/-- Without `includePre` no operator accepts a version that has a prerelease. -/
theorem check_prerelease_excluded (k : constraint) (v : Version) (hv : v.pre ≠ "") :
    k.check v false = false := by
  unfold constraint.check constraintTildeOrEqual constraintNotEqual constraintGreaterThan
    constraintLessThan constraintGreaterThanEqual constraintLessThanEqual constraintTilde
    constraintCaret
  simp [hv]

theorem parseGroup_ok {s : List Char} {result : List constraint} {flag : Bool}
    (h : parseGroup s = .ok (result, flag)) :
    result ≠ [] ∧ flag = result.any (fun pc => pc.con.pre ≠ "") := by
  unfold parseGroup at h
  split at h
  · cases h
  · simp only [] at h
    split at h
    · cases h
    · rename_i res hres
      injection h with h
      injection h with h1 h2
      subst h1
      refine ⟨?_, h2.symm⟩
      have hlen := (mapM_ok_forall parseConstraint _ _ hres).length_eq
      intro hnil
      rw [hnil] at hlen
      split at hlen
      · simp at hlen
      · rename_i hne
        simp only [List.length_nil, List.length_eq_zero] at hlen
        simp [hlen] at hne

theorem NewConstraint_ok {s : List Char} {c : Constraints} (h : NewConstraint s = .ok c) :
    c.IncludePrerelease = false ∧
      ∀ g ∈ c.constraints.zip c.containsPre,
        g.1 ≠ [] ∧ g.2 = g.1.any (fun pc => pc.con.pre ≠ "") := by
  unfold NewConstraint at h
  split at h
  · cases h
  · rename_i groups hgroups
    injection h with h
    subst h
    refine ⟨rfl, ?_⟩
    intro g hg
    simp only [List.zip_map', List.mem_map] at hg
    obtain ⟨g0, hg0, rfl⟩ := hg
    obtain ⟨src, _, hsrc⟩ := mapM_ok_mem parseGroup _ _ hgroups g0 hg0
    exact parseGroup_ok hsrc

end semver

namespace resolver
open semver

set_option maxRecDepth 100000 in
theorem ParseConstraint_tilde340pre : ParseConstraint "~3.4.0-0" = .ok (some tilde340pre) := by
  decide

theorem ParseConstraint_NewConstraint {constraint : String} {c : Constraints}
    (hc : ParseConstraint constraint = .ok (some c)) :
    ∃ s, NewConstraint s = .ok c := by
  unfold ParseConstraint at hc
  rw [if_neg (ParseConstraint_some_ne hc)] at hc
  simp only [] at hc
  split at hc
  · cases hc
  · rename_i c1 hc1
    injection hc with hc
    injection hc with hc
    subst hc
    exact ⟨_, hc1⟩

/-- A version with a prerelease satisfies a constraint that `ParseConstraint` yields
only when, in a group of comparators that the version satisfies, the bound of some
comparator has a prerelease itself (a marker such as `-0`). -/
theorem Check_prerelease {constraint : String} {c : Constraints} {v : Version}
    (hc : ParseConstraint constraint = .ok (some c)) (hv : v.pre ≠ "")
    (hcheck : c.Check v = true) :
    ∃ g ∈ c.constraints, (∀ k ∈ g, k.check v true = true) ∧ ∃ k ∈ g, k.con.pre ≠ "" := by
  obtain ⟨s, hs⟩ := ParseConstraint_NewConstraint hc
  obtain ⟨hinc, hgroups⟩ := NewConstraint_ok hs
  unfold Constraints.Check at hcheck
  rw [List.any_eq_true] at hcheck
  obtain ⟨g, hg, hall⟩ := hcheck
  obtain ⟨hne, hflag⟩ := hgroups g hg
  rw [hinc, Bool.false_or, List.all_eq_true] at hall
  have hpre : g.2 = true := by
    cases hg2 : g.2 with
    | true => rfl
    | false =>
      obtain ⟨k, hk⟩ := List.exists_mem_of_ne_nil _ hne
      have h1 := hall k hk
      rw [hg2, check_prerelease_excluded k v hv] at h1
      cases h1
  rw [hpre] at hall
  refine ⟨g.1, (List.of_mem_zip hg).1, hall, ?_⟩
  rw [hpre] at hflag
  obtain ⟨k, hk, hkpre⟩ := List.any_eq_true.mp hflag.symm
  exact ⟨k, hk, by simpa using hkpre⟩

end resolver

/-! ## The adapters: membership of the selected version -/

namespace resolver
open semver

/-- A non-empty selection is a candidate, and it satisfies the constraint when
`ParseConstraint` yields one. -/
theorem SelectBestVersion_mem (S : GoSort.Slice) {versions : List String}
    {constraint sel : String} (h : SelectBestVersion S versions constraint = .ok sel)
    (hsel : sel ≠ "") :
    sel ∈ versions ∧
      ∀ c, ParseConstraint constraint = .ok (some c) → satisfies c sel = true := by
  cases versions with
  | nil =>
    simp only [SelectBestVersion] at h
    injection h with h
    exact absurd h.symm hsel
  | cons first rest =>
    simp only [SelectBestVersion] at h
    by_cases hno : constraint = "" ∨ constraint = "latest"
    · rw [if_pos hno] at h
      injection h with h
      subst h
      exact ⟨List.mem_cons_self _ _, fun c hc => absurd hno (ParseConstraint_some_ne hc)⟩
    · rw [if_neg hno] at h
      cases hp : ParseConstraint constraint with
      | error e =>
        have hf : FilterVersions S (first :: rest) constraint = .error e := by
          unfold FilterVersions
          rw [if_neg hno, hp]
        rw [hf] at h
        cases h
      | ok oc =>
        cases oc with
        | none => exact absurd ((ParseConstraint_none_iff constraint).mp hp) hno
        | some c =>
          obtain ⟨out, hout, hperm⟩ := FilterVersions_perm S (first :: rest) hp
          rw [hout] at h
          cases out with
          | nil =>
            injection h with h
            exact absurd h.symm hsel
          | cons best others =>
            injection h with h
            subst h
            have hm := List.mem_filter.mp (hperm.mem_iff.mp (List.mem_cons_self _ _))
            refine ⟨hm.1, ?_⟩
            intro c2 hc2
            injection hc2 with hc2
            injection hc2 with hc2
            subst hc2
            exact hm.2

/-- What a successful `HangarResolver.Resolve` went through: the registry answered,
`SelectBestVersion` chose the name of a version that has a download for the
platform, and the result is built from the first such version of that name. -/
theorem HangarResolver.hangar_Resolve_ok (S : GoSort.Slice) (h : HangarResolver) (cfg : PluginConfig)
    (r : Result) (hr : h.Resolve S cfg = .ok r) :
    ∃ platform resp selected,
      platform = (if cfg.Platform = "" then "VELOCITY" else cfg.Platform) ∧
      h.client cfg.Project = .ok resp ∧
      (resp.Result.filter (fun v => (v.Downloads.lookup platform).isSome)).find?
        (fun v => v.Name = selected.Name) = some selected ∧
      SelectBestVersion S
        ((resp.Result.filter (fun v => (v.Downloads.lookup platform).isSome)).map
          (fun v => v.Name)) cfg.Version = .ok selected.Name ∧
      selected.Name ≠ "" ∧
      r = { Source := "hangar", Project := cfg.Project, Version := selected.Name,
            Platform := platform,
            URL := ((selected.Downloads.lookup platform).getD {}).DownloadURL,
            SHA256 := ((selected.Downloads.lookup platform).getD {}).FileInfo.SHA256Hash,
            ResolvedAt := h.now } := by
  unfold HangarResolver.Resolve HangarResolver.fetchVersions at hr
  simp only [] at hr
  generalize (if cfg.Platform = "" then "VELOCITY" else cfg.Platform) = platform at hr
  cases hresp : h.client cfg.Project with
  | error e => rw [hresp] at hr; cases hr
  | ok resp =>
    rw [hresp] at hr
    simp only [] at hr
    by_cases hlen : (resp.Result.filter (fun v => (v.Downloads.lookup platform).isSome)).length = 0
    · rw [if_pos hlen] at hr; cases hr
    · rw [if_neg hlen] at hr
      cases hsel : SelectBestVersion S
          ((resp.Result.filter (fun v => (v.Downloads.lookup platform).isSome)).map
            (fun v => v.Name)) cfg.Version with
      | error e => rw [hsel] at hr; cases hr
      | ok sel =>
        rw [hsel] at hr
        simp only [] at hr
        by_cases hne : sel = ""
        · rw [if_pos hne] at hr; cases hr
        · rw [if_neg hne] at hr
          cases hfind : (resp.Result.filter (fun v => (v.Downloads.lookup platform).isSome)).find?
              (fun v => v.Name = sel) with
          | none => rw [hfind] at hr; cases hr
          | some selected =>
            rw [hfind] at hr
            injection hr with hr
            have hname : selected.Name = sel := by simpa using List.find?_some hfind
            subst hname
            exact ⟨platform, resp, selected, rfl, rfl, hfind, hsel, hne, hr.symm⟩

/-- What a successful `ModrinthResolver.Resolve` went through. -/
theorem ModrinthResolver.modrinth_Resolve_ok (S : GoSort.Slice) (m : ModrinthResolver)
    (cfg : PluginConfig) (r : Result) (hr : m.Resolve S cfg = .ok r) :
    ∃ loader versions selected file,
      loader = (if cfg.Loader = "" then "velocity" else cfg.Loader) ∧
      m.client cfg.Project loader cfg.GameVersions = .ok versions ∧
      versions.find? (fun v => v.VersionNumber = selected.VersionNumber) = some selected ∧
      SelectBestVersion S (versions.map (fun v => v.VersionNumber)) cfg.Version
        = .ok selected.VersionNumber ∧
      selected.VersionNumber ≠ "" ∧
      file = (if ((selected.Files.find? (fun f => f.Primary)).getD {}).URL = "" ∧
                selected.Files.length > 0
              then selected.Files.headD {}
              else (selected.Files.find? (fun f => f.Primary)).getD {}) ∧
      r = { Source := "modrinth", Project := cfg.Project, Version := selected.VersionNumber,
            Loader := loader, URL := file.URL, SHA512 := file.Hashes.SHA512,
            SHA256 := file.Hashes.SHA256, ResolvedAt := m.now } := by
  unfold ModrinthResolver.Resolve ModrinthResolver.fetchVersions at hr
  simp only [] at hr
  generalize (if cfg.Loader = "" then "velocity" else cfg.Loader) = loader at hr
  cases hresp : m.client cfg.Project loader cfg.GameVersions with
  | error e => rw [hresp] at hr; cases hr
  | ok versions =>
    rw [hresp] at hr
    simp only [] at hr
    by_cases hlen : versions.length = 0
    · rw [if_pos hlen] at hr; cases hr
    · rw [if_neg hlen] at hr
      cases hsel : SelectBestVersion S (versions.map (fun v => v.VersionNumber)) cfg.Version with
      | error e => rw [hsel] at hr; cases hr
      | ok sel =>
        rw [hsel] at hr
        simp only [] at hr
        by_cases hne : sel = ""
        · rw [if_pos hne] at hr; cases hr
        · rw [if_neg hne] at hr
          cases hfind : versions.find? (fun v => v.VersionNumber = sel) with
          | none => rw [hfind] at hr; cases hr
          | some selected =>
            rw [hfind] at hr
            injection hr with hr
            have hname : selected.VersionNumber = sel := by simpa using List.find?_some hfind
            subst hname
            exact ⟨loader, versions, selected, _, rfl, hresp, hfind, hsel, hne, rfl,
              hr.symm⟩

/-- What a successful `PaperMCResolver.Resolve` went through. -/
theorem PaperMCResolver.papermc_Resolve_ok (S : GoSort.Slice) (p : PaperMCResolver)
    (cfg : PluginConfig) (r : Result) (hr : p.Resolve S cfg = .ok r) :
    ∃ project versions sel build downloadName,
      project = (if cfg.Project = "" then "velocity" else cfg.Project) ∧
      p.projects project = .ok versions ∧
      SelectBestVersion S versions.reverse cfg.Version = .ok sel ∧
      sel ≠ "" ∧
      p.fetchLatestBuild project sel = .ok (build, downloadName) ∧
      r = { Source := "papermc", Project := project, Version := sel, Build := build,
            URL := paperMCAPIBase ++ "/projects/" ++ project ++ "/versions/" ++ sel ++
              "/builds/" ++ toString build ++ "/downloads/" ++ downloadName,
            ResolvedAt := p.now } := by
  unfold PaperMCResolver.Resolve PaperMCResolver.fetchVersions at hr
  simp only [] at hr
  generalize (if cfg.Project = "" then "velocity" else cfg.Project) = project at hr
  cases hresp : p.projects project with
  | error e => rw [hresp] at hr; cases hr
  | ok versions =>
    rw [hresp] at hr
    simp only [] at hr
    by_cases hlen : versions.reverse.length = 0
    · rw [if_pos hlen] at hr; cases hr
    · rw [if_neg hlen] at hr
      cases hsel : SelectBestVersion S versions.reverse cfg.Version with
      | error e => rw [hsel] at hr; cases hr
      | ok sel =>
        rw [hsel] at hr
        simp only [] at hr
        by_cases hne : sel = ""
        · rw [if_pos hne] at hr; cases hr
        · rw [if_neg hne] at hr
          cases hb : p.fetchLatestBuild project sel with
          | error e => rw [hb] at hr; cases hr
          | ok bd =>
            rw [hb] at hr
            obtain ⟨build, downloadName⟩ := bd
            injection hr with hr
            exact ⟨project, versions, sel, build, downloadName, rfl, hresp, hsel, hne,
              hb, hr.symm⟩

/-- C9: whenever `Resolve` of the Hangar, Modrinth or PaperMC adapter succeeds, the
registry answered the request and the version of the result is one of the version
strings of that answer (Hangar: the name of a returned version; Modrinth: the
version number of a returned version; PaperMC: an element of the returned list),
and it parses and satisfies the constraint of the request when one is given. -/
theorem resolved_version_is_candidate (S : GoSort.Slice) (cfg : PluginConfig) (r : Result) :
    (∀ h : HangarResolver, h.Resolve S cfg = .ok r →
      ∃ resp, h.client cfg.Project = .ok resp ∧
        r.Version ∈ resp.Result.map (fun v => v.Name) ∧
        ∀ c, ParseConstraint cfg.Version = .ok (some c) → satisfies c r.Version = true) ∧
    (∀ m : ModrinthResolver, m.Resolve S cfg = .ok r →
      ∃ versions,
        m.client cfg.Project (if cfg.Loader = "" then "velocity" else cfg.Loader)
          cfg.GameVersions = .ok versions ∧
        r.Version ∈ versions.map (fun v => v.VersionNumber) ∧
        ∀ c, ParseConstraint cfg.Version = .ok (some c) → satisfies c r.Version = true) ∧
    (∀ p : PaperMCResolver, p.Resolve S cfg = .ok r →
      ∃ versions,
        p.projects (if cfg.Project = "" then "velocity" else cfg.Project) = .ok versions ∧
        r.Version ∈ versions ∧
        ∀ c, ParseConstraint cfg.Version = .ok (some c) → satisfies c r.Version = true) := by
  refine ⟨?_, ?_, ?_⟩
  · intro h hr
    obtain ⟨platform, resp, selected, _, hresp, hfind, hsel, hne, rfl⟩ :=
      HangarResolver.hangar_Resolve_ok S h cfg r hr
    refine ⟨resp, hresp, ?_, (SelectBestVersion_mem S hsel hne).2⟩
    exact List.mem_map.mpr
      ⟨selected, (List.mem_filter.mp (List.mem_of_find?_eq_some hfind)).1, rfl⟩
  · intro m hr
    obtain ⟨loader, versions, selected, file, hl, hresp, hfind, hsel, hne, _, rfl⟩ :=
      ModrinthResolver.modrinth_Resolve_ok S m cfg r hr
    subst hl
    refine ⟨versions, hresp, ?_, (SelectBestVersion_mem S hsel hne).2⟩
    exact List.mem_map.mpr ⟨selected, List.mem_of_find?_eq_some hfind, rfl⟩
  · intro p hr
    obtain ⟨project, versions, sel, build, downloadName, hp, hresp, hsel, hne, _, rfl⟩ :=
      PaperMCResolver.papermc_Resolve_ok S p cfg r hr
    subst hp
    obtain ⟨hin, hsat⟩ := SelectBestVersion_mem S hsel hne
    exact ⟨versions, hresp, List.mem_reverse.mp hin, hsat⟩

set_option maxRecDepth 100000 in
theorem sampleHangar_resolves :
    sampleHangar.Resolve GoSort.insertion sampleRequest = .ok sampleHangarResult := by decide

set_option maxRecDepth 100000 in
theorem sampleModrinth_resolves :
    sampleModrinth.Resolve GoSort.insertion sampleRequest = .ok sampleModrinthResult := by decide

set_option maxRecDepth 100000 in
theorem samplePaperMC_resolves :
    samplePaperMC.Resolve GoSort.insertion sampleRequest = .ok samplePaperMCResult := by decide

theorem resolved_version_is_candidate_witness :
    (sampleHangar.Resolve GoSort.insertion sampleRequest = .ok sampleHangarResult ∧
      ∃ resp, sampleHangar.client sampleRequest.Project = .ok resp ∧
        sampleHangarResult.Version ∈ resp.Result.map (fun v => v.Name) ∧
        ∀ c, ParseConstraint sampleRequest.Version = .ok (some c) →
          satisfies c sampleHangarResult.Version = true) ∧
    (sampleModrinth.Resolve GoSort.insertion sampleRequest = .ok sampleModrinthResult ∧
      ∃ versions,
        sampleModrinth.client sampleRequest.Project
          (if sampleRequest.Loader = "" then "velocity" else sampleRequest.Loader)
          sampleRequest.GameVersions = .ok versions ∧
        sampleModrinthResult.Version ∈ versions.map (fun v => v.VersionNumber) ∧
        ∀ c, ParseConstraint sampleRequest.Version = .ok (some c) →
          satisfies c sampleModrinthResult.Version = true) ∧
    (samplePaperMC.Resolve GoSort.insertion sampleRequest = .ok samplePaperMCResult ∧
      ∃ versions,
        samplePaperMC.projects
          (if sampleRequest.Project = "" then "velocity" else sampleRequest.Project)
            = .ok versions ∧
        samplePaperMCResult.Version ∈ versions ∧
        ∀ c, ParseConstraint sampleRequest.Version = .ok (some c) →
          satisfies c samplePaperMCResult.Version = true) :=
  ⟨⟨sampleHangar_resolves,
      (resolved_version_is_candidate GoSort.insertion sampleRequest sampleHangarResult).1
        sampleHangar sampleHangar_resolves⟩,
   ⟨sampleModrinth_resolves,
      (resolved_version_is_candidate GoSort.insertion sampleRequest sampleModrinthResult).2.1
        sampleModrinth sampleModrinth_resolves⟩,
   ⟨samplePaperMC_resolves,
      (resolved_version_is_candidate GoSort.insertion sampleRequest samplePaperMCResult).2.2
        samplePaperMC samplePaperMC_resolves⟩⟩

end resolver

/-! ## The adapters: the locator fields -/

namespace resolver

theorem append_ne_empty (a b : String) (h : a ≠ "") : a ++ b ≠ "" := by
  intro e
  apply h
  have h1 : (a ++ b).data = [] := by rw [e]
  rw [String.data_append] at h1
  have h2 : a.data = [] := (List.append_eq_nil.mp h1).1
  exact String.ext h2

/-- C10 at the failing inputs: the Hangar adapter succeeds with both locator fields
empty when the platform download of the selected version has no download URL, and
so does the Modrinth adapter when the selected version has no files, where the
claim asks for exactly one populated locator in every successful result. -/
theorem locator_counterexample :
    (hangarWithoutURL.Resolve GoSort.insertion {} =
        .ok { Source := "hangar", Version := "1.0.0", Platform := "VELOCITY", URL := "",
              S3URI := "", SHA256 := "ab", ResolvedAt := 0 }) ∧
    (modrinthWithoutFiles.Resolve GoSort.insertion {} =
        .ok { Source := "modrinth", Version := "1.0.0", Loader := "velocity", URL := "",
              S3URI := "", ResolvedAt := 0 }) ∧
    ¬ (∀ (S : GoSort.Slice) (h : HangarResolver) (cfg : PluginConfig) (r : Result),
        h.Resolve S cfg = .ok r → exactlyOneLocator r) ∧
    ¬ (∀ (S : GoSort.Slice) (m : ModrinthResolver) (cfg : PluginConfig) (r : Result),
        m.Resolve S cfg = .ok r → exactlyOneLocator r) := by
  have h1 : hangarWithoutURL.Resolve GoSort.insertion {} =
      .ok { Source := "hangar", Version := "1.0.0", Platform := "VELOCITY", URL := "",
            S3URI := "", SHA256 := "ab", ResolvedAt := 0 } := by decide
  have h2 : modrinthWithoutFiles.Resolve GoSort.insertion {} =
      .ok { Source := "modrinth", Version := "1.0.0", Loader := "velocity", URL := "",
            S3URI := "", ResolvedAt := 0 } := by decide
  refine ⟨h1, h2, ?_, ?_⟩
  · intro hall
    have := hall _ _ _ _ h1
    unfold exactlyOneLocator at this
    simp at this
  · intro hall
    have := hall _ _ _ _ h2
    unfold exactlyOneLocator at this
    simp at this

/-- What a successful `S3Resolver.Resolve` went through. -/
theorem S3Resolver.s3_Resolve_ok (s : S3Resolver) (cfg : PluginConfig) (r : Result)
    (hr : s.Resolve cfg = .ok r) :
    ∃ version key,
      version = (if cfg.Version = "" then "latest" else cfg.Version) ∧
      key = (if GoStrings.Contains cfg.Key.data versionPlaceholder.data then
               String.mk (GoStrings.ReplaceAll cfg.Key.data versionPlaceholder.data version.data)
             else cfg.Key) ∧
      r = { Source := "s3", Version := version, S3URI := "s3://" ++ cfg.Bucket ++ "/" ++ key,
            ResolvedAt := s.now } := by
  unfold S3Resolver.Resolve at hr
  by_cases hb : cfg.Bucket = ""
  · rw [if_pos hb] at hr; cases hr
  · rw [if_neg hb] at hr
    by_cases hk : cfg.Key = ""
    · rw [if_pos hk] at hr; cases hr
    · rw [if_neg hk] at hr
      simp only [] at hr
      generalize (if cfg.Version = "" then "latest" else cfg.Version) = version at hr
      by_cases hl : GoStrings.Contains cfg.Key.data versionPlaceholder.data = true ∧
          version = "latest"
      · rw [if_pos hl] at hr; cases hr
      · rw [if_neg hl] at hr
        injection hr with hr
        exact ⟨version, _, rfl, rfl, hr.symm⟩

theorem paperMCAPIBase_ne : paperMCAPIBase ≠ "" := by decide

/-- The locator fields of a successful `Resolve`, adapter by adapter: never are both
populated.  The PaperMC and the Direct-URL adapter return a non-empty `URL` and an
empty `S3URI`; the Object-Storage adapter returns a non-empty `S3URI` and an empty
`URL`; the Hangar and the Modrinth adapter return an empty `S3URI`, and as `URL`
what the registry gave, unchecked: the download URL of the platform entry of the
selected version, respectively the URL of a file of the selected version or the
empty string. -/
theorem locator_fields (S : GoSort.Slice) (cfg : PluginConfig) (r : Result) :
    (∀ h : HangarResolver, h.Resolve S cfg = .ok r →
      r.S3URI = "" ∧ (exactlyOneLocator r ↔ r.URL ≠ "") ∧
      ∃ resp selected, h.client cfg.Project = .ok resp ∧ selected ∈ resp.Result ∧
        selected.Name = r.Version ∧
        r.URL = ((selected.Downloads.lookup r.Platform).getD {}).DownloadURL) ∧
    (∀ m : ModrinthResolver, m.Resolve S cfg = .ok r →
      r.S3URI = "" ∧ (exactlyOneLocator r ↔ r.URL ≠ "") ∧
      ∃ versions selected, m.client cfg.Project r.Loader cfg.GameVersions = .ok versions ∧
        selected ∈ versions ∧ selected.VersionNumber = r.Version ∧
        (r.URL = "" ∨ ∃ f ∈ selected.Files, r.URL = f.URL)) ∧
    (∀ p : PaperMCResolver, p.Resolve S cfg = .ok r →
      r.URL ≠ "" ∧ r.S3URI = "" ∧ exactlyOneLocator r) ∧
    (∀ s : S3Resolver, s.Resolve cfg = .ok r →
      r.S3URI ≠ "" ∧ r.URL = "" ∧ exactlyOneLocator r) ∧
    (∀ u : URLResolver, u.Resolve cfg = .ok r →
      r.URL ≠ "" ∧ r.S3URI = "" ∧ exactlyOneLocator r) := by
  refine ⟨?_, ?_, ?_, ?_, ?_⟩
  · intro h hr
    obtain ⟨platform, resp, selected, _, hresp, hfind, _, _, rfl⟩ :=
      HangarResolver.hangar_Resolve_ok S h cfg r hr
    refine ⟨rfl, ?_, resp, selected, hresp,
      (List.mem_filter.mp (List.mem_of_find?_eq_some hfind)).1, rfl, rfl⟩
    unfold exactlyOneLocator
    simp only [ne_eq, and_true, not_true_eq_false, and_false, or_false]
  · intro m hr
    obtain ⟨loader, versions, selected, file, _, hresp, hfind, _, _, hfile, rfl⟩ :=
      ModrinthResolver.modrinth_Resolve_ok S m cfg r hr
    refine ⟨rfl, ?_, versions, selected, hresp, List.mem_of_find?_eq_some hfind, rfl, ?_⟩
    · unfold exactlyOneLocator
      simp only [ne_eq, and_true, not_true_eq_false, and_false, or_false]
    · simp only []
      rw [hfile]
      split
      · rename_i hc
        cases hf : selected.Files with
        | nil => rw [hf] at hc; simp at hc
        | cons f fs => exact Or.inr ⟨f, List.mem_cons_self _ _, rfl⟩
      · cases hp : selected.Files.find? (fun f => f.Primary) with
        | none => exact Or.inl rfl
        | some f => exact Or.inr ⟨f, List.mem_of_find?_eq_some hp, rfl⟩
  · intro p hr
    obtain ⟨project, versions, sel, build, downloadName, _, _, _, _, _, rfl⟩ :=
      PaperMCResolver.papermc_Resolve_ok S p cfg r hr
    have hne : paperMCAPIBase ++ "/projects/" ++ project ++ "/versions/" ++ sel ++
        "/builds/" ++ toString build ++ "/downloads/" ++ downloadName ≠ "" := by
      repeat apply append_ne_empty
      exact paperMCAPIBase_ne
    exact ⟨hne, rfl, Or.inl ⟨hne, rfl⟩⟩
  · intro s hr
    obtain ⟨version, key, _, _, rfl⟩ := S3Resolver.s3_Resolve_ok s cfg r hr
    have hne : "s3://" ++ cfg.Bucket ++ "/" ++ key ≠ "" := by
      repeat apply append_ne_empty
      decide
    exact ⟨hne, rfl, Or.inr ⟨rfl, hne⟩⟩
  · intro u hr
    unfold URLResolver.Resolve at hr
    split at hr
    · cases hr
    · rename_i hurl
      injection hr with hr
      subst hr
      exact ⟨hurl, rfl, Or.inl ⟨hurl, rfl⟩⟩

theorem sampleS3_resolves :
    S3Resolver.Resolve { now := 0 } sampleS3Request = .ok sampleS3Result := by decide

theorem sampleURL_resolves :
    URLResolver.Resolve { now := 0 } sampleURLRequest = .ok sampleURLResult := by decide

theorem locator_fields_witness :
    (sampleHangar.Resolve GoSort.insertion sampleRequest = .ok sampleHangarResult ∧
      sampleHangarResult.S3URI = "" ∧
      (exactlyOneLocator sampleHangarResult ↔ sampleHangarResult.URL ≠ "")) ∧
    (sampleModrinth.Resolve GoSort.insertion sampleRequest = .ok sampleModrinthResult ∧
      sampleModrinthResult.S3URI = "" ∧
      (exactlyOneLocator sampleModrinthResult ↔ sampleModrinthResult.URL ≠ "")) ∧
    (samplePaperMC.Resolve GoSort.insertion sampleRequest = .ok samplePaperMCResult ∧
      samplePaperMCResult.URL ≠ "" ∧ samplePaperMCResult.S3URI = "" ∧
      exactlyOneLocator samplePaperMCResult) ∧
    (S3Resolver.Resolve { now := 0 } sampleS3Request = .ok sampleS3Result ∧
      sampleS3Result.S3URI ≠ "" ∧ sampleS3Result.URL = "" ∧ exactlyOneLocator sampleS3Result) ∧
    (URLResolver.Resolve { now := 0 } sampleURLRequest = .ok sampleURLResult ∧
      sampleURLResult.URL ≠ "" ∧ sampleURLResult.S3URI = "" ∧
      exactlyOneLocator sampleURLResult) :=
  ⟨⟨sampleHangar_resolves,
      ((locator_fields GoSort.insertion sampleRequest sampleHangarResult).1
        sampleHangar sampleHangar_resolves).1,
      ((locator_fields GoSort.insertion sampleRequest sampleHangarResult).1
        sampleHangar sampleHangar_resolves).2.1⟩,
   ⟨sampleModrinth_resolves,
      ((locator_fields GoSort.insertion sampleRequest sampleModrinthResult).2.1
        sampleModrinth sampleModrinth_resolves).1,
      ((locator_fields GoSort.insertion sampleRequest sampleModrinthResult).2.1
        sampleModrinth sampleModrinth_resolves).2.1⟩,
   ⟨samplePaperMC_resolves,
      (locator_fields GoSort.insertion sampleRequest samplePaperMCResult).2.2.1
        samplePaperMC samplePaperMC_resolves⟩,
   ⟨sampleS3_resolves,
      (locator_fields GoSort.insertion sampleS3Request sampleS3Result).2.2.2.1
        { now := 0 } sampleS3_resolves⟩,
   ⟨sampleURL_resolves,
      (locator_fields GoSort.insertion sampleURLRequest sampleURLResult).2.2.2.2
        { now := 0 } sampleURL_resolves⟩⟩

end resolver

/-! ## Reasoning about the matcher -/

namespace GoRegexp

theorem run_eps {R : Type} (s : List Char) (c : Caps) (k : List Char → Caps → Option R) :
    Re.eps.run s c k = k s c := by
  rw [Re.run]

theorem run_cls_nil {R : Type} (p : Char → Bool) (c : Caps)
    (k : List Char → Caps → Option R) : (Re.cls p).run [] c k = none := by
  rw [Re.run]

theorem run_cls_cons {R : Type} (p : Char → Bool) (a : Char) (t : List Char) (c : Caps)
    (k : List Char → Caps → Option R) :
    (Re.cls p).run (a :: t) c k = if p a then k t c else none := by
  rw [Re.run]

theorem run_seq {R : Type} (r1 r2 : Re) (s : List Char) (c : Caps)
    (k : List Char → Caps → Option R) :
    (Re.seq r1 r2).run s c k = r1.run s c (fun s1 c1 => r2.run s1 c1 k) := by
  rw [Re.run]

theorem run_alt {R : Type} (r1 r2 : Re) (s : List Char) (c : Caps)
    (k : List Char → Caps → Option R) :
    (Re.alt r1 r2).run s c k =
      match r1.run s c k with
      | some r => some r
      | none => r2.run s c k := by
  rw [Re.run]

theorem run_opt {R : Type} (r : Re) (s : List Char) (c : Caps)
    (k : List Char → Caps → Option R) :
    (Re.opt r).run s c k =
      match r.run s c k with
      | some r => some r
      | none => k s c := by
  rw [Re.run]

theorem run_star {R : Type} (r : Re) (s : List Char) (c : Caps)
    (k : List Char → Caps → Option R) :
    (Re.star r).run s c k = starLoop r.run s.length s c k := by
  rw [Re.run]

theorem run_grp {R : Type} (n : Nat) (r : Re) (s : List Char) (c : Caps)
    (k : List Char → Caps → Option R) :
    (Re.grp n r).run s c k =
      r.run s c (fun s1 c1 => k s1 ((n, s.take (s.length - s1.length)) :: c1)) := by
  rw [Re.run]

theorem run_eos_nil {R : Type} (c : Caps) (k : List Char → Caps → Option R) :
    Re.eos.run [] c k = k [] c := by
  rw [Re.run]

theorem run_eos_cons {R : Type} (a : Char) (t : List Char) (c : Caps)
    (k : List Char → Caps → Option R) : Re.eos.run (a :: t) c k = none := by
  rw [Re.run]

theorem starLoop_zero {R : Type}
    (m : List Char → Caps → (List Char → Caps → Option R) → Option R) (s : List Char)
    (c : Caps) (k : List Char → Caps → Option R) : starLoop m 0 s c k = k s c := by
  rw [starLoop]

theorem starLoop_succ {R : Type}
    (m : List Char → Caps → (List Char → Caps → Option R) → Option R) (n : Nat)
    (s : List Char) (c : Caps) (k : List Char → Caps → Option R) :
    starLoop m (n + 1) s c k =
      match m s c (fun s1 c1 => if s1.length < s.length then starLoop m n s1 c1 k else none) with
      | some r => some r
      | none => k s c := by
  rw [starLoop]

theorem starLoop_cls {R : Type} (p : Char → Bool) (k : List Char → Caps → Option R) (c : Caps) :
    ∀ (s : List Char) (n : Nat), s.length ≤ n →
      starLoop (Re.run (.cls p)) n s c k = starCls p k c s
  | [], 0, _ => by rw [starLoop_zero, starCls]
  | [], n + 1, _ => by rw [starLoop_succ, run_cls_nil, starCls]
  | a :: t, 0, h => by simp at h
  | a :: t, n + 1, h => by
    have ih := starLoop_cls p k c t n (by simpa using h)
    rw [starLoop_succ, run_cls_cons, starCls]
    by_cases hp : p a = true
    · rw [if_pos hp, if_pos hp, if_pos (by simp), ih]
    · rw [if_neg hp, if_neg hp]

theorem run_star_cls {R : Type} (p : Char → Bool) (s : List Char) (c : Caps)
    (k : List Char → Caps → Option R) :
    (Re.star (.cls p)).run s c k = starCls p k c s := by
  rw [run_star]
  exact starLoop_cls p k c s s.length (Nat.le_refl _)

theorem starCls_nil_of_stops {R : Type} {p : Char → Bool} {rest : List Char}
    (hrest : stopsAt p rest) (k : List Char → Caps → Option R) (c : Caps) :
    starCls p k c rest = k rest c := by
  cases rest with
  | nil => rfl
  | cons a t => simp [starCls, hrest a t rfl]

/-- On a run of the class followed by a text that stops it, the greedy star hands
the rest to the continuation first. -/
theorem starCls_append_some {R : Type} {p : Char → Bool} {k : List Char → Caps → Option R}
    {c : Caps} {rest : List Char} {x : R} (hrest : stopsAt p rest) (hk : k rest c = some x) :
    ∀ ds : List Char, (∀ d ∈ ds, p d = true) → starCls p k c (ds ++ rest) = some x
  | [], _ => by simpa [starCls_nil_of_stops hrest] using hk
  | d :: ds, h => by
    have ih := starCls_append_some hrest hk ds (fun e he => h e (List.mem_cons_of_mem _ he))
    simp [starCls, h d (List.mem_cons_self _ _), ih]

/-- The same for `r+` on a non-empty run of the class. -/
theorem run_plus_cls_some {R : Type} {p : Char → Bool} {k : List Char → Caps → Option R}
    {c : Caps} {rest : List Char} {x : R} (hrest : stopsAt p rest) (hk : k rest c = some x)
    (d : Char) (ds : List Char) (h : ∀ e ∈ d :: ds, p e = true) :
    (Re.plus (.cls p)).run (d :: ds ++ rest) c k = some x := by
  have hd := h d (List.mem_cons_self _ _)
  rw [Re.plus, run_seq, List.cons_append, run_cls_cons, if_pos hd, run_star_cls]
  exact starCls_append_some hrest hk ds (fun e he => h e (List.mem_cons_of_mem _ he))

/-- The continuation of a successful run was called on a suffix of the text. -/
theorem run_suffix {R : Type} : ∀ (r : Re) (s : List Char) (c : Caps)
    (k : List Char → Caps → Option R) (x : R), r.run s c k = some x →
    ∃ s1 c1, s1 <:+ s ∧ k s1 c1 = some x := by
  intro r
  induction r with
  | eps => intro s c k x h; rw [run_eps] at h; exact ⟨s, c, List.suffix_refl _, h⟩
  | cls p =>
    intro s c k x h
    cases s with
    | nil => rw [run_cls_nil] at h; cases h
    | cons a t =>
      rw [run_cls_cons] at h
      split at h
      · exact ⟨t, c, List.suffix_cons _ _, h⟩
      · cases h
  | seq r1 r2 ih1 ih2 =>
    intro s c k x h
    rw [run_seq] at h
    obtain ⟨s1, c1, hs1, h1⟩ := ih1 s c _ x h
    obtain ⟨s2, c2, hs2, h2⟩ := ih2 s1 c1 k x h1
    exact ⟨s2, c2, hs2.trans hs1, h2⟩
  | alt r1 r2 ih1 ih2 =>
    intro s c k x h
    rw [run_alt] at h
    cases h1 : r1.run s c k with
    | some y =>
      rw [h1] at h
      simp only [Option.some.injEq] at h
      subst h
      exact ih1 s c k y h1
    | none =>
      rw [h1] at h
      exact ih2 s c k x h
  | opt r ih =>
    intro s c k x h
    rw [run_opt] at h
    cases h1 : r.run s c k with
    | some y =>
      rw [h1] at h
      simp only [Option.some.injEq] at h
      subst h
      exact ih s c k y h1
    | none =>
      rw [h1] at h
      exact ⟨s, c, List.suffix_refl _, h⟩
  | star r ih =>
    intro s c k x h
    rw [run_star] at h
    generalize s.length = n at h
    induction n generalizing s c with
    | zero => rw [starLoop_zero] at h; exact ⟨s, c, List.suffix_refl _, h⟩
    | succ n ihn =>
      rw [starLoop_succ] at h
      cases h1 : r.run s c
          (fun s1 c1 => if s1.length < s.length then starLoop r.run n s1 c1 k else none) with
      | some y =>
        rw [h1] at h
        simp only [Option.some.injEq] at h
        subst h
        obtain ⟨s1, c1, hs1, h2⟩ := ih s c _ y h1
        split at h2
        · obtain ⟨s2, c2, hs2, h3⟩ := ihn s1 c1 h2
          exact ⟨s2, c2, hs2.trans hs1, h3⟩
        · cases h2
      | none =>
        rw [h1] at h
        exact ⟨s, c, List.suffix_refl _, h⟩
  | grp n r ih =>
    intro s c k x h
    rw [run_grp] at h
    obtain ⟨s1, c1, hs1, h1⟩ := ih s c _ x h
    exact ⟨s1, _, hs1, h1⟩
  | eos =>
    intro s c k x h
    cases s with
    | nil => rw [run_eos_nil] at h; exact ⟨[], c, List.suffix_refl _, h⟩
    | cons a t => rw [run_eos_cons] at h; cases h

/-- When the continuation rejects every text that starts with a character of the
class, the greedy star of the class consumes the whole run. -/
theorem starCls_append_of_reject {R : Type} {p : Char → Bool}
    {k : List Char → Caps → Option R} {c : Caps} (rest : List Char)
    (hk : ∀ a t, p a = true → k (a :: t) c = none) :
    ∀ ds : List Char, (∀ d ∈ ds, p d = true) →
      starCls p k c (ds ++ rest) = starCls p k c rest
  | [], _ => rfl
  | d :: ds, h => by
    have ih := starCls_append_of_reject rest hk ds (fun e he => h e (List.mem_cons_of_mem _ he))
    have hd := h d (List.mem_cons_self _ _)
    rw [List.cons_append, starCls, if_pos hd, ih]
    cases hr : starCls p k c rest with
    | some y => rfl
    | none => exact hk d _ hd

/-- The run of the class at the start of a text, and what follows it. -/
theorem takeWhile_stops (p : Char → Bool) (s : List Char) : stopsAt p (s.dropWhile p) := by
  intro a t h
  induction s with
  | nil => simp at h
  | cons b u ih =>
    rw [List.dropWhile_cons] at h
    split at h
    · exact ih h
    · rename_i hb
      injection h with h1 _
      subst h1
      simpa using hb

theorem plus_cls_nil {R : Type} (p : Char → Bool) (c : Caps)
    (k : List Char → Caps → Option R) : (Re.plus (.cls p)).run [] c k = none := by
  rw [Re.plus, run_seq, run_cls_nil]

theorem plus_cls_cons {R : Type} (p : Char → Bool) (a : Char) (t : List Char) (c : Caps)
    (k : List Char → Caps → Option R) :
    (Re.plus (.cls p)).run (a :: t) c k = if p a then starCls p k c t else none := by
  rw [Re.plus, run_seq, run_cls_cons, run_star_cls]

theorem chr_cons {R : Type} (a b : Char) (t : List Char) (c : Caps)
    (k : List Char → Caps → Option R) :
    (Re.chr a).run (b :: t) c k = if b = a then k t c else none := by
  rw [Re.chr, run_cls_cons]
  by_cases h : b = a
  · simp [h]
  · simp [h]

theorem chr_nil {R : Type} (a : Char) (c : Caps) (k : List Char → Caps → Option R) :
    (Re.chr a).run [] c k = none := by
  rw [Re.chr, run_cls_nil]

theorem take_append_sub (a b : List Char) : (a ++ b).take ((a ++ b).length - b.length) = a := by
  simp

theorem take_cons_append_sub (x : Char) (a b : List Char) :
    (x :: (a ++ b)).take ((x :: (a ++ b)).length - b.length) = x :: a := by
  have := take_append_sub (x :: a) b
  simpa using this

/-- `r+` of a class before a continuation that rejects the characters of the class:
the whole run of the class is consumed, and there has to be one. -/
theorem plus_cls_of_reject {R : Type} {p : Char → Bool} {k : List Char → Caps → Option R}
    {c : Caps} (hk : ∀ a t, p a = true → k (a :: t) c = none) (s : List Char) :
    (Re.plus (.cls p)).run s c k =
      if s.takeWhile p = [] then none else k (s.dropWhile p) c := by
  cases s with
  | nil => rw [plus_cls_nil]; rfl
  | cons a t =>
    rw [plus_cls_cons]
    by_cases ha : p a = true
    · rw [if_pos ha, List.takeWhile_cons, List.dropWhile_cons, if_pos ha, if_pos ha,
        if_neg (by simp)]
      have h1 := starCls_append_of_reject (t.dropWhile p) hk (t.takeWhile p)
        (fun d hd => (List.mem_takeWhile_imp hd))
      rw [List.takeWhile_append_dropWhile] at h1
      rw [h1, starCls_nil_of_stops (takeWhile_stops p t)]
    · rw [if_neg ha, List.takeWhile_cons, if_neg ha, if_pos rfl]

/-- `r+` of a class before a continuation that accepts what follows the run of the
class. -/
theorem plus_cls_of_accept {R : Type} {p : Char → Bool} {k : List Char → Caps → Option R}
    {c : Caps} {x : R} (s : List Char) (hne : s.takeWhile p ≠ [])
    (hk : k (s.dropWhile p) c = some x) :
    (Re.plus (.cls p)).run s c k = some x := by
  cases s with
  | nil => simp at hne
  | cons a t =>
    rw [plus_cls_cons]
    by_cases ha : p a = true
    · rw [if_pos ha]
      rw [List.dropWhile_cons, if_pos ha] at hk
      have h1 := starCls_append_some (takeWhile_stops p t) hk (t.takeWhile p)
        (fun d hd => (List.mem_takeWhile_imp hd))
      rw [List.takeWhile_append_dropWhile] at h1
      exact h1
    · rw [List.takeWhile_cons, if_neg ha] at hne
      exact absurd rfl hne

end GoRegexp

/-! ## `ParseVersion`: the fallback pattern finds the longest leading X.Y or X.Y.Z -/

namespace resolver
open GoRegexp GoStrconv

theorem dotTail_some {s t : List Char} (h : dotTail s = some t) : s = '.' :: t := by
  cases s with
  | nil => cases h
  | cons a u =>
    rw [dotTail] at h
    split at h
    · rename_i ha
      injection h with h
      rw [ha, h]
    · cases h

theorem chr_dot_run {R : Type} (s : List Char) (c : Caps) (k : List Char → Caps → Option R) :
    (Re.chr '.').run s c k =
      match dotTail s with
      | some t => k t c
      | none => none := by
  cases s with
  | nil => rw [chr_nil]; rfl
  | cons a t =>
    rw [chr_cons, dotTail]
    split <;> rfl

theorem isDigit_dot : isDigit '.' = false := by decide

theorem not_dot_of_isDigit {a : Char} (h : isDigit a = true) : a ≠ '.' := by
  intro e
  rw [e, isDigit_dot] at h
  cases h

theorem afterNumeric_split (s rest : List Char) (h : afterNumeric s = some rest) :
    s = leadingNumeric s ++ rest := by
  unfold afterNumeric at h
  unfold leadingNumeric
  cases h1 : dotTail (s.dropWhile isDigit) with
  | none => rw [h1] at h; cases h
  | some r =>
    rw [h1] at h
    simp only [] at h ⊢
    have e1 : s = s.takeWhile isDigit ++ '.' :: r := by
      conv_lhs => rw [← List.takeWhile_append_dropWhile isDigit s, dotTail_some h1]
    by_cases hc : s.takeWhile isDigit = [] ∨ r.takeWhile isDigit = []
    · rw [if_pos hc] at h; cases h
    · rw [if_neg hc] at h ⊢
      cases h2 : dotTail (r.dropWhile isDigit) with
      | none =>
        rw [h2] at h
        simp only [Option.some.injEq] at h ⊢
        subst h
        conv_lhs => rw [e1, ← List.takeWhile_append_dropWhile isDigit r]
        simp
      | some q =>
        rw [h2] at h
        simp only [] at h ⊢
        have e2 : r = r.takeWhile isDigit ++ '.' :: q := by
          conv_lhs => rw [← List.takeWhile_append_dropWhile isDigit r, dotTail_some h2]
        by_cases hq : q.takeWhile isDigit = []
        · rw [if_pos hq] at h ⊢
          simp only [Option.some.injEq] at h
          subst h
          conv_lhs => rw [e1, ← List.takeWhile_append_dropWhile isDigit r]
          simp
        · rw [if_neg hq] at h ⊢
          simp only [Option.some.injEq] at h
          subst h
          conv_lhs => rw [e1, e2, ← List.takeWhile_append_dropWhile isDigit q]
          simp

theorem afterNumeric_none (s : List Char) (h : afterNumeric s = none) :
    leadingNumeric s = [] := by
  unfold afterNumeric at h
  unfold leadingNumeric
  cases h1 : dotTail (s.dropWhile isDigit) with
  | none => rfl
  | some r =>
    rw [h1] at h
    simp only [] at h ⊢
    by_cases hc : s.takeWhile isDigit = [] ∨ r.takeWhile isDigit = []
    · rw [if_pos hc]
    · rw [if_neg hc] at h
      cases h2 : dotTail (r.dropWhile isDigit) with
      | none => rw [h2] at h; cases h
      | some q =>
        rw [h2] at h
        simp only [] at h
        split at h <;> cases h

end resolver

namespace GoRegexp

theorem digit_eq : digit = .cls GoStrconv.isDigit := rfl

theorem plus_cls_none {R : Type} {p : Char → Bool} (s : List Char) (c : Caps)
    (k : List Char → Caps → Option R) (h : s.takeWhile p = []) :
    (Re.plus (.cls p)).run s c k = none := by
  cases s with
  | nil => rw [plus_cls_nil]
  | cons a t =>
    rw [plus_cls_cons]
    by_cases ha : p a = true
    · rw [List.takeWhile_cons, if_pos ha] at h
      cases h
    · rw [if_neg ha]

end GoRegexp

namespace resolver
open GoRegexp GoStrconv GoStrings semver

/-- The optional `.patch` of the pattern, before a continuation that never fails. -/
theorem optPatch_run {R : Type} (r3 : List Char) (c : Caps) (K : List Char → Caps → Option R)
    (hK : ∀ s1, K s1 c ≠ none) :
    (Re.opt (.seq (Re.chr '.') (Re.plus digit))).run r3 c K =
      match dotTail r3 with
      | none => K r3 c
      | some q => if q.takeWhile isDigit = [] then K r3 c else K (q.dropWhile isDigit) c := by
  rw [run_opt, run_seq, chr_dot_run]
  cases h : dotTail r3 with
  | none => rfl
  | some q =>
    simp only []
    by_cases hq : q.takeWhile isDigit = []
    · rw [if_pos hq, digit_eq, plus_cls_none q c K hq]
    · rw [if_neg hq]
      cases hx : K (q.dropWhile isDigit) c with
      | none => exact absurd hx (hK _)
      | some x => rw [digit_eq, plus_cls_of_accept q hq hx]

theorem optPatch_ne_none {R : Type} (r3 : List Char) (c : Caps)
    (K : List Char → Caps → Option R) (hK : ∀ s1, K s1 c ≠ none) :
    (Re.opt (.seq (Re.chr '.') (Re.plus digit))).run r3 c K ≠ none := by
  rw [optPatch_run r3 c K hK]
  split
  · exact hK _
  · split <;> exact hK _

/-- The body of the pattern of `ParseVersion` before a continuation that never
fails: the continuation gets what follows the longest leading X.Y or X.Y.Z. -/
theorem numericBody_run {R : Type} (s : List Char) (c : Caps)
    (K : List Char → Caps → Option R) (hK : ∀ s1, K s1 c ≠ none) :
    (Re.cat [Re.plus digit, Re.chr '.', Re.plus digit,
        .opt (.seq (Re.chr '.') (Re.plus digit))]).run s c K =
      match afterNumeric s with
      | none => none
      | some rest => K rest c := by
  have hcat : Re.cat [Re.plus digit, Re.chr '.', Re.plus digit,
      .opt (.seq (Re.chr '.') (Re.plus digit))] =
      .seq (Re.plus digit) (.seq (Re.chr '.') (.seq (Re.plus digit)
        (.opt (.seq (Re.chr '.') (Re.plus digit))))) := rfl
  rw [hcat, run_seq, digit_eq]
  rw [plus_cls_of_reject (fun a t ha => by
    rw [run_seq, chr_cons, if_neg (not_dot_of_isDigit ha)])]
  unfold afterNumeric
  by_cases hM : s.takeWhile isDigit = []
  · rw [if_pos hM]
    cases dotTail (s.dropWhile isDigit) with
    | none => rfl
    | some r => simp [hM]
  · rw [if_neg hM, run_seq, chr_dot_run]
    cases dotTail (s.dropWhile isDigit) with
    | none => rfl
    | some r =>
      simp only []
      rw [run_seq]
      by_cases hm : r.takeWhile isDigit = []
      · rw [if_pos (Or.inr hm), plus_cls_none r c _ hm]
      · rw [if_neg (by simp [hM, hm])]
        have h3 := optPatch_run (r.dropWhile isDigit) c K hK
        rw [digit_eq] at h3
        cases hx : (Re.opt (.seq (Re.chr '.') (Re.plus (.cls isDigit)))).run
            (r.dropWhile isDigit) c K with
        | none =>
          have h4 := optPatch_ne_none (r.dropWhile isDigit) c K hK
          rw [digit_eq] at h4
          exact absurd hx h4
        | some x =>
          rw [plus_cls_of_accept r hm hx]
          rw [← hx, h3]
          cases dotTail (r.dropWhile isDigit) with
          | none => rfl
          | some q =>
            simp only []
            split <;> rfl

/-- The pattern of `ParseVersion` finds exactly the longest leading X.Y or X.Y.Z. -/
theorem FindString_numericRe (s : List Char) : FindString numericRe s = leadingNumeric s := by
  unfold FindString matchAt numericRe
  rw [run_grp, numericBody_run s [] _ (fun s1 => by simp)]
  cases h : afterNumeric s with
  | none => simp only []; exact (afterNumeric_none s h).symm
  | some rest =>
    simp only []
    have e := afterNumeric_split s rest h
    conv_lhs => rw [e]
    simp

theorem dotTail_eq_some {l r : List Char} (h : dotTail l = some r) : l = '.' :: r := by
  cases l with
  | nil => simp [dotTail] at h
  | cons a t =>
    by_cases ha : a = '.'
    · rw [dotTail, if_pos ha] at h
      rw [ha, Option.some.inj h]
    · rw [dotTail, if_neg ha] at h
      exact absurd h (by simp)

theorem takeWhile_isNumeral {l : List Char} (h : l.takeWhile isDigit ≠ []) :
    IsNumeral (l.takeWhile isDigit) :=
  ⟨h, fun _ hd => List.mem_takeWhile_imp hd⟩

theorem takeWhile_digits_dot {M : List Char} (hM : ∀ d ∈ M, isDigit d = true) (x : List Char) :
    (M ++ '.' :: x).takeWhile isDigit = M ∧ (M ++ '.' :: x).dropWhile isDigit = '.' :: x := by
  induction M with
  | nil => exact ⟨by rw [List.nil_append, List.takeWhile_cons_of_neg (by decide)],
      by rw [List.nil_append, List.dropWhile_cons_of_neg (by decide)]⟩
  | cons a t ih =>
    have ha : isDigit a = true := hM a (List.mem_cons_self _ _)
    have ht := ih (fun d hd => hM d (List.mem_cons_of_mem _ hd))
    constructor
    · rw [List.cons_append, List.takeWhile_cons_of_pos ha, ht.1]
    · rw [List.cons_append, List.dropWhile_cons_of_pos ha, ht.2]

theorem takeWhile_digits_append {M : List Char} (hM : ∀ d ∈ M, isDigit d = true)
    (x : List Char) : (M ++ x).takeWhile isDigit = M ++ x.takeWhile isDigit := by
  induction M with
  | nil => rfl
  | cons a t ih =>
    have ha : isDigit a = true := hM a (List.mem_cons_self _ _)
    rw [List.cons_append, List.takeWhile_cons_of_pos ha,
      ih (fun d hd => hM d (List.mem_cons_of_mem _ hd)), List.cons_append]

/-- The value of `leadingNumeric` has the form major.minor[.patch] and begins the
text, whenever it is not empty. -/
theorem leadingNumeric_form (s : List Char) (h : leadingNumeric s ≠ []) :
    IsNumericForm (leadingNumeric s) ∧ leadingNumeric s <+: s := by
  unfold leadingNumeric at h ⊢
  cases h1 : dotTail (s.dropWhile isDigit) with
  | none => rw [h1] at h; exact absurd rfl h
  | some r =>
    rw [h1] at h
    simp only at h ⊢
    have hs : s = s.takeWhile isDigit ++ '.' :: r := by
      conv_lhs => rw [← List.takeWhile_append_dropWhile isDigit s, dotTail_eq_some h1]
    have hr : r = r.takeWhile isDigit ++ r.dropWhile isDigit :=
      (List.takeWhile_append_dropWhile isDigit r).symm
    by_cases hc : s.takeWhile isDigit = [] ∨ r.takeWhile isDigit = []
    · rw [if_pos hc] at h; exact absurd rfl h
    · rw [if_neg hc]
      have hM := takeWhile_isNumeral (not_or.mp hc).1
      have hm := takeWhile_isNumeral (not_or.mp hc).2
      have two : IsNumericForm (s.takeWhile isDigit ++ '.' :: r.takeWhile isDigit) ∧
          (s.takeWhile isDigit ++ '.' :: r.takeWhile isDigit) <+: s := by
        refine ⟨⟨_, _, hM, hm, Or.inl rfl⟩, r.dropWhile isDigit, ?_⟩
        conv_rhs => rw [hs]
        conv_rhs => rw [hr]
        simp
      cases h2 : dotTail (r.dropWhile isDigit) with
      | none => exact two
      | some q =>
        simp only
        by_cases hq : q.takeWhile isDigit = []
        · rw [if_pos hq]; exact two
        · rw [if_neg hq]
          have hp := takeWhile_isNumeral hq
          refine ⟨⟨_, _, hM, hm, Or.inr ⟨_, hp, by simp⟩⟩, q.dropWhile isDigit, ?_⟩
          conv_rhs => rw [hs]
          conv_rhs => rw [hr, dotTail_eq_some h2, ← List.takeWhile_append_dropWhile isDigit q]
          simp

/-- No leading part of the form major.minor[.patch] is longer than `leadingNumeric`. -/
theorem leadingNumeric_longest (s t : List Char) (hform : IsNumericForm t) (hpre : t <+: s) :
    t.length ≤ (leadingNumeric s).length := by
  obtain ⟨M, m, hM, hm, ht⟩ := hform
  obtain ⟨u, hu⟩ := hpre
  have hmne : ∀ x : List Char, m ++ x ≠ [] := fun x hx =>
    hm.1 (List.append_eq_nil.mp hx).1
  rcases ht with ht | ⟨p, hp, ht⟩
  · have hs : s = M ++ '.' :: (m ++ u) := by rw [← hu, ht]; simp
    have h1 := takeWhile_digits_dot hM.2 (m ++ u)
    have h2 := takeWhile_digits_append hm.2 u
    rw [← hs] at h1
    unfold leadingNumeric
    rw [h1.2]
    simp only [dotTail, if_true]
    rw [h1.1, h2]
    have hc : ¬ (M = [] ∨ m ++ u.takeWhile isDigit = []) :=
      not_or.mpr ⟨hM.1, hmne _⟩
    rw [if_neg hc]
    have hlen : t.length ≤ (M ++ '.' :: (m ++ u.takeWhile isDigit)).length := by
      rw [ht]; simp
    split
    · exact hlen
    · split
      · exact hlen
      · refine le_trans hlen ?_
        simp
  · have hs : s = M ++ '.' :: (m ++ '.' :: (p ++ u)) := by rw [← hu, ht]; simp
    have h1 := takeWhile_digits_dot hM.2 (m ++ '.' :: (p ++ u))
    have h2 := takeWhile_digits_dot hm.2 (p ++ u)
    have h3 := takeWhile_digits_append hp.2 u
    rw [← hs] at h1
    unfold leadingNumeric
    rw [h1.2]
    simp only [dotTail, if_true]
    rw [h1.1, h2.1, h2.2]
    have hc : ¬ (M = [] ∨ m = []) := not_or.mpr ⟨hM.1, hm.1⟩
    rw [if_neg hc]
    simp only [dotTail, if_true]
    rw [h3]
    have hq : ¬ (p ++ u.takeWhile isDigit = []) := fun hx =>
      hp.1 (List.append_eq_nil.mp hx).1
    rw [if_neg hq, ht]
    simp
set_option maxRecDepth 100000 in
/-- C7, as stated, fails: `5` and `vv1.2.3` (after the removal of one `v`:
`v1.2.3`) are neither of the strict form nor do they begin with digits, a dot and
digits, and `ParseVersion` accepts them, as 5.0.0 and 1.2.3; and
`99999999999999999999.0` begins with such a prefix and is rejected, because the
number does not fit 64 bits. -/
theorem ParseVersion_counterexample :
    (strictForm (TrimPrefix "5".data ['v']) = false ∧
      leadingNumeric (TrimPrefix "5".data ['v']) = [] ∧
      ParseVersion "5" = .ok { major := 5, minor := 0, patch := 0, pre := "", metadata := "",
                               original := "5" }) ∧
    (strictForm (TrimPrefix "vv1.2.3".data ['v']) = false ∧
      leadingNumeric (TrimPrefix "vv1.2.3".data ['v']) = [] ∧
      ParseVersion "vv1.2.3" = .ok { major := 1, minor := 2, patch := 3, pre := "",
                                     metadata := "", original := "v1.2.3" }) ∧
    (leadingNumeric (TrimPrefix "99999999999999999999.0".data ['v'])
        = "99999999999999999999.0".data ∧
      ParseVersion "99999999999999999999.0" =
        .error (.errorf "error parsing version segment: %w" ["99999999999999999999"])) := by
  decide

end resolver

/-! ## A bare version as a constraint -/

namespace GoRegexp
open GoStrconv

theorem star_cls_skip {R : Type} {p : Char → Bool} {s : List Char} {c : Caps}
    {k : List Char → Caps → Option R} {x : R} (hs : stopsAt p s) (hk : k s c = some x) :
    (Re.star (.cls p)).run s c k = some x := by
  rw [run_star_cls, starCls_nil_of_stops hs, hk]

theorem stopsAt_nil (p : Char → Bool) : stopsAt p [] := by
  intro a t h
  cases h

theorem stopsAt_cons {p : Char → Bool} {a : Char} (t : List Char) (h : p a = false) :
    stopsAt p (a :: t) := by
  intro b u e
  injection e with e1 _
  rw [← e1]
  exact h

/-- A group of one or more characters of a class on a run of the class. -/
theorem grp_plus_some {R : Type} {cl : Char → Bool} {g : Nat} {n rest : List Char} {c : Caps}
    {k : List Char → Caps → Option R} {x : R} (hn : n ≠ []) (hcl : ∀ d ∈ n, cl d = true)
    (hrest : stopsAt cl rest) (hk : k rest ((g, n) :: c) = some x) :
    (Re.grp g (Re.plus (.cls cl))).run (n ++ rest) c k = some x := by
  cases n with
  | nil => exact absurd rfl hn
  | cons d ds =>
    rw [run_grp]
    apply run_plus_cls_some hrest _ d ds hcl
    beta_reduce
    rw [List.cons_append, take_cons_append_sub]
    exact hk

/-- An optional group of a dot and one or more characters of a class, on a dot and a
run of the class. -/
theorem opt_dot_some {R : Type} {cl : Char → Bool} {g : Nat} {n rest : List Char} {c : Caps}
    {k : List Char → Caps → Option R} {x : R} (hn : n ≠ []) (hcl : ∀ d ∈ n, cl d = true)
    (hrest : stopsAt cl rest) (hk : k rest ((g, '.' :: n) :: c) = some x) :
    (Re.opt (.grp g (.seq (Re.chr '.') (Re.plus (.cls cl))))).run ('.' :: (n ++ rest)) c k
      = some x := by
  cases n with
  | nil => exact absurd rfl hn
  | cons d ds =>
    have h1 : (Re.grp g (.seq (Re.chr '.') (Re.plus (.cls cl)))).run
        ('.' :: (d :: ds ++ rest)) c k = some x := by
      rw [run_grp, run_seq, chr_cons, if_pos rfl]
      apply run_plus_cls_some hrest _ d ds hcl
      beta_reduce
      have e : ('.' :: (d :: ds ++ rest)).take (('.' :: (d :: ds ++ rest)).length - rest.length)
          = '.' :: d :: ds := by
        have := take_cons_append_sub '.' (d :: ds) rest
        simpa using this
      rw [e]
      exact hk
    rw [run_opt, h1]

/-- An optional group that starts with a literal character is skipped at the end of
the text. -/
theorem opt_grp_chr_nil {R : Type} (g : Nat) (a : Char) (r : Re) (c : Caps)
    (k : List Char → Caps → Option R) :
    (Re.opt (.grp g (.seq (Re.chr a) r))).run [] c k = k [] c := by
  rw [run_opt, run_grp, run_seq, chr_nil]

end GoRegexp

namespace semver
open GoRegexp GoStrconv GoStrings

theorem tailRe_nil {R : Type} (g : Nat) (c : Caps) (k : List Char → Caps → Option R) :
    (tailRe g).run [] c k = k [] c := by
  rw [tailRe, run_seq, opt_grp_chr_nil, opt_grp_chr_nil]

theorem isDigit_ne_v {d : Char} (h : isDigit d = true) : d ≠ 'v' := by
  intro e
  rw [e] at h
  exact absurd h (by decide)

/-- The common beginning of `looseSemVerRegex` and `cvRegex` on three numerals
separated by dots: the three groups take the numerals, and the pattern that follows
goes on at the end of the text. -/
theorem threeNums_run {R : Type} {cl : Char → Bool} (hdig : ∀ d, isDigit d = true → cl d = true)
    (hdot : cl '.' = false) (g : Nat) (r : Re) {M m p : List Char} (hM : IsNumeral M)
    (hm : IsNumeral m) (hp : IsNumeral p) {c : Caps} {k : List Char → Caps → Option R} {x : R}
    (hk : r.run [] ((g + 2, '.' :: p) :: (g + 1, '.' :: m) :: (g, M) :: c) k = some x) :
    (Re.seq (.opt (Re.chr 'v')) (.seq (.grp g (Re.plus (.cls cl)))
      (.seq (.opt (.grp (g + 1) (.seq (Re.chr '.') (Re.plus (.cls cl)))))
        (.seq (.opt (.grp (g + 2) (.seq (Re.chr '.') (Re.plus (.cls cl))))) r)))).run
      (M ++ '.' :: (m ++ '.' :: (p ++ []))) c k = some x := by
  have hv : (Re.chr 'v').run (M ++ '.' :: (m ++ '.' :: (p ++ []))) c
      (fun s1 c1 => (Re.seq (.grp g (Re.plus (.cls cl)))
        (.seq (.opt (.grp (g + 1) (.seq (Re.chr '.') (Re.plus (.cls cl)))))
          (.seq (.opt (.grp (g + 2) (.seq (Re.chr '.') (Re.plus (.cls cl))))) r))).run
            s1 c1 k) = none := by
    obtain ⟨hne, hd⟩ := hM
    cases M with
    | nil => exact absurd rfl hne
    | cons d ds =>
      rw [List.cons_append, chr_cons, if_neg (isDigit_ne_v (hd d (List.mem_cons_self _ _)))]
  rw [run_seq, run_opt, hv]
  rw [run_seq]
  apply grp_plus_some hM.1 (fun d hd => hdig d (hM.2 d hd)) (stopsAt_cons _ hdot)
  beta_reduce
  rw [run_seq]
  apply opt_dot_some hm.1 (fun d hd => hdig d (hm.2 d hd)) (stopsAt_cons _ hdot)
  beta_reduce
  rw [run_seq]
  apply opt_dot_some hp.1 (fun d hd => hdig d (hp.2 d hd)) (stopsAt_nil _)
  exact hk

theorem dotted_eq (M m p : List Char) :
    dotted M m p = M ++ '.' :: (m ++ '.' :: (p ++ [])) := by
  rw [dotted, List.append_nil]

theorem ParseUint_numeral {n : List Char} (hn : IsNumeral n) (hfit : decimal n < 2 ^ 64) :
    ParseUint n = some (decimal n) := by
  obtain ⟨hne, hd⟩ := hn
  unfold ParseUint
  cases n with
  | nil => exact absurd rfl hne
  | cons a t =>
    have hall : (a :: t).all isDigit = true := List.all_eq_true.mpr hd
    rw [if_neg (by simp), if_pos hall, if_pos hfit]

theorem matchAt_looseVersionRegex {M m p : List Char} (hM : IsNumeral M) (hm : IsNumeral m)
    (hp : IsNumeral p) :
    matchAt looseVersionRegex (dotted M m p) =
      some ⟨dotted M m p, [], [(3, '.' :: p), (2, '.' :: m), (1, M)]⟩ := by
  have hre : looseVersionRegex =
      .seq (.opt (Re.chr 'v')) (.seq (.grp 1 (Re.plus (.cls isDigit)))
        (.seq (.opt (.grp (1 + 1) (.seq (Re.chr '.') (Re.plus (.cls isDigit)))))
          (.seq (.opt (.grp (1 + 2) (.seq (Re.chr '.') (Re.plus (.cls isDigit)))))
            (.seq (tailRe 4) .eos)))) := rfl
  unfold matchAt
  rw [hre]
  conv_lhs => rw [dotted_eq]
  rw [threeNums_run (fun d hd => hd) (by decide : isDigit (Char.ofNat 46) = false) 1 (.seq (tailRe 4) .eos) hM hm hp]
  rw [run_seq, tailRe_nil, run_eos_nil]
  simp [dotted]

/-- `NewVersion` on three numerals that fit 64 bits: the release with these numbers. -/
theorem NewVersion_dotted {M m p : List Char} (hM : IsNumeral M) (hm : IsNumeral m)
    (hp : IsNumeral p) (fM : decimal M < 2 ^ 64) (fm : decimal m < 2 ^ 64)
    (fp : decimal p < 2 ^ 64) :
    NewVersion (dotted M m p) =
      .ok { major := decimal M, minor := decimal m, patch := decimal p, pre := "",
            metadata := "", original := String.mk (dotted M m p) } := by
  unfold NewVersion
  rw [matchAt_looseVersionRegex hM hm hp]
  have g1 : group [(3, '.' :: p), (2, '.' :: m), (1, M)] 1 = M := rfl
  have g2 : group [(3, '.' :: p), (2, '.' :: m), (1, M)] 2 = '.' :: m := rfl
  have g3 : group [(3, '.' :: p), (2, '.' :: m), (1, M)] 3 = '.' :: p := rfl
  have g5 : group [(3, '.' :: p), (2, '.' :: m), (1, M)] 5 = [] := rfl
  have g8 : group [(3, '.' :: p), (2, '.' :: m), (1, M)] 8 = [] := rfl
  simp only [g1, g2, g3, g5, g8, parseSegment, ParseUint_numeral hM fM, ParseUint_numeral hm fm,
    ParseUint_numeral hp fp, List.drop_succ_cons, List.drop_zero, ne_eq, not_true_eq_false,
    if_false, reduceCtorEq, not_false_eq_true, if_true]

theorem isCvChar_of_isDigit (d : Char) (h : isDigit d = true) : isCvChar d = true := by
  simp [isCvChar, h]

/-- The group of the operators on a text that starts with `=`: the first
alternative matches. -/
theorem grp_ops_eq_some {R : Type} {g : Nat} {t : List Char} {c : Caps}
    {k : List Char → Caps → Option R} {x : R} (hk : k t ((g, ['=']) :: c) = some x) :
    (Re.grp g opsRe).run ('=' :: t) c k = some x := by
  have hops : opsRe = .alt (Re.chr '=') (Re.words [[], "!=".data, ">".data, "<".data,
      ">=".data, "=>".data, "<=".data, "=<".data, "~".data, "~>".data, "^".data]) := rfl
  rw [run_grp, hops, run_alt, chr_cons, if_pos rfl]
  have e : ('=' :: t).take (('=' :: t).length - t.length) = ['='] := by simp
  rw [e, hk]

/-- The group of a `cvRegex` on three numerals separated by dots. -/
theorem grp_cv_some {R : Type} {g : Nat} {M m p : List Char} (hM : IsNumeral M)
    (hm : IsNumeral m) (hp : IsNumeral p) {c : Caps} {k : List Char → Caps → Option R} {x : R}
    (hk : k [] ((g, dotted M m p) :: (g + 1 + 2, '.' :: p) :: (g + 1 + 1, '.' :: m) ::
      (g + 1, M) :: c) = some x) :
    (Re.grp g (cvRegex (g + 1))).run (dotted M m p) c k = some x := by
  have hcv : cvRegex (g + 1) =
      .seq (.opt (Re.chr 'v')) (.seq (.grp (g + 1) (Re.plus (.cls isCvChar)))
        (.seq (.opt (.grp (g + 1 + 1) (.seq (Re.chr '.') (Re.plus (.cls isCvChar)))))
          (.seq (.opt (.grp (g + 1 + 2) (.seq (Re.chr '.') (Re.plus (.cls isCvChar)))))
            (tailRe (g + 1 + 3))))) := rfl
  rw [run_grp, hcv]
  conv_lhs => rw [dotted_eq]
  apply threeNums_run isCvChar_of_isDigit (by decide) (g + 1) (tailRe (g + 1 + 3)) hM hm hp
  rw [tailRe_nil]
  have e : (M ++ '.' :: (m ++ '.' :: (p ++ []))).take
      ((M ++ '.' :: (m ++ '.' :: (p ++ []))).length - ([] : List Char).length)
      = dotted M m p := by
    simp [dotted]
  rw [e]
  exact hk

theorem numeral_head_stops {n : List Char} (hn : IsNumeral n) (rest : List Char)
    {cl : Char → Bool} (hcl : ∀ d, isDigit d = true → cl d = false) :
    stopsAt cl (n ++ rest) := by
  obtain ⟨hne, hd⟩ := hn
  cases n with
  | nil => exact absurd rfl hne
  | cons d ds => exact stopsAt_cons _ (hcl d (hd d (List.mem_cons_self _ _)))

theorem isSpace_of_isDigit (d : Char) (h : isDigit d = true) :
    (d == '\t' || d == '\n' || d == Char.ofNat 12 || d == '\r' || d == ' ') = false := by
  unfold isDigit at h
  simp only [Bool.and_eq_true, decide_eq_true_eq] at h
  have h1 : d ≠ '\t' := by intro e; rw [e] at h; revert h; decide
  have h2 : d ≠ '\n' := by intro e; rw [e] at h; revert h; decide
  have h3 : d ≠ Char.ofNat 12 := by intro e; rw [e] at h; revert h; decide
  have h4 : d ≠ '\r' := by intro e; rw [e] at h; revert h; decide
  have h5 : d ≠ ' ' := by intro e; rw [e] at h; revert h; decide
  simp [h1, h2, h3, h4, h5]

theorem space_stops_eq (t : List Char) :
    stopsAt (fun c => c == '\t' || c == '\n' || c == Char.ofNat 12 || c == '\r' || c == ' ')
      ('=' :: t) :=
  stopsAt_cons _ (by decide)

theorem space_stops_dotted {M : List Char} (hM : IsNumeral M) (rest : List Char) :
    stopsAt (fun c => c == '\t' || c == '\n' || c == Char.ofNat 12 || c == '\r' || c == ' ')
      (M ++ rest) :=
  numeral_head_stops hM rest isSpace_of_isDigit

theorem matchAt_constraintRegex {M m p : List Char} (hM : IsNumeral M) (hm : IsNumeral m)
    (hp : IsNumeral p) :
    matchAt constraintRegex ('=' :: dotted M m p) =
      some ⟨'=' :: dotted M m p, [],
        [(2, dotted M m p), (5, '.' :: p), (4, '.' :: m), (3, M), (1, ['='])]⟩ := by
  have hre : constraintRegex =
      .seq (.star space) (.seq (.grp 1 opsRe) (.seq (.star space)
        (.seq (.grp 2 (cvRegex (2 + 1))) (.seq (.star space) .eos)))) := rfl
  unfold matchAt
  rw [hre, run_seq, space]
  apply star_cls_skip (space_stops_eq _)
  beta_reduce
  rw [run_seq]
  apply grp_ops_eq_some
  beta_reduce
  rw [run_seq]
  apply star_cls_skip (space_stops_dotted hM _)
  beta_reduce
  rw [run_seq]
  apply grp_cv_some hM hm hp
  beta_reduce
  rw [run_seq]
  apply star_cls_skip (stopsAt_nil _)
  beta_reduce
  rw [run_eos_nil]
  simp

theorem matchAt_findConstraintRegex {M m p : List Char} (hM : IsNumeral M) (hm : IsNumeral m)
    (hp : IsNumeral p) :
    matchAt findConstraintRegex ('=' :: dotted M m p) =
      some ⟨'=' :: dotted M m p, [],
        [(2, dotted M m p), (5, '.' :: p), (4, '.' :: m), (3, M), (1, ['='])]⟩ := by
  have hre : findConstraintRegex =
      .seq (.grp 1 opsRe) (.seq (.star space) (.grp 2 (cvRegex (2 + 1)))) := rfl
  unfold matchAt
  rw [hre, run_seq]
  apply grp_ops_eq_some
  beta_reduce
  rw [run_seq, space]
  apply star_cls_skip (space_stops_dotted hM _)
  beta_reduce
  apply grp_cv_some hM hm hp
  simp

theorem matchAt_validConstraintRegex {M m p : List Char} (hM : IsNumeral M) (hm : IsNumeral m)
    (hp : IsNumeral p) :
    matchAt validConstraintRegex ('=' :: dotted M m p) =
      some ⟨'=' :: dotted M m p, [],
        [(1, '=' :: dotted M m p), (3, dotted M m p), (6, '.' :: p), (5, '.' :: m), (4, M),
          (2, ['='])]⟩ := by
  have hre : validConstraintRegex =
      .seq (.grp 1 (.seq (.star space) (.seq (.grp 2 opsRe) (.seq (.star space)
        (.seq (.grp 3 (cvRegex (3 + 1))) (.star space))))))
        (.seq (.star (.grp 13 (Re.cat [.alt (Re.plus space) (.seq (Re.chr ',') (.star space)),
          .grp 14 opsRe, .star space, .grp 15 (cvRegex 16), .star space]))) .eos) := rfl
  unfold matchAt
  rw [hre, run_seq, run_grp, run_seq, space]
  apply star_cls_skip (space_stops_eq _)
  beta_reduce
  rw [run_seq]
  apply grp_ops_eq_some
  beta_reduce
  rw [run_seq]
  apply star_cls_skip (space_stops_dotted hM _)
  beta_reduce
  rw [run_seq]
  apply grp_cv_some hM hm hp
  beta_reduce
  apply star_cls_skip (stopsAt_nil _)
  beta_reduce
  rw [run_seq, run_star]
  simp only [List.length_nil]
  rw [starLoop_zero, run_eos_nil]
  simp

theorem isX_numeral {n : List Char} (hn : IsNumeral n) : isX n = false := by
  obtain ⟨hne, hd⟩ := hn
  cases n with
  | nil => exact absurd rfl hne
  | cons d ds =>
    have h := hd d (List.mem_cons_self _ _)
    have h1 : d ≠ 'x' := by intro e; rw [e] at h; exact absurd h (by decide)
    have h2 : d ≠ '*' := by intro e; rw [e] at h; exact absurd h (by decide)
    have h3 : d ≠ 'X' := by intro e; rw [e] at h; exact absurd h (by decide)
    simp [isX, h1, h2, h3]

theorem TrimPrefix_dot (n : List Char) : TrimPrefix ('.' :: n) ['.'] = n := by
  simp [TrimPrefix]

theorem parseConstraint_exactly {M m p : List Char} (hM : IsNumeral M) (hm : IsNumeral m)
    (hp : IsNumeral p) (fM : decimal M < 2 ^ 64) (fm : decimal m < 2 ^ 64)
    (fp : decimal p < 2 ^ 64) :
    parseConstraint ('=' :: dotted M m p) = .ok (exactly M m p) := by
  unfold parseConstraint
  rw [if_pos (by simp), matchAt_constraintRegex hM hm hp]
  have g1 : group [(2, dotted M m p), (5, '.' :: p), (4, '.' :: m), (3, M), (1, ['='])] 1
      = ['='] := rfl
  have g2 : group [(2, dotted M m p), (5, '.' :: p), (4, '.' :: m), (3, M), (1, ['='])] 2
      = dotted M m p := rfl
  have g3 : group [(2, dotted M m p), (5, '.' :: p), (4, '.' :: m), (3, M), (1, ['='])] 3
      = M := rfl
  have g4 : group [(2, dotted M m p), (5, '.' :: p), (4, '.' :: m), (3, M), (1, ['='])] 4
      = '.' :: m := rfl
  have g5 : group [(2, dotted M m p), (5, '.' :: p), (4, '.' :: m), (3, M), (1, ['='])] 5
      = '.' :: p := rfl
  have hM0 : (M == []) = false := by
    cases M with
    | nil => exact absurd rfl hM.1
    | cons d ds => rfl
  simp only [g1, g2, g3, g4, g5, isX_numeral hM, isX_numeral hm, isX_numeral hp, TrimPrefix_dot,
    hM0, Bool.or_self, Bool.false_eq_true, if_false]
  have e4 : (('.' :: m) == ([] : List Char)) = false := rfl
  have e5 : (('.' :: p) == ([] : List Char)) = false := rfl
  simp only [e4, e5, Bool.or_self, Bool.false_eq_true, if_false,
    NewVersion_dotted hM hm hp fM fm fp]
  rfl

theorem findAll_findConstraintRegex {M m p : List Char} (hM : IsNumeral M) (hm : IsNumeral m)
    (hp : IsNumeral p) :
    (findAll findConstraintRegex ('=' :: dotted M m p)).map (fun mt => mt.text) =
      ['=' :: dotted M m p] := by
  have hnil : search findConstraintRegex [] = none := by rfl
  unfold findAll
  rw [findAllAux, search, matchAt_findConstraintRegex hM hm hp]
  simp only [List.length_cons]
  rw [findAllAux, hnil]
  rfl

/-- Without a hyphen in the text `constraintRangeRegex` matches nowhere. -/
theorem matchAt_range_none (s : List Char) (h : '-' ∉ s) :
    matchAt constraintRangeRegex s = none := by
  have hre : constraintRangeRegex =
      .seq (.star space) (.seq (.grp 1 (cvRegex 2)) (.seq (Re.plus space)
        (.seq (Re.chr '-') (Re.cat [Re.plus space, .grp 11 (cvRegex 12), .star space])))) := rfl
  cases hm : matchAt constraintRangeRegex s with
  | none => rfl
  | some mt =>
    exfalso
    unfold matchAt at hm
    rw [hre, run_seq] at hm
    obtain ⟨s1, c1, hs1, h1⟩ := run_suffix _ _ _ _ _ hm
    rw [run_seq] at h1
    obtain ⟨s2, c2, hs2, h2⟩ := run_suffix _ _ _ _ _ h1
    rw [run_seq] at h2
    obtain ⟨s3, c3, hs3, h3⟩ := run_suffix _ _ _ _ _ h2
    rw [run_seq] at h3
    cases s3 with
    | nil => rw [chr_nil] at h3; cases h3
    | cons b t =>
      rw [chr_cons] at h3
      split at h3
      · rename_i hb
        apply h
        have hmem : b ∈ s := ((hs3.trans hs2).trans hs1).subset (List.mem_cons_self _ _)
        rw [hb] at hmem
        exact hmem
      · cases h3

theorem search_range_none : ∀ (s : List Char), '-' ∉ s → search constraintRangeRegex s = none
  | [], h => by rw [search, matchAt_range_none [] h]; rfl
  | a :: t, h => by
    rw [search, matchAt_range_none (a :: t) h]
    simp only []
    rw [search_range_none t (fun ht => h (List.mem_cons_of_mem _ ht))]
    rfl

theorem rewriteRange_id (s : List Char) (h : '-' ∉ s) : rewriteRange s = s := by
  unfold rewriteRange findAll
  rw [findAllAux, search_range_none s h]
  rfl

end semver

namespace GoStrings

theorem splitAux_no_sep (a : Char) (sep : List Char) :
    ∀ (s cur : List Char), a ∉ s → splitAux (a :: sep) 0 s cur = [cur.reverse ++ s]
  | [], cur, _ => by simp [splitAux]
  | c :: cs, cur, h => by
    have hc : c ≠ a := fun e => h (by rw [e]; exact List.mem_cons_self _ _)
    have hp : (a :: sep).isPrefixOf (c :: cs) = false := by
      simp [List.isPrefixOf, Ne.symm hc]
    rw [splitAux]
    simp only [hp, Bool.false_eq_true, if_false]
    rw [splitAux_no_sep a sep cs (c :: cur) (fun ht => h (List.mem_cons_of_mem _ ht))]
    simp

theorem Split_no_sep (a : Char) (sep s : List Char) (h : a ∉ s) : Split s (a :: sep) = [s] := by
  unfold Split
  rw [splitAux_no_sep a sep s [] h]
  rfl

end GoStrings

namespace semver
open GoRegexp GoStrconv GoStrings

theorem mem_eq_dotted {M m p : List Char} (hM : IsNumeral M) (hm : IsNumeral m)
    (hp : IsNumeral p) {c : Char} (hc : c ∈ '=' :: dotted M m p) :
    c = '=' ∨ c = '.' ∨ isDigit c = true := by
  simp only [dotted, List.mem_cons, List.mem_append] at hc
  rcases hc with h | h | h | h | h | h
  · exact Or.inl h
  · exact Or.inr (Or.inr (hM.2 c h))
  · exact Or.inr (Or.inl h)
  · exact Or.inr (Or.inr (hm.2 c h))
  · exact Or.inr (Or.inl h)
  · exact Or.inr (Or.inr (hp.2 c h))

theorem not_mem_eq_dotted {M m p : List Char} (hM : IsNumeral M) (hm : IsNumeral m)
    (hp : IsNumeral p) (a : Char) (h1 : a ≠ '=') (h2 : a ≠ '.') (h3 : isDigit a = false) :
    a ∉ '=' :: dotted M m p := by
  intro hc
  rcases mem_eq_dotted hM hm hp hc with h | h | h
  · exact h1 h
  · exact h2 h
  · rw [h3] at h; cases h

theorem parseGroup_exactly {M m p : List Char} (hM : IsNumeral M) (hm : IsNumeral m)
    (hp : IsNumeral p) (fM : decimal M < 2 ^ 64) (fm : decimal m < 2 ^ 64)
    (fp : decimal p < 2 ^ 64) :
    parseGroup ('=' :: dotted M m p) = .ok ([exactly M m p], false) := by
  unfold parseGroup
  rw [matchAt_validConstraintRegex hM hm hp]
  simp only [findAll_findConstraintRegex hM hm hp, List.isEmpty_cons, Bool.false_eq_true,
    if_false, List.mapM_cons, List.mapM_nil, parseConstraint_exactly hM hm hp fM fm fp]
  rfl

theorem NewConstraint_exactly {M m p : List Char} (hM : IsNumeral M) (hm : IsNumeral m)
    (hp : IsNumeral p) (fM : decimal M < 2 ^ 64) (fm : decimal m < 2 ^ 64)
    (fp : decimal p < 2 ^ 64) :
    NewConstraint ('=' :: dotted M m p) = .ok (exactlyOne M m p) := by
  unfold NewConstraint
  rw [rewriteRange_id _ (not_mem_eq_dotted hM hm hp '-' (by decide) (by decide) (by decide))]
  have hs : Split ('=' :: dotted M m p) "||".data = ['=' :: dotted M m p] :=
    Split_no_sep '|' ['|'] _
      (not_mem_eq_dotted hM hm hp '|' (by decide) (by decide) (by decide))
  rw [hs]
  simp only [List.mapM_cons, List.mapM_nil, parseGroup_exactly hM hm hp fM fm fp]
  rfl

end semver

namespace resolver
open GoRegexp GoStrconv GoStrings semver

theorem special_not_digit {c : Char} (h : isDigit c = true) :
    "=<>~^,| -".data.contains c = false := by
  cases hc : "=<>~^,| -".data.contains c with
  | false => rfl
  | true =>
    have hmem : c ∈ "=<>~^,| -".data := List.elem_iff.mp hc
    have hall : ∀ a ∈ "=<>~^,| -".data, isDigit a = false := by decide
    rw [hall c hmem] at h
    cases h

theorem ContainsAny_dotted {M m p : List Char} (hM : IsNumeral M) (hm : IsNumeral m)
    (hp : IsNumeral p) : ContainsAny (dotted M m p) "=<>~^,| -".data = false := by
  unfold ContainsAny
  rw [List.any_eq_false]
  intro c hc
  have hcases : c = '.' ∨ isDigit c = true := by
    simp only [dotted, List.mem_append, List.mem_cons] at hc
    rcases hc with h1 | h1 | h1 | h1 | h1
    · exact Or.inr (hM.2 c h1)
    · exact Or.inl h1
    · exact Or.inr (hm.2 c h1)
    · exact Or.inl h1
    · exact Or.inr (hp.2 c h1)
  rcases hcases with h | h
  · rw [h]; decide
  · rw [special_not_digit h]; simp

theorem MatchString_plainRe_dotted {M m p : List Char} (hM : IsNumeral M) (hm : IsNumeral m) :
    MatchString plainRe (dotted M m p) = true := by
  have hre : plainRe = .seq (Re.plus (.cls isDigit))
      (.seq (Re.chr '.') (Re.plus (.cls isDigit))) := rfl
  obtain ⟨hM0, hMd⟩ := hM
  obtain ⟨hm0, hmd⟩ := hm
  cases M with
  | nil => exact absurd rfl hM0
  | cons d ds =>
    cases m with
    | nil => exact absurd rfl hm0
    | cons e es =>
      have hrun : matchAt plainRe (dotted (d :: ds) (e :: es) p) =
          some ⟨(dotted (d :: ds) (e :: es) p).take
            ((dotted (d :: ds) (e :: es) p).length - ('.' :: p).length), '.' :: p, []⟩ := by
        unfold matchAt
        rw [hre, run_seq]
        have hd : dotted (d :: ds) (e :: es) p = d :: ds ++ '.' :: (e :: es ++ '.' :: p) := rfl
        conv_lhs => rw [hd]
        apply run_plus_cls_some (stopsAt_cons _ (by decide)) _ d ds hMd
        beta_reduce
        rw [run_seq, chr_cons, if_pos rfl]
        apply run_plus_cls_some (stopsAt_cons _ (by decide)) _ e es hmd
        rfl
      unfold MatchString
      rw [hrun]
      rfl

theorem dotted_head {M m p : List Char} (hM : IsNumeral M) :
    ∃ d t, dotted M m p = d :: t ∧ isDigit d = true := by
  obtain ⟨hM0, hMd⟩ := hM
  cases M with
  | nil => exact absurd rfl hM0
  | cons d ds => exact ⟨d, _, rfl, hMd d (List.mem_cons_self _ _)⟩

/-- The bare version `M.m.p` as a constraint: the equality with that version. -/
theorem ParseConstraint_dotted {M m p : List Char} (hM : IsNumeral M) (hm : IsNumeral m)
    (hp : IsNumeral p) (fM : decimal M < 2 ^ 64) (fm : decimal m < 2 ^ 64)
    (fp : decimal p < 2 ^ 64) :
    ParseConstraint (String.mk (dotted M m p)) = .ok (some (exactlyOne M m p)) := by
  obtain ⟨d, t, hdt, hd⟩ := dotted_head (m := m) (p := p) hM
  have hne : ¬ (String.mk (dotted M m p) = "" ∨ String.mk (dotted M m p) = "latest") := by
    rw [hdt]
    rintro (h | h)
    · have := congrArg String.data h
      simp at this
    · have h2 := congrArg String.data h
      have h3 : d = 'l' := by
        have : (d :: t) = "latest".data := h2
        injection this
      rw [h3] at hd
      exact absurd hd (by decide)
  unfold ParseConstraint
  rw [if_neg hne]
  have hc : (MatchString plainRe (String.mk (dotted M m p)).data = true ∧
      (!ContainsAny (String.mk (dotted M m p)).data "=<>~^,| -".data) = true) := by
    refine ⟨MatchString_plainRe_dotted hM hm, ?_⟩
    rw [ContainsAny_dotted hM hm hp]
    rfl
  simp only [if_pos hc]
  have hdata : ("=" ++ String.mk (dotted M m p)).data = '=' :: dotted M m p := by
    rw [String.data_append]
    rfl
  rw [hdata, NewConstraint_exactly hM hm hp fM fm fp]

theorem compareSegment_eq_zero {a b : Nat} : compareSegment a b = 0 ↔ a = b := by
  unfold compareSegment
  constructor
  · intro h
    by_cases h1 : a < b
    · rw [if_pos h1] at h; exact absurd h (by decide)
    · by_cases h2 : a > b
      · rw [if_neg h1, if_pos h2] at h; exact absurd h (by decide)
      · omega
  · intro h
    subst h
    simp

/-- The equality with `M.m.p` is satisfied exactly by the releases with these
numbers. -/
theorem Check_exactlyOne (M m p : List Char) (v : Version) :
    (exactlyOne M m p).Check v = true ↔
      (v.major = decimal M ∧ v.minor = decimal m ∧ v.patch = decimal p ∧ v.pre = "") := by
  have hcheck : (exactlyOne M m p).Check v = (exactly M m p).check v false := by
    simp [Constraints.Check, exactlyOne]
  have hop : (exactly M m p).check v false = constraintTildeOrEqual v (exactly M m p) false := by
    unfold constraint.check
    have hf : (exactly M m p).origfunc = "" ∨ (exactly M m p).origfunc = "=" := Or.inr rfl
    rw [if_pos hf]
  rw [hcheck, hop]
  unfold constraintTildeOrEqual
  by_cases hpre : v.pre = ""
  · have h1 : ¬ (v.pre ≠ "" ∧ (!false) = true) := fun h => h.1 hpre
    rw [if_neg h1]
    have h2 : (exactly M m p).dirty = false := rfl
    simp only [h2, Bool.false_eq_true, if_false]
    unfold Version.Equal Version.Compare
    have hc : (exactly M m p).con.pre = "" := rfl
    have e1 : (exactly M m p).con.major = decimal M := rfl
    have e2 : (exactly M m p).con.minor = decimal m := rfl
    have e3 : (exactly M m p).con.patch = decimal p := rfl
    rw [hc, e1, e2, e3, hpre]
    simp only [decide_eq_true_eq, and_self, if_true]
    constructor
    · intro h
      by_cases a1 : compareSegment v.major (decimal M) = 0
      · rw [if_neg (by simpa using a1)] at h
        by_cases a2 : compareSegment v.minor (decimal m) = 0
        · rw [if_neg (by simpa using a2)] at h
          by_cases a3 : compareSegment v.patch (decimal p) = 0
          · exact ⟨compareSegment_eq_zero.mp a1, compareSegment_eq_zero.mp a2,
              compareSegment_eq_zero.mp a3, trivial⟩
          · rw [if_pos a3] at h; exact absurd h a3
        · rw [if_pos a2] at h; exact absurd h a2
      · rw [if_pos a1] at h; exact absurd h a1
    · rintro ⟨h1, h2, h3, _⟩
      rw [compareSegment_eq_zero.mpr h1, compareSegment_eq_zero.mpr h2,
        compareSegment_eq_zero.mpr h3]
      simp
  · have h1 : (v.pre ≠ "" ∧ (!false) = true) := ⟨hpre, rfl⟩
    rw [if_pos h1]
    simp [hpre]

theorem satisfies_exactlyOne (M m p : List Char) (v : String) :
    satisfies (exactlyOne M m p) v = isRelease (decimal M) (decimal m) (decimal p) v := by
  unfold satisfies isRelease
  cases ParseVersion v with
  | error e => rfl
  | ok sv =>
    simp only []
    rw [Bool.eq_iff_iff, Check_exactlyOne]
    simp

/-- A string that starts like a plain version and has none of the operator
characters is parsed as the constraint with a leading `=`. -/
theorem ParseConstraint_bare (X : String) (h1 : MatchString plainRe X.data = true)
    (h2 : ContainsAny X.data "=<>~^,| -".data = false) :
    ¬ (X = "" ∨ X = "latest") ∧ ¬ ("=" ++ X = "" ∨ "=" ++ X = "latest") ∧
      ParseConstraint X = ParseConstraint ("=" ++ X) := by
  have hX : ¬ (X = "" ∨ X = "latest") := by
    rintro (h | h)
    · rw [h] at h1; exact absurd h1 (by decide)
    · rw [h] at h1; exact absurd h1 (by decide)
  have hdata : ("=" ++ X).data = '=' :: X.data := by
    rw [String.data_append]
    rfl
  have hE : ¬ ("=" ++ X = "" ∨ "=" ++ X = "latest") := by
    rintro (h | h)
    · have := congrArg String.data h
      rw [hdata] at this
      cases this
    · have := congrArg String.data h
      rw [hdata] at this
      revert this
      intro h3
      have h4 : '=' = 'l' := by injection h3
      exact absurd h4 (by decide)
  refine ⟨hX, hE, ?_⟩
  have hany : ContainsAny ("=" ++ X).data "=<>~^,| -".data = true := by
    rw [hdata]
    simp [ContainsAny]
  unfold ParseConstraint
  rw [if_neg hX, if_neg hE]
  simp only [h1, h2, hany, Bool.not_false, Bool.not_true, and_self, if_true,
    Bool.false_eq_true, and_false, if_false]

set_option maxRecDepth 100000 in
theorem ParseConstraint_equals34 : ParseConstraint "3.4" = .ok (some equals34) := by decide

set_option maxRecDepth 100000 in
theorem ParseConstraint_equals500 :
    ParseConstraint "5.0.0" = .ok (some equals500) ∧
    ParseConstraint "=5.0.0" = .ok (some equals500) := by decide

set_option maxRecDepth 100000 in
/-- C4 at the failing input: `3.4` is a bare version (it starts with digits, a dot
and digits and has none of the operator characters), the version it denotes is
3.4.0, and `FilterVersions` returns the candidate `3.4.5` for it, whose version is
not equal to 3.4.0, where the claim and the comment of `ParseConstraint` (a plain
version is treated as exact match) ask for the candidates equal to 3.4.0 alone. -/
theorem bare_version_counterexample :
    MatchString plainRe "3.4".data = true ∧
    ContainsAny "3.4".data "=<>~^,| -".data = false ∧
    FilterVersions GoSort.insertion ["3.4.5"] "3.4" = .ok ["3.4.5"] ∧
    ParseVersion "3.4" = .ok { major := 3, minor := 4, patch := 0, pre := "", metadata := "",
                               original := "3.4" } ∧
    ParseVersion "3.4.5" = .ok { major := 3, minor := 4, patch := 5, pre := "", metadata := "",
                                 original := "3.4.5" } ∧
    Version.Equal { major := 3, minor := 4, patch := 5, pre := "", metadata := "",
                    original := "3.4.5" }
      { major := 3, minor := 4, patch := 0, pre := "", metadata := "", original := "3.4" }
      = false := by
  decide

theorem SelectBestVersion_of_filter (S : GoSort.Slice) {versions : List String}
    {constraint best : String} {others : List String} (hv : versions ≠ [])
    (hc : ¬ (constraint = "" ∨ constraint = "latest"))
    (hf : FilterVersions S versions constraint = .ok (best :: others)) :
    SelectBestVersion S versions constraint = .ok best := by
  cases versions with
  | nil => exact absurd rfl hv
  | cons w rest =>
    simp only [SelectBestVersion]
    rw [if_neg hc, hf]

/-- What the code does with a bare version: a constraint string `X` that starts
with digits, a dot and digits and has none of the characters `=<>~^,| -` is handed
on as `=X`, for every candidate list.  When `X` spells all three numbers (each
fitting 64 bits), `FilterVersions` returns just the candidates that parse to the
release with these numbers, the exact match.  With a number missing the constraint
library checks `=X` as a range, and `3.4` returns 3.4.5 and 3.4.0 from 3.4.0,
3.4.5, 3.5.0.  For the candidates 5.0.0, 5.0.1, 4.9.9 and the constraint `5.0.0` or
`=5.0.0` the selection is 5.0.0. -/
theorem bare_version_constraint (S : GoSort.Slice) :
    (∀ (candidates : List String) (X : String), MatchString plainRe X.data = true →
      ContainsAny X.data "=<>~^,| -".data = false →
      FilterVersions S candidates X = FilterVersions S candidates ("=" ++ X)) ∧
    (∀ (candidates : List String) (M m p : List Char), IsNumeral M → IsNumeral m →
      IsNumeral p → decimal M < 2 ^ 64 → decimal m < 2 ^ 64 → decimal p < 2 ^ 64 →
      ∃ out, FilterVersions S candidates (String.mk (dotted M m p)) = .ok out ∧
        out.Perm (candidates.filter (isRelease (decimal M) (decimal m) (decimal p))) ∧
        ∀ v ∈ out, ∃ sv, ParseVersion v = .ok sv ∧ sv.major = decimal M ∧
          sv.minor = decimal m ∧ sv.patch = decimal p ∧ sv.pre = "") ∧
    FilterVersions S ["3.4.0", "3.4.5", "3.5.0"] "3.4" = .ok ["3.4.5", "3.4.0"] ∧
    SelectBestVersion S ["5.0.0", "5.0.1", "4.9.9"] "5.0.0" = .ok "5.0.0" ∧
    SelectBestVersion S ["5.0.0", "5.0.1", "4.9.9"] "=5.0.0" = .ok "5.0.0" := by
  refine ⟨?_, ?_, ?_, ?_, ?_⟩
  · intro candidates X h1 h2
    obtain ⟨hX, hE, hP⟩ := ParseConstraint_bare X h1 h2
    unfold FilterVersions
    rw [if_neg hX, if_neg hE, hP]
  · intro candidates M m p hM hm hp fM fm fp
    have hc := ParseConstraint_dotted hM hm hp fM fm fp
    obtain ⟨out, hout, hperm⟩ := FilterVersions_perm S candidates hc
    have hfun : satisfies (exactlyOne M m p) =
        isRelease (decimal M) (decimal m) (decimal p) := by
      funext v
      exact satisfies_exactlyOne M m p v
    rw [hfun] at hperm
    refine ⟨out, hout, hperm, ?_⟩
    intro v hv
    have hmem := (List.mem_filter.mp (hperm.mem_iff.mp hv)).2
    unfold isRelease at hmem
    cases hp : ParseVersion v with
    | error e => rw [hp] at hmem; cases hmem
    | ok sv =>
      rw [hp] at hmem
      exact ⟨sv, rfl, by simpa using hmem⟩
  · rw [FilterVersions_eq S _ ParseConstraint_equals34]
    have hm : matchedPairs equals34 ["3.4.0", "3.4.5", "3.5.0"] =
        [{ original := "3.4.0", parsed := { major := 3, minor := 4, patch := 0, pre := "",
                                            metadata := "", original := "3.4.0" } },
         { original := "3.4.5", parsed := { major := 3, minor := 4, patch := 5, pre := "",
                                            metadata := "", original := "3.4.5" } }] := by
      decide
    have ho := newerFirst_isOrdering equals34 ["3.4.0", "3.4.5", "3.5.0"]
    rw [hm] at ho ⊢
    rw [GoSort.sort_pair S newerFirst _ _ ho (by decide)]
    rfl
  · apply SelectBestVersion_of_filter S (by simp) (by decide)
    rw [FilterVersions_eq S _ ParseConstraint_equals500.1]
    have hm : matchedPairs equals500 ["5.0.0", "5.0.1", "4.9.9"] =
        [{ original := "5.0.0", parsed := { major := 5, minor := 0, patch := 0, pre := "",
                                            metadata := "", original := "5.0.0" } }] := by
      decide
    rw [hm, GoSort.sort_singleton]
    rfl
  · apply SelectBestVersion_of_filter S (by simp) (by decide)
    rw [FilterVersions_eq S _ ParseConstraint_equals500.2]
    have hm : matchedPairs equals500 ["5.0.0", "5.0.1", "4.9.9"] =
        [{ original := "5.0.0", parsed := { major := 5, minor := 0, patch := 0, pre := "",
                                            metadata := "", original := "5.0.0" } }] := by
      decide
    rw [hm, GoSort.sort_singleton]
    rfl

theorem numeral_5 : IsNumeral ['5'] := ⟨by simp, by decide⟩

theorem numeral_0 : IsNumeral ['0'] := ⟨by simp, by decide⟩

theorem bare_version_constraint_witness :
    (MatchString plainRe "5.0.0".data = true ∧
      ContainsAny "5.0.0".data "=<>~^,| -".data = false ∧
      FilterVersions GoSort.insertion ["5.0.0", "5.0.1", "v5.0.0+b1"] "5.0.0" =
        FilterVersions GoSort.insertion ["5.0.0", "5.0.1", "v5.0.0+b1"] ("=" ++ "5.0.0")) ∧
    (IsNumeral ['5'] ∧ IsNumeral ['0'] ∧ decimal ['5'] < 2 ^ 64 ∧ decimal ['0'] < 2 ^ 64 ∧
      ∃ out, FilterVersions GoSort.insertion ["5.0.0", "5.0.1", "v5.0.0+b1"]
          (String.mk (dotted ['5'] ['0'] ['0'])) = .ok out ∧
        out.Perm (["5.0.0", "5.0.1", "v5.0.0+b1"].filter
          (isRelease (decimal ['5']) (decimal ['0']) (decimal ['0']))) ∧
        ∀ v ∈ out, ∃ sv, ParseVersion v = .ok sv ∧ sv.major = decimal ['5'] ∧
          sv.minor = decimal ['0'] ∧ sv.patch = decimal ['0'] ∧ sv.pre = "") :=
  ⟨⟨by decide, by decide,
    (bare_version_constraint GoSort.insertion).1 ["5.0.0", "5.0.1", "v5.0.0+b1"] "5.0.0"
      (by decide) (by decide)⟩,
   ⟨numeral_5, numeral_0, by decide, by decide,
    (bare_version_constraint GoSort.insertion).2.1 ["5.0.0", "5.0.1", "v5.0.0+b1"]
      ['5'] ['0'] ['0'] numeral_5 numeral_0 numeral_0 (by decide) (by decide) (by decide)⟩⟩

end resolver

/-! ## The Object-Storage adapter against its reference -/

namespace GoStrings

theorem Contains_iff_occurs (sub : List Char) : ∀ s : List Char,
    Contains s sub = true ↔ sub <:+: s
  | [] => by
    cases sub with
    | nil => simp [Contains]
    | cons a t => simp [Contains]
  | c :: cs => by
    rw [Contains, Bool.or_eq_true, Contains_iff_occurs sub cs, List.infix_cons_iff,
      List.isPrefixOf_iff_prefix]

/-- `Split` always gives at least one piece. -/
theorem splitAux_ne_nil (sep : List Char) : ∀ (s : List Char) (skip : Nat) (cur : List Char),
    splitAux sep skip s cur ≠ []
  | [], skip, cur => by cases skip <;> simp [splitAux]
  | c :: cs, skip + 1, cur => by
    rw [splitAux]; exact splitAux_ne_nil sep cs skip cur
  | c :: cs, 0, cur => by
    rw [splitAux]
    · split
      · simp
      · exact splitAux_ne_nil sep cs 0 (c :: cur)

/-- Replacing a text by itself changes nothing: after `skip` characters are
dropped the rest is kept. -/
theorem replaceAux_self (old : List Char) (hold : old ≠ []) : ∀ (s : List Char) (skip : Nat),
    replaceAux old old none skip s = s.drop skip
  | [], skip => by cases skip <;> simp [replaceAux]
  | c :: cs, skip + 1 => by
    rw [replaceAux, replaceAux_self old hold cs skip, List.drop_succ_cons]
  | c :: cs, 0 => by
    rw [replaceAux]
    · split
      · rename_i hp
        rw [Option.map_none', replaceAux_self old hold cs (old.length - 1)]
        rw [List.isPrefixOf_iff_prefix] at hp
        obtain ⟨t, ht⟩ := hp
        cases old with
        | nil => exact absurd rfl hold
        | cons a old1 =>
          simp only [List.cons_append, List.cons.injEq] at ht
          obtain ⟨rfl, ht⟩ := ht
          simp only [List.length_cons, Nat.add_sub_cancel, List.drop_zero, List.cons_append,
            List.cons.injEq, true_and]
          rw [← ht, List.drop_left]
      · rw [replaceAux_self old hold cs 0]; rfl
    · intro h; cases h

theorem intercalate_cons_of_ne_nil (sep x : List Char) {rest : List (List Char)}
    (h : rest ≠ []) :
    List.intercalate sep (x :: rest) = x ++ sep ++ List.intercalate sep rest := by
  cases rest with
  | nil => exact absurd rfl h
  | cons y ys => simp [List.intercalate, List.intersperse]

/-- The loops of `ReplaceAll` and of `Split` go through the text in the same way:
the replaced text is the pieces joined by the new text. -/
theorem replaceAux_splitAux (old new : List Char) : ∀ (s : List Char) (skip : Nat)
    (cur : List Char),
    cur.reverse ++ replaceAux old new none skip s
      = List.intercalate new (splitAux old skip s cur)
  | [], skip, cur => by cases skip <;> simp [replaceAux, splitAux, List.intercalate]
  | c :: cs, skip + 1, cur => by
    rw [replaceAux, splitAux, replaceAux_splitAux old new cs skip cur]
  | c :: cs, 0, cur => by
    rw [replaceAux, splitAux]
    · split
      · have ih := replaceAux_splitAux old new cs (old.length - 1) []
        rw [intercalate_cons_of_ne_nil _ _ (splitAux_ne_nil old cs _ []), ← ih,
          Option.map_none']
        simp
      · have ih := replaceAux_splitAux old new cs 0 (c :: cur)
        rw [← ih]
        simp
    · intro h; cases h

theorem ReplaceAll_eq_intercalate (s old new : List Char) :
    ReplaceAll s old new = List.intercalate new (Split s old) := by
  have h := replaceAux_splitAux old new s 0 []
  simpa [ReplaceAll, Split] using h

theorem intercalate_Split (s old : List Char) (hold : old ≠ []) :
    List.intercalate old (Split s old) = s := by
  rw [← ReplaceAll_eq_intercalate, ReplaceAll, replaceAux_self old hold, List.drop_zero]

theorem suffix_concat_split {t l : List Char} {c : Char} (hne : t ≠ [])
    (h : t <:+ l ++ [c]) : ∃ t1, t = t1 ++ [c] ∧ t1 <:+ l := by
  obtain ⟨u, hu⟩ := h
  rcases List.eq_nil_or_concat t with ht | ⟨L, b, ht⟩
  · exact absurd ht hne
  · subst ht
    rw [List.concat_eq_append, ← List.append_assoc] at hu
    have h1 := List.append_inj' hu rfl
    refine ⟨L, ?_, u, h1.1⟩
    have h2 : b = c := by simpa using h1.2
    rw [List.concat_eq_append, h2]

/-- No piece of `Split` contains the separator. -/
theorem splitAux_pieces (old : List Char) (hold : old ≠ []) : ∀ (s : List Char) (skip : Nat)
    (cur : List Char), (skip ≠ 0 → cur = []) →
    (∀ t, t ≠ [] → t <:+ cur.reverse → ¬ old <+: t ++ s) →
    ∀ p ∈ splitAux old skip s cur, ¬ old <:+: p
  | [], skip, cur => by
    intro _ hinv p hp hin
    have hp : p = cur.reverse := by cases skip <;> simpa [splitAux] using hp
    subst hp
    obtain ⟨t, h1, h2⟩ := List.infix_iff_prefix_suffix.mp hin
    have hne : t ≠ [] := by
      intro ht; subst ht
      exact hold (List.prefix_nil.mp h1)
    exact hinv t hne h2 (by simpa using h1)
  | c :: cs, skip + 1, cur => by
    intro hcur _ p hp
    rw [splitAux] at hp
    have hnil : cur = [] := hcur (Nat.succ_ne_zero skip)
    subst hnil
    exact splitAux_pieces old hold cs skip [] (fun _ => rfl)
      (fun t hne ht => absurd (List.suffix_nil.mp (by simpa using ht)) hne) p hp
  | c :: cs, 0, cur => by
    intro _ hinv p hp
    rw [splitAux] at hp
    split at hp
    · rcases List.mem_cons.mp hp with hp | hp
      · subst hp
        intro hin
        obtain ⟨t, h1, h2⟩ := List.infix_iff_prefix_suffix.mp hin
        have hne : t ≠ [] := by
          intro ht; subst ht
          exact hold (List.prefix_nil.mp h1)
        exact hinv t hne h2 (h1.trans (List.prefix_append t (c :: cs)))
      · exact splitAux_pieces old hold cs (old.length - 1) [] (fun _ => rfl)
          (fun t hne ht => absurd (List.suffix_nil.mp (by simpa using ht)) hne) p hp
    · rename_i hnp
      refine splitAux_pieces old hold cs 0 (c :: cur) (fun h => absurd rfl h) ?_ p hp
      intro t hne ht
      rw [List.reverse_cons] at ht
      obtain ⟨t1, rfl, ht1⟩ := suffix_concat_split hne ht
      by_cases h1 : t1 = []
      · subst h1
        intro hpre
        exact hnp (List.isPrefixOf_iff_prefix.mpr (by simpa using hpre))
      · have := hinv t1 h1 ht1
        simpa using this

theorem Split_pieces (s old : List Char) (hold : old ≠ []) :
    ∀ p ∈ Split s old, ¬ old <:+: p :=
  splitAux_pieces old hold s 0 [] (fun h => absurd rfl h)
    (fun t hne ht => absurd (List.suffix_nil.mp (by simpa using ht)) hne)

/-- A text without the old text is left as it is by `ReplaceAll`. -/
theorem replaceAux_of_absent (old new : List Char) : ∀ (s : List Char),
    ¬ old <:+: s → replaceAux old new none 0 s = s
  | [] => by intro _; rfl
  | c :: cs => by
    intro h
    rw [List.infix_cons_iff, not_or] at h
    rw [replaceAux]
    · rw [if_neg (by rw [List.isPrefixOf_iff_prefix]; exact h.1),
        replaceAux_of_absent old new cs h.2]
    · intro h; cases h

/-- The characters of a recognised occurrence are dropped. -/
theorem replaceAux_skip (old new : List Char) : ∀ (x rest : List Char),
    replaceAux old new none x.length (x ++ rest) = replaceAux old new none 0 rest
  | [], rest => rfl
  | a :: x, rest => by
    rw [List.length_cons, List.cons_append, replaceAux, replaceAux_skip old new x rest]

theorem prefix_of_prefix_append {tok q rest : List Char} (h : tok <+: q ++ rest)
    (hlen : tok.length ≤ q.length) : tok <+: q := by
  obtain ⟨t, ht⟩ := h
  have h1 : tok = (q ++ rest).take tok.length := by
    rw [← ht, List.take_left]
  rw [List.take_append_of_le_length hlen] at h1
  rw [h1]
  exact List.take_prefix _ _

/-- Before an occurrence of a border-free `tok`, and after a text `q` that is not
empty and does not contain `tok`, no occurrence of `tok` starts at the beginning
of `q`. -/
theorem not_prefix_before (tok : List Char) (hb : borderFree tok = true) (q rest : List Char)
    (hq : q ≠ []) (hfree : ¬ tok <:+: q) : ¬ tok <+: q ++ (tok ++ rest) := by
  intro h
  by_cases hlen : tok.length ≤ q.length
  · exact hfree (prefix_of_prefix_append h hlen).isInfix
  · have hlt : q.length < tok.length := Nat.lt_of_not_le hlen
    have hk : 0 < q.length := List.length_pos.mpr hq
    obtain ⟨t, ht⟩ := h
    -- the end of `tok` after `q.length` characters begins `tok`
    have h1 : tok.take q.length = q := by
      have := congrArg (List.take q.length) ht
      rw [List.take_append_of_le_length (Nat.le_of_lt hlt), List.take_left] at this
      exact this
    have h2 : tok.drop q.length <+: tok := by
      have := congrArg (List.drop q.length) ht
      rw [List.drop_append_of_le_length (Nat.le_of_lt hlt), List.drop_left] at this
      -- tok.drop k ++ t = tok ++ rest
      have hle : (tok.drop q.length).length ≤ tok.length := by
        rw [List.length_drop]; omega
      exact prefix_of_prefix_append ⟨t, this⟩ hle
    have hall := List.all_eq_true.mp hb q.length (List.mem_range.mpr hlt)
    have hk0 : (q.length == 0) = false := by
      simp only [beq_eq_false_iff_ne, ne_eq]
      omega
    rw [hk0, Bool.false_or] at hall
    rw [List.isPrefixOf_iff_prefix.mpr h2] at hall
    cases hall

/-- Scanning a piece that does not contain `tok` and is followed by `tok`: the
piece is copied and the occurrence replaced. -/
theorem replaceAux_piece (tok new : List Char) (htok : tok ≠ []) (hb : borderFree tok = true)
    (rest : List Char) : ∀ (p : List Char), ¬ tok <:+: p →
    replaceAux tok new none 0 (p ++ (tok ++ rest))
      = p ++ (new ++ replaceAux tok new none 0 rest)
  | [] => by
    intro _
    cases tok with
    | nil => exact absurd rfl htok
    | cons a t =>
      rw [List.nil_append, List.cons_append, replaceAux]
      · have hp : (a :: t).isPrefixOf (a :: (t ++ rest)) = true := by
          rw [List.isPrefixOf_iff_prefix, ← List.cons_append]
          exact List.prefix_append _ _
        rw [if_pos hp, Option.map_none', List.length_cons, Nat.add_sub_cancel, replaceAux_skip]
        rfl
      · intro h; cases h
  | c :: cs => by
    intro hfree
    have hnp : ¬ tok <+: (c :: cs) ++ (tok ++ rest) :=
      not_prefix_before tok hb (c :: cs) rest (by simp) hfree
    have hfree2 : ¬ tok <:+: cs := fun h => hfree ((List.infix_cons_iff).mpr (Or.inr h))
    rw [List.cons_append, replaceAux]
    · rw [if_neg (by rw [List.isPrefixOf_iff_prefix]; exact hnp),
        replaceAux_piece tok new htok hb rest cs hfree2]
      rfl
    · intro h; cases h

/-- For a border-free `tok`: whatever way a text is cut into pieces without `tok`,
joined by `tok`, `ReplaceAll` gives the pieces joined by the new text. -/
theorem ReplaceAll_intercalate (tok new : List Char) (htok : tok ≠ [])
    (hb : borderFree tok = true) : ∀ (pieces : List (List Char)),
    (∀ p ∈ pieces, ¬ tok <:+: p) →
    ReplaceAll (List.intercalate tok pieces) tok new = List.intercalate new pieces
  | [] => by intro _; rfl
  | [p] => by
    intro h
    have e : ∀ sep : List Char, List.intercalate sep [p] = p := by
      intro sep; simp [List.intercalate]
    rw [e, e, ReplaceAll, replaceAux_of_absent _ _ _ (h p (List.mem_singleton.mpr rfl))]
  | p :: q :: rest => by
    intro h
    have ih := ReplaceAll_intercalate tok new htok hb (q :: rest)
      (fun x hx => h x (List.mem_cons_of_mem _ hx))
    rw [intercalate_cons_of_ne_nil tok p (List.cons_ne_nil q rest),
      intercalate_cons_of_ne_nil new p (List.cons_ne_nil q rest)]
    unfold ReplaceAll at ih ⊢
    rw [List.append_assoc, replaceAux_piece tok new htok hb _ p (h p (List.mem_cons_self _ _)),
      ih, List.append_assoc]

end GoStrings

namespace resolver
open GoStrings

theorem versionPlaceholder_ne : versionPlaceholder.data ≠ [] := by decide

/-- The key of the result, as the code computes it, is the key with every
occurrence of the placeholder replaced. -/
theorem substituteVersion_eq (key v : String) :
    (if Contains key.data versionPlaceholder.data then
        String.mk (ReplaceAll key.data versionPlaceholder.data v.data)
      else key) = substituteVersion key v := by
  unfold substituteVersion
  rw [← ReplaceAll_eq_intercalate]
  split
  · rfl
  · rename_i hc
    rw [Contains_iff_occurs] at hc
    rw [ReplaceAll, replaceAux_of_absent _ _ _ hc]

/-- C11: for every request, `S3Resolver.Resolve` does what the reference of the
specification says.  It returns a result exactly when the reference does, and the
same one: the version is that of the request, or `latest` when unset, the URL is
empty and the storage URI is `s3://`, the bucket, a slash and the key with every
occurrence of the placeholder replaced by the version.  It returns one of its two
errors on a missing field exactly when the reference fails with `MissingField`
(bucket or key empty), and its error on the placeholder exactly when the reference
fails with `AmbiguousVersion` (the key contains the placeholder and the version is
`latest`).  The replacement is meant literally: the key is pieces, none containing
the placeholder, joined by the placeholder, and the substituted key is the same
pieces joined by the version, in whatever way the key is cut into such pieces. -/
theorem s3_Resolve_reference (s : S3Resolver) (cfg : PluginConfig) :
    (∀ r, s.Resolve cfg = .ok r ↔ s3Reference s.now cfg = .ok r) ∧
    (s3Reference s.now cfg = .error .MissingField ↔
      (s.Resolve cfg = .error (.errorf "s3 source requires 'bucket' field" []) ∨
       s.Resolve cfg = .error (.errorf "s3 source requires 'key' field" []))) ∧
    (s3Reference s.now cfg = .error .AmbiguousVersion ↔
      s.Resolve cfg = .error (.errorf
        "s3 source with $\x7bversion\x7d placeholder requires explicit version, not 'latest'"
        [])) ∧
    (∀ key v : String, ∃ pieces : List (List Char),
      (∀ p ∈ pieces, ¬ versionPlaceholder.data <:+: p) ∧
      key.data = List.intercalate versionPlaceholder.data pieces ∧
      (substituteVersion key v).data = List.intercalate v.data pieces) ∧
    (∀ (key v : String) (pieces : List (List Char)),
      (∀ p ∈ pieces, ¬ versionPlaceholder.data <:+: p) →
      key.data = List.intercalate versionPlaceholder.data pieces →
      (substituteVersion key v).data = List.intercalate v.data pieces) := by
  have huniq : ∀ (key v : String) (pieces : List (List Char)),
      (∀ p ∈ pieces, ¬ versionPlaceholder.data <:+: p) →
      key.data = List.intercalate versionPlaceholder.data pieces →
      (substituteVersion key v).data = List.intercalate v.data pieces := by
    intro key v pieces hfree hkey
    unfold substituteVersion
    rw [← ReplaceAll_eq_intercalate, hkey]
    exact ReplaceAll_intercalate _ _ versionPlaceholder_ne (by decide) pieces hfree
  have hsub : (∀ key v : String, ∃ pieces : List (List Char),
      (∀ p ∈ pieces, ¬ versionPlaceholder.data <:+: p) ∧
      key.data = List.intercalate versionPlaceholder.data pieces ∧
      (substituteVersion key v).data = List.intercalate v.data pieces) ∧
    (∀ (key v : String) (pieces : List (List Char)),
      (∀ p ∈ pieces, ¬ versionPlaceholder.data <:+: p) →
      key.data = List.intercalate versionPlaceholder.data pieces →
      (substituteVersion key v).data = List.intercalate v.data pieces) :=
    ⟨fun key v => ⟨Split key.data versionPlaceholder.data,
      Split_pieces _ _ versionPlaceholder_ne,
      (intercalate_Split _ _ versionPlaceholder_ne).symm, rfl⟩, huniq⟩
  unfold S3Resolver.Resolve s3Reference
  by_cases hb : cfg.Bucket = ""
  · rw [if_pos hb, if_pos (Or.inl hb)]
    refine ⟨fun r => by simp, by simp, by simp, hsub⟩
  · rw [if_neg hb]
    by_cases hk : cfg.Key = ""
    · rw [if_pos hk, if_pos (Or.inr hk)]
      refine ⟨fun r => by simp, by simp, by simp, hsub⟩
    · rw [if_neg hk, if_neg (not_or.mpr ⟨hb, hk⟩)]
      simp only []
      by_cases ha : Contains cfg.Key.data versionPlaceholder.data = true ∧
          (if cfg.Version = "" then "latest" else cfg.Version) = "latest"
      · have ha2 : versionPlaceholder.data <:+: cfg.Key.data ∧
            (if cfg.Version = "" then "latest" else cfg.Version) = "latest" :=
          ⟨(Contains_iff_occurs _ _).mp ha.1, ha.2⟩
        rw [if_pos ha, if_pos ha2]
        refine ⟨fun r => by simp, by simp, by simp, hsub⟩
      · have ha2 : ¬ (versionPlaceholder.data <:+: cfg.Key.data ∧
            (if cfg.Version = "" then "latest" else cfg.Version) = "latest") :=
          fun h => ha ⟨(Contains_iff_occurs _ _).mpr h.1, h.2⟩
        rw [if_neg ha, if_neg ha2, substituteVersion_eq]
        refine ⟨fun r => ?_, by simp, by simp, hsub⟩
        constructor
        · intro h; injection h with h; rw [← h]
        · intro h; injection h with h; rw [← h]

set_option maxRecDepth 100000 in
theorem s3_Resolve_reference_witness :
    s3Reference 0 sampleS3Request = .ok sampleS3Result ∧
    S3Resolver.Resolve { now := 0 } sampleS3Request = .ok sampleS3Result ∧
    s3Reference 0 sampleS3Unset = .error .AmbiguousVersion ∧
    S3Resolver.Resolve { now := 0 } sampleS3Unset = .error (.errorf
      "s3 source with $\x7bversion\x7d placeholder requires explicit version, not 'latest'"
      []) :=
  ⟨by decide,
   ((s3_Resolve_reference { now := 0 } sampleS3Request).1 sampleS3Result).mpr (by decide),
   by decide,
   (s3_Resolve_reference { now := 0 } sampleS3Unset).2.2.1.mp (by decide)⟩

end resolver

/-! ## The registry -/

namespace GoMap

theorem get_set_self {α : Type} (m : List (String × α)) (k : String) (v : α) :
    get (set m k v) k = some v := by
  simp [get, set, List.lookup]

theorem lookup_filter_ne {α : Type} (k name : String) (hne : name ≠ k) :
    ∀ m : List (String × α), (m.filter (fun e => e.1 ≠ k)).lookup name = m.lookup name
  | [] => rfl
  | (a, b) :: rest => by
    by_cases hak : a = k
    · subst hak
      have h1 : (name == a) = false := by simpa using hne
      rw [List.filter_cons_of_neg (by simp), List.lookup_cons, h1,
        lookup_filter_ne a name hne rest]
    · rw [List.filter_cons_of_pos (by simpa using hak)]
      rw [List.lookup_cons, List.lookup_cons, lookup_filter_ne k name hne rest]

theorem get_set_ne {α : Type} (m : List (String × α)) (k name : String) (v : α)
    (hne : name ≠ k) : get (set m k v) name = get m name := by
  have h1 : (name == k) = false := by simpa using hne
  unfold get set
  rw [List.lookup_cons, h1, lookup_filter_ne k name hne m]

end GoMap

namespace resolver

theorem Get_Register_self (r : Registry) (res : Resolver) :
    (r.Register res).Get res.Name = some res :=
  GoMap.get_set_self _ _ _

theorem Get_Register_ne (r : Registry) (res : Resolver) (name : String)
    (hne : name ≠ res.Name) : (r.Register res).Get name = r.Get name :=
  GoMap.get_set_ne _ _ _ _ hne

theorem RegisterAll_append (r0 : Registry) (l1 l2 : List Resolver) :
    r0.RegisterAll (l1 ++ l2) = (r0.RegisterAll l1).RegisterAll l2 := by
  simp [Registry.RegisterAll, List.foldl_append]

/-- Registrations under other names leave the entry of a name as it is. -/
theorem Get_RegisterAll_ne (name : String) (regs : List Resolver) : ∀ (r0 : Registry),
    (∀ res ∈ regs, res.Name ≠ name) → (r0.RegisterAll regs).Get name = r0.Get name := by
  induction regs with
  | nil => intro r0 _; rfl
  | cons x rest ih =>
    intro r0 h
    have hx : name ≠ x.Name := fun e => h x (List.mem_cons_self _ _) e.symm
    have ih2 := ih (r0.Register x) (fun res hres => h res (List.mem_cons_of_mem _ hres))
    simp only [Registry.RegisterAll, List.foldl_cons] at ih2 ⊢
    rw [ih2, Get_Register_ne r0 x name hx]

/-- The entry of a name is the adapter registered last under it. -/
theorem Get_RegisterAll_last (r0 : Registry) (before after : List Resolver) (res : Resolver)
    (hafter : ∀ x ∈ after, x.Name ≠ res.Name) :
    (r0.RegisterAll (before ++ res :: after)).Get res.Name = some res := by
  have e : before ++ res :: after = (before ++ [res]) ++ after := by simp
  rw [e, RegisterAll_append, Get_RegisterAll_ne res.Name after _ hafter, RegisterAll_append]
  exact Get_Register_self _ _

/-- C15: in the registry reached by any sequence of calls `Register` on the empty
registry (as `NewRegistry` makes it: `NewRegistry` itself is five such calls),
`Resolve` for a source name takes its unknown-source branch, and fails with
`unknown source`, exactly when no adapter of the sequence has that name, that is,
when the lookup `Get` finds nothing; and when `res` is the last adapter of the
sequence with that name, whatever was registered before it, `Get` finds `res` and
`Resolve` returns just what `res.Resolve` returns on the request, result, error or
panic, unchanged. -/
theorem Registry_dispatch (regs : List Resolver) (source : String) (cfg : PluginConfig) :
    (((Registry.mk []).RegisterAll regs).Get source = none ↔
      ∀ res ∈ regs, res.Name ≠ source) ∧
    ((∀ res ∈ regs, res.Name ≠ source) →
      ((Registry.mk []).RegisterAll regs).Resolve source cfg
        = .error (.errorf "unknown source: %s" [source])) ∧
    (∀ (before after : List Resolver) (res : Resolver),
      regs = before ++ res :: after → res.Name = source →
      (∀ x ∈ after, x.Name ≠ source) →
      ((Registry.mk []).RegisterAll regs).Get source = some res ∧
      ((Registry.mk []).RegisterAll regs).Resolve source cfg = res.Resolve cfg) ∧
    (∀ (S : GoSort.Slice) (hangar : HangarResolver) (modrinth : ModrinthResolver)
      (papermc : PaperMCResolver) (s3 : S3Resolver) (url : URLResolver),
      NewRegistry S hangar modrinth papermc s3 url
        = (Registry.mk []).RegisterAll [hangar.toResolver S, modrinth.toResolver S,
            papermc.toResolver S, s3.toResolver, url.toResolver]) := by
  have hnone : (∀ res ∈ regs, res.Name ≠ source) →
      ((Registry.mk []).RegisterAll regs).Get source = none := fun h => by
    rw [Get_RegisterAll_ne source regs _ h]; rfl
  have hlast : ∀ (before after : List Resolver) (res : Resolver),
      regs = before ++ res :: after → res.Name = source →
      (∀ x ∈ after, x.Name ≠ source) →
      ((Registry.mk []).RegisterAll regs).Get source = some res := by
    intro before after res hregs hname hafter
    subst hname
    rw [hregs]
    exact Get_RegisterAll_last _ before after res hafter
  refine ⟨⟨?_, hnone⟩, ?_, ?_, fun _ _ _ _ _ _ => rfl⟩
  · intro hget res hres hname
    -- the last adapter of that name would be found
    have hex : ∃ x ∈ regs.reverse, x.Name = source :=
      ⟨res, List.mem_reverse.mpr hres, hname⟩
    obtain ⟨l1, y, l2, hsplit, hy, hl1⟩ : ∃ l1 y l2, regs.reverse = l1 ++ y :: l2 ∧
        y.Name = source ∧ ∀ x ∈ l1, x.Name ≠ source := by
      generalize regs.reverse = l at hex
      induction l with
      | nil => obtain ⟨x, hx, _⟩ := hex; cases hx
      | cons a t ih =>
        by_cases ha : a.Name = source
        · exact ⟨[], a, t, rfl, ha, fun x hx => by cases hx⟩
        · obtain ⟨x, hx, hxn⟩ := hex
          rcases List.mem_cons.mp hx with hxa | hxt
          · exact absurd (hxa ▸ hxn) ha
          · obtain ⟨l1, y, l2, hs, hy, hl1⟩ := ih ⟨x, hxt, hxn⟩
            refine ⟨a :: l1, y, l2, by rw [hs]; rfl, hy, ?_⟩
            intro z hz
            rcases List.mem_cons.mp hz with hza | hzl
            · rw [hza]; exact ha
            · exact hl1 z hzl
    have hregs : regs = l2.reverse ++ y :: l1.reverse := by
      have := congrArg List.reverse hsplit
      simpa using this
    have := hlast l2.reverse l1.reverse y hregs hy
      (fun x hx => hl1 x (List.mem_reverse.mp hx))
    rw [hget] at this
    cases this
  · intro h
    unfold Registry.Resolve
    rw [hnone h]
  · intro before after res hregs hname hafter
    refine ⟨hlast before after res hregs hname hafter, ?_⟩
    unfold Registry.Resolve
    rw [hlast before after res hregs hname hafter]

theorem Registry_dispatch_witness :
    ((Registry.mk []).RegisterAll sampleAdapters).Resolve "maven" sampleS3Request
      = .error (.errorf "unknown source: %s" ["maven"]) ∧
    ((Registry.mk []).RegisterAll sampleAdapters).Resolve "s3" sampleS3Request
      = (S3Resolver.toResolver { now := 3 }).Resolve sampleS3Request :=
  ⟨(Registry_dispatch sampleAdapters "maven" sampleS3Request).2.1 (by decide),
   ((Registry_dispatch sampleAdapters "s3" sampleS3Request).2.2.1
      [S3Resolver.toResolver { now := 1 }, URLResolver.toResolver { now := 2 }] []
      (S3Resolver.toResolver { now := 3 }) rfl rfl (by decide)).2⟩

end resolver

/-! ## The Hangar adapter: the platform filter -/

namespace resolver

/-- C12: the Hangar adapter selects among the versions that have a download for the
platform (that of the request, `VELOCITY` when unset) only.  When `Resolve`
succeeds, the registry answered, and among the returned versions there is one with
the name of the result's version that has a download entry for the platform; the
URL and the SHA256 of the result are those of that entry, and the name is what
`SelectBestVersion` chose from the names of the versions with such a download,
whatever the other versions are called.  When the registry answers and no returned
version has a download for the platform, `Resolve` fails with `no versions found`. -/
theorem hangar_platform_filter (S : GoSort.Slice) (h : HangarResolver) (cfg : PluginConfig) :
    (∀ r, h.Resolve S cfg = .ok r →
      ∃ resp v d, h.client cfg.Project = .ok resp ∧ v ∈ resp.Result ∧
        v.Name = r.Version ∧
        v.Downloads.lookup (if cfg.Platform = "" then "VELOCITY" else cfg.Platform) = some d ∧
        r.URL = d.DownloadURL ∧ r.SHA256 = d.FileInfo.SHA256Hash ∧
        r.Platform = (if cfg.Platform = "" then "VELOCITY" else cfg.Platform) ∧
        SelectBestVersion S
          ((resp.Result.filter (fun v =>
              (v.Downloads.lookup
                (if cfg.Platform = "" then "VELOCITY" else cfg.Platform)).isSome)).map
            (fun v => v.Name)) cfg.Version = .ok r.Version) ∧
    (∀ resp, h.client cfg.Project = .ok resp →
      (∀ v ∈ resp.Result,
        v.Downloads.lookup (if cfg.Platform = "" then "VELOCITY" else cfg.Platform) = none) →
      h.Resolve S cfg = .error (.errorf "no versions found for %s on %s"
        [cfg.Project, if cfg.Platform = "" then "VELOCITY" else cfg.Platform])) := by
  constructor
  · intro r hr
    obtain ⟨platform, resp, selected, hp, hresp, hfind, hsel, _, rfl⟩ :=
      HangarResolver.hangar_Resolve_ok S h cfg r hr
    subst hp
    have hmem := List.mem_filter.mp (List.mem_of_find?_eq_some hfind)
    obtain ⟨d, hd⟩ := Option.isSome_iff_exists.mp hmem.2
    refine ⟨resp, selected, d, hresp, hmem.1, rfl, hd, ?_, ?_, rfl, hsel⟩
    · simp only [hd, Option.getD_some]
    · simp only [hd, Option.getD_some]
  · intro resp hresp hnone
    unfold HangarResolver.Resolve HangarResolver.fetchVersions
    simp only [hresp]
    have hnil : resp.Result.filter (fun v =>
        (v.Downloads.lookup
          (if cfg.Platform = "" then "VELOCITY" else cfg.Platform)).isSome) = [] := by
      rw [List.filter_eq_nil_iff]
      intro v hv
      rw [hnone v hv]
      simp
    rw [hnil]
    rfl

theorem hangar_platform_filter_witness :
    (∃ resp v d, sampleHangar.client sampleRequest.Project = .ok resp ∧ v ∈ resp.Result ∧
      v.Name = sampleHangarResult.Version ∧
      v.Downloads.lookup
        (if sampleRequest.Platform = "" then "VELOCITY" else sampleRequest.Platform) = some d ∧
      sampleHangarResult.URL = d.DownloadURL ∧
      sampleHangarResult.SHA256 = d.FileInfo.SHA256Hash ∧
      sampleHangarResult.Platform =
        (if sampleRequest.Platform = "" then "VELOCITY" else sampleRequest.Platform) ∧
      SelectBestVersion GoSort.insertion
        ((resp.Result.filter (fun v =>
            (v.Downloads.lookup
              (if sampleRequest.Platform = "" then "VELOCITY"
               else sampleRequest.Platform)).isSome)).map
          (fun v => v.Name)) sampleRequest.Version = .ok sampleHangarResult.Version) ∧
    hangarPaperOnly.Resolve GoSort.insertion sampleRequest =
      .error (.errorf "no versions found for %s on %s"
        [sampleRequest.Project,
         if sampleRequest.Platform = "" then "VELOCITY" else sampleRequest.Platform]) :=
  ⟨(hangar_platform_filter GoSort.insertion sampleHangar sampleRequest).1 sampleHangarResult
      sampleHangar_resolves,
   (hangar_platform_filter GoSort.insertion hangarPaperOnly sampleRequest).2
      { Result := [{ Name := "3.4.9",
                     Downloads := [("PAPER", { DownloadURL := "https://h.example/349.jar" })] }] }
      rfl (by decide)⟩

end resolver

/-! ## The Modrinth adapter: the choice of the file -/

namespace resolver

end resolver

/-! ## The PaperMC adapter: the order of the versions -/

namespace resolver

theorem head?_reverse_of_getLast? {α : Type} (l : List α) (x : α)
    (h : l.getLast? = some x) : ∃ rest, l.reverse = x :: rest := by
  rw [← List.head?_reverse] at h
  cases hr : l.reverse with
  | nil => rw [hr] at h; cases h
  | cons a t =>
    rw [hr] at h
    simp only [List.head?_cons, Option.some.injEq] at h
    exact ⟨t, by rw [h]⟩

/-- C14: the PaperMC adapter hands to `SelectBestVersion` the list of the registry
reversed.  When the registry answers the project with a non-empty list whose last
element is `last`, and the request has no constraint (`""` or `latest`):
`fetchVersions` gives the reverse of the list, `SelectBestVersion` on it selects
`last`, every successful `Resolve` has the version `last`, and `Resolve` does
succeed, with the version `last`, as soon as `last` is not empty and the registry
answers the builds of `last` with a non-empty list. -/
theorem papermc_selects_last (S : GoSort.Slice) (p : PaperMCResolver) (cfg : PluginConfig)
    (versions : List String) (last : String)
    (hresp : p.projects (if cfg.Project = "" then "velocity" else cfg.Project) = .ok versions)
    (hlast : versions.getLast? = some last)
    (hno : cfg.Version = "" ∨ cfg.Version = "latest") :
    p.fetchVersions (if cfg.Project = "" then "velocity" else cfg.Project)
      = .ok versions.reverse ∧
    SelectBestVersion S versions.reverse cfg.Version = .ok last ∧
    (∀ r, p.Resolve S cfg = .ok r → r.Version = last) ∧
    (last ≠ "" → ∀ builds latest,
      p.builds (if cfg.Project = "" then "velocity" else cfg.Project) last = .ok builds →
      builds.getLast? = some latest →
      ∃ r, p.Resolve S cfg = .ok r ∧ r.Version = last ∧ r.Build = latest.Build) := by
  obtain ⟨rest, hrev⟩ := head?_reverse_of_getLast? versions last hlast
  have hfetch : p.fetchVersions (if cfg.Project = "" then "velocity" else cfg.Project)
      = .ok versions.reverse := by
    unfold PaperMCResolver.fetchVersions
    rw [hresp]
  have hsel : SelectBestVersion S versions.reverse cfg.Version = .ok last := by
    rw [hrev]
    simp only [SelectBestVersion]
    rw [if_pos hno]
  refine ⟨hfetch, hsel, ?_, ?_⟩
  · intro r hr
    obtain ⟨project, versions2, sel, build, downloadName, hp, hresp2, hsel2, _, _, rfl⟩ :=
      PaperMCResolver.papermc_Resolve_ok S p cfg r hr
    subst hp
    rw [hresp] at hresp2
    injection hresp2 with hresp2
    subst hresp2
    rw [hsel] at hsel2
    injection hsel2 with hsel2
    exact hsel2.symm
  · intro hne builds latest hb hbl
    have hlb : p.fetchLatestBuild (if cfg.Project = "" then "velocity" else cfg.Project) last
        = .ok (latest.Build, latest.Name) := by
      unfold PaperMCResolver.fetchLatestBuild
      rw [hb]
      simp only [hbl]
    unfold PaperMCResolver.Resolve
    simp only [hfetch, hsel, hlb]
    rw [if_neg (by rw [hrev]; simp), if_neg hne]
    exact ⟨_, rfl, rfl, rfl⟩

set_option maxRecDepth 100000 in
theorem papermc_selects_last_witness :
    samplePaperMC.projects (if latestRequest.Project = "" then "velocity"
        else latestRequest.Project) = .ok ["3.3.0", "3.4.0", "3.5.0"] ∧
    samplePaperMC.Resolve GoSort.insertion latestRequest = .ok samplePaperMCLatest ∧
    samplePaperMCLatest.Version = "3.5.0" :=
  ⟨rfl, by decide,
   (papermc_selects_last GoSort.insertion samplePaperMC latestRequest
      ["3.3.0", "3.4.0", "3.5.0"] "3.5.0" rfl rfl (Or.inr rfl)).2.2.1 samplePaperMCLatest
      (by decide)⟩

end resolver

/-! ## No missing entry after the selection -/

namespace resolver

/-- The string that `SelectBestVersion` returns is empty or one of its input. -/
theorem SelectBestVersion_empty_or_mem (S : GoSort.Slice) (versions : List String)
    (constraint sel : String) (h : SelectBestVersion S versions constraint = .ok sel) :
    sel = "" ∨ sel ∈ versions := by
  by_cases hsel : sel = ""
  · exact Or.inl hsel
  · exact Or.inr (SelectBestVersion_mem S h hsel).1

/-- A string among the keys of a list of entries is found by the search loop. -/
theorem find?_key_isSome {α : Type} (key : α → String) (sel : String) :
    ∀ l : List α, sel ∈ l.map key → (l.find? (fun v => key v = sel)).isSome = true
  | [] => by intro h; cases h
  | a :: rest => by
    intro h
    by_cases ha : key a = sel
    · rw [List.find?_cons_of_pos _ (by simpa using ha)]; rfl
    · rw [List.find?_cons_of_neg _ (by simpa using ha)]
      apply find?_key_isSome key sel rest
      rcases List.mem_cons.mp h with h | h
      · exact absurd h.symm ha
      · exact h

/-- C16: the Hangar and the Modrinth adapter never dereference a missing entry.
`SelectBestVersion` returns the empty string or one of the strings it was given;
so when it returns a non-empty string for the names of the candidate entries, the
search for that string among the entries (by `Name`, by `VersionNumber`) finds an
entry, and `Resolve` of either adapter, on every request and every answer of the
registry, returns a result or an error and does not panic. -/
theorem selected_entry_found (S : GoSort.Slice) :
    (∀ (versions : List String) (constraint sel : String),
      SelectBestVersion S versions constraint = .ok sel → sel = "" ∨ sel ∈ versions) ∧
    (∀ (available : List hangarVersion) (constraint sel : String),
      SelectBestVersion S (available.map (fun v => v.Name)) constraint = .ok sel → sel ≠ "" →
      (available.find? (fun v => v.Name = sel)).isSome = true) ∧
    (∀ (versions : List modrinthVersion) (constraint sel : String),
      SelectBestVersion S (versions.map (fun v => v.VersionNumber)) constraint = .ok sel →
      sel ≠ "" → (versions.find? (fun v => v.VersionNumber = sel)).isSome = true) ∧
    (∀ (h : HangarResolver) (cfg : PluginConfig), h.Resolve S cfg ≠ .panic) ∧
    (∀ (m : ModrinthResolver) (cfg : PluginConfig), m.Resolve S cfg ≠ .panic) := by
  have hh : ∀ (available : List hangarVersion) (constraint sel : String),
      SelectBestVersion S (available.map (fun v => v.Name)) constraint = .ok sel → sel ≠ "" →
      (available.find? (fun v => v.Name = sel)).isSome = true :=
    fun available constraint sel h hne =>
      find?_key_isSome (fun v => v.Name) sel available (SelectBestVersion_mem S h hne).1
  have hm : ∀ (versions : List modrinthVersion) (constraint sel : String),
      SelectBestVersion S (versions.map (fun v => v.VersionNumber)) constraint = .ok sel →
      sel ≠ "" → (versions.find? (fun v => v.VersionNumber = sel)).isSome = true :=
    fun versions constraint sel h hne =>
      find?_key_isSome (fun v => v.VersionNumber) sel versions (SelectBestVersion_mem S h hne).1
  refine ⟨SelectBestVersion_empty_or_mem S, hh, hm, ?_, ?_⟩
  · intro h cfg hp
    unfold HangarResolver.Resolve at hp
    simp only [] at hp
    generalize (if cfg.Platform = "" then "VELOCITY" else cfg.Platform) = platform at hp
    cases hresp : h.fetchVersions cfg.Project with
    | error e => rw [hresp] at hp; cases hp
    | ok versions =>
      rw [hresp] at hp
      simp only [] at hp
      by_cases hlen : (versions.filter (fun v => (v.Downloads.lookup platform).isSome)).length = 0
      · rw [if_pos hlen] at hp; cases hp
      · rw [if_neg hlen] at hp
        cases hsel : SelectBestVersion S
            ((versions.filter (fun v => (v.Downloads.lookup platform).isSome)).map
              (fun v => v.Name)) cfg.Version with
        | error e => rw [hsel] at hp; cases hp
        | ok sel =>
          rw [hsel] at hp
          simp only [] at hp
          by_cases hne : sel = ""
          · rw [if_pos hne] at hp; cases hp
          · rw [if_neg hne] at hp
            have hfound := hh _ _ _ hsel hne
            cases hfind : (versions.filter (fun v => (v.Downloads.lookup platform).isSome)).find?
                (fun v => v.Name = sel) with
            | none => rw [hfind] at hfound; cases hfound
            | some selected => rw [hfind] at hp; cases hp
  · intro m cfg hp
    unfold ModrinthResolver.Resolve at hp
    simp only [] at hp
    generalize (if cfg.Loader = "" then "velocity" else cfg.Loader) = loader at hp
    cases hresp : m.fetchVersions cfg.Project loader cfg.GameVersions with
    | error e => rw [hresp] at hp; cases hp
    | ok versions =>
      rw [hresp] at hp
      simp only [] at hp
      by_cases hlen : versions.length = 0
      · rw [if_pos hlen] at hp; cases hp
      · rw [if_neg hlen] at hp
        cases hsel : SelectBestVersion S (versions.map (fun v => v.VersionNumber))
            cfg.Version with
        | error e => rw [hsel] at hp; cases hp
        | ok sel =>
          rw [hsel] at hp
          simp only [] at hp
          by_cases hne : sel = ""
          · rw [if_pos hne] at hp; cases hp
          · rw [if_neg hne] at hp
            have hfound := hm _ _ _ hsel hne
            cases hfind : versions.find? (fun v => v.VersionNumber = sel) with
            | none => rw [hfind] at hfound; cases hfound
            | some selected => rw [hfind] at hp; cases hp

set_option maxRecDepth 100000 in
theorem selected_entry_found_witness :
    SelectBestVersion GoSort.insertion ["3.5.0", "3.4.5"] "~3.4" = .ok "3.4.5" ∧
    ("3.4.5" = "" ∨ "3.4.5" ∈ ["3.5.0", "3.4.5"]) :=
  ⟨by decide,
   (selected_entry_found GoSort.insertion).1 ["3.5.0", "3.4.5"] "~3.4" "3.4.5" (by decide)⟩

end resolver

/-! ## The pattern of `NewVersion` on every text -/

namespace GoRegexp
open GoStrconv

theorem take_sub_dropWhile (p : Char → Bool) (s : List Char) :
    s.take (s.length - (s.dropWhile p).length) = s.takeWhile p := by
  have h := take_append_sub (s.takeWhile p) (s.dropWhile p)
  rwa [List.takeWhile_append_dropWhile] at h

/-- A group of one or more characters of a class, before a continuation that
rejects the texts that go on with the class: the group takes the whole run. -/
theorem grp_plus_cls_run {R : Type} {p : Char → Bool} {k : List Char → Caps → Option R}
    (g : Nat) (hk : ∀ a t c1, p a = true → k (a :: t) c1 = none) (s : List Char) (c : Caps) :
    (Re.grp g (Re.plus (.cls p))).run s c k =
      if s.takeWhile p = [] then none
      else k (s.dropWhile p) ((g, s.takeWhile p) :: c) := by
  have h := @plus_cls_of_reject R p
    (fun s1 c1 => k s1 ((g, s.take (s.length - s1.length)) :: c1)) c
    (fun a t ha => hk a t _ ha) s
  rw [run_grp, h]
  split
  · rfl
  · rw [take_sub_dropWhile]

/-- A run of the class followed by a text that stops it. -/
theorem takeWhile_append_stops {p : Char → Bool} {d rest : List Char}
    (hd : ∀ x ∈ d, p x = true) (hrest : stopsAt p rest) :
    (d ++ rest).takeWhile p = d ∧ (d ++ rest).dropWhile p = rest := by
  induction d with
  | nil =>
    cases rest with
    | nil => exact ⟨rfl, rfl⟩
    | cons a t =>
      have ha := hrest a t rfl
      exact ⟨by rw [List.nil_append, List.takeWhile_cons_of_neg (by simp [ha])],
        by rw [List.nil_append, List.dropWhile_cons_of_neg (by simp [ha])]⟩
  | cons a t ih =>
    have ha : p a = true := hd a (List.mem_cons_self _ _)
    have ht := ih (fun x hx => hd x (List.mem_cons_of_mem _ hx))
    exact ⟨by rw [List.cons_append, List.takeWhile_cons_of_pos ha, ht.1],
      by rw [List.cons_append, List.dropWhile_cons_of_pos ha, ht.2]⟩

/-- A text that the continuation accepts does not go on with the class, when the
continuation rejects the texts that do. -/
theorem stops_of_accept {R : Type} {p : Char → Bool} {k : List Char → Caps → Option R}
    (hk : ∀ a t c1, p a = true → k (a :: t) c1 = none) {rest : List Char} {c : Caps} {x : R}
    (h : k rest c = some x) : stopsAt p rest := by
  intro a t e
  cases hp : p a with
  | false => rfl
  | true =>
    rw [e, hk a t c hp] at h
    cases h

/-- The same as an equivalence: the group matches just when the text is a non-empty
run of the class followed by a rest that the continuation accepts. -/
theorem grp_plus_cls_iff {R : Type} {p : Char → Bool} {k : List Char → Caps → Option R}
    (g : Nat) (hk : ∀ a t c1, p a = true → k (a :: t) c1 = none) (s : List Char) (c : Caps)
    (x : R) :
    (Re.grp g (Re.plus (.cls p))).run s c k = some x ↔
      ∃ n rest, n ≠ [] ∧ (∀ d ∈ n, p d = true) ∧ s = n ++ rest ∧
        k rest ((g, n) :: c) = some x := by
  rw [grp_plus_cls_run g hk]
  constructor
  · intro h
    split at h
    · cases h
    · rename_i hne
      exact ⟨s.takeWhile p, s.dropWhile p, hne, fun d hd => List.mem_takeWhile_imp hd,
        (List.takeWhile_append_dropWhile p s).symm, h⟩
  · rintro ⟨n, rest, hne, hn, rfl, h⟩
    obtain ⟨h1, h2⟩ := takeWhile_append_stops hn (stops_of_accept hk h)
    rw [h1, h2, if_neg hne]
    exact h

end GoRegexp

namespace GoRegexp

/-- A group of a literal character and one or more characters of a class, before a
continuation that rejects the texts that go on with the class. -/
theorem grp_chr_plus_iff {R : Type} {p : Char → Bool} {k : List Char → Caps → Option R}
    (g : Nat) (a0 : Char) (hk : ∀ a t c1, p a = true → k (a :: t) c1 = none) (s : List Char)
    (c : Caps) (x : R) :
    (Re.grp g (.seq (Re.chr a0) (Re.plus (.cls p)))).run s c k = some x ↔
      ∃ n rest, n ≠ [] ∧ (∀ d ∈ n, p d = true) ∧ s = a0 :: (n ++ rest) ∧
        k rest ((g, a0 :: n) :: c) = some x := by
  cases s with
  | nil =>
    rw [run_grp, run_seq, chr_nil]
    constructor
    · intro h; cases h
    · rintro ⟨n, rest, _, _, h, _⟩; cases h
  | cons b t =>
    rw [run_grp, run_seq, chr_cons]
    by_cases hb : b = a0
    · subst hb
      rw [if_pos rfl]
      have h := @plus_cls_of_reject R p
        (fun s1 c1 => k s1 ((g, (b :: t).take ((b :: t).length - s1.length)) :: c1)) c
        (fun a u ha => hk a u _ ha) t
      rw [h]
      have htake : (b :: t).take ((b :: t).length - (t.dropWhile p).length)
          = b :: t.takeWhile p := by
        have := take_cons_append_sub b (t.takeWhile p) (t.dropWhile p)
        rwa [List.takeWhile_append_dropWhile] at this
      constructor
      · intro hx
        split at hx
        · cases hx
        · rename_i hne
          rw [htake] at hx
          exact ⟨t.takeWhile p, t.dropWhile p, hne, fun d hd => List.mem_takeWhile_imp hd,
            by rw [List.takeWhile_append_dropWhile], hx⟩
      · rintro ⟨n, rest, hne, hn, hs, hx⟩
        injection hs with _ hs
        subst hs
        obtain ⟨h1, h2⟩ := takeWhile_append_stops hn (stops_of_accept hk hx)
        rw [if_neg (by rw [h1]; exact hne), htake, h1, h2]
        exact hx
    · rw [if_neg hb]
      constructor
      · intro h; cases h
      · rintro ⟨n, rest, _, _, h, _⟩
        injection h with h _
        exact absurd h hb

/-- An optional pattern: the pattern matches, or it does not and the continuation
goes on at the same place. -/
theorem run_opt_iff {R : Type} (r : Re) (s : List Char) (c : Caps)
    (k : List Char → Caps → Option R) (x : R) :
    (Re.opt r).run s c k = some x ↔
      r.run s c k = some x ∨ (r.run s c k = none ∧ k s c = some x) := by
  rw [run_opt]
  cases h : r.run s c k with
  | some y => simp
  | none => simp

/-- A group that begins with a literal character matches no text that begins
otherwise. -/
theorem grp_chr_none {R : Type} (g : Nat) (a0 : Char) (r : Re) (s : List Char) (c : Caps)
    (k : List Char → Caps → Option R) (hs : ∀ t, s ≠ a0 :: t) :
    (Re.grp g (.seq (Re.chr a0) r)).run s c k = none := by
  cases s with
  | nil => rw [run_grp, run_seq, chr_nil]
  | cons b t =>
    rw [run_grp, run_seq, chr_cons, if_neg]
    intro e
    exact hs t (by rw [e])

/-- An optional group that begins with a literal character, before a continuation
that rejects the texts that begin with that character. -/
theorem opt_grp_chr_iff {R : Type} (g : Nat) (a0 : Char) (r : Re) (s : List Char) (c : Caps)
    (k : List Char → Caps → Option R) (hk : ∀ t c1, k (a0 :: t) c1 = none) (x : R) :
    (Re.opt (.grp g (.seq (Re.chr a0) r))).run s c k = some x ↔
      (Re.grp g (.seq (Re.chr a0) r)).run s c k = some x ∨ k s c = some x := by
  rw [run_opt_iff]
  constructor
  · rintro (h | ⟨_, h⟩)
    · exact Or.inl h
    · exact Or.inr h
  · rintro (h | h)
    · exact Or.inl h
    · refine Or.inr ⟨grp_chr_none g a0 r s c k ?_, h⟩
      intro t e
      rw [e, hk] at h
      cases h

end GoRegexp

namespace semver
open GoRegexp GoStrconv GoStrings

theorem isAllowed_dot : isAllowed '.' = false := by decide

theorem isAllowed_plus : isAllowed '+' = false := by decide

theorem dots_cons (p : List Char) (ps : List (List Char)) :
    dots (p :: ps) = p ++ dotsTail ps := by
  induction ps generalizing p with
  | nil => simp [dots, dotsTail, List.intercalate]
  | cons q qs ih =>
    have h := ih q
    unfold dots at h ⊢
    rw [intercalate_cons_of_ne_nil _ _ (List.cons_ne_nil q qs), h, dotsTail]
    simp

theorem stopsAt_dotsTail (ps : List (List Char)) {z : List Char} (hz : stopsAt isAllowed z) :
    stopsAt isAllowed (dotsTail ps ++ z) := by
  cases ps with
  | nil => exact hz
  | cons p ps => exact stopsAt_cons _ isAllowed_dot

/-- The inner group of `identsRe` matches no text that does not go on with a dot
and a character of the class. -/
theorem dotGroup_none {R : Type} (g : Nat) (z : List Char) (c : Caps)
    (k : List Char → Caps → Option R)
    (hz : ∀ a t, z = '.' :: a :: t → isAllowed a = false) :
    (Re.grp g (.seq (Re.chr '.') (Re.plus (.cls isAllowed)))).run z c k = none := by
  cases z with
  | nil => rw [run_grp, run_seq, chr_nil]
  | cons b t =>
    rw [run_grp, run_seq, chr_cons]
    by_cases hb : b = '.'
    · subst hb
      rw [if_pos rfl]
      cases t with
      | nil => rw [plus_cls_nil]
      | cons a u => rw [plus_cls_cons, if_neg (by rw [hz a u rfl]; simp)]
    · rw [if_neg hb]

/-- The rounds of the star of `identsRe` reject a text that goes on with a character
of the class, when the continuation does. -/
theorem starLoop_dotGroup_allowed {R : Type} (g : Nat) {k : List Char → Caps → Option R}
    (hal : ∀ a t c1, isAllowed a = true → k (a :: t) c1 = none) (n : Nat) (a : Char)
    (t : List Char) (c : Caps) (ha : isAllowed a = true) :
    starLoop (Re.run (.grp g (.seq (Re.chr '.') (Re.plus (.cls isAllowed))))) n (a :: t) c k
      = none := by
  cases n with
  | zero => rw [starLoop_zero, hal a t c ha]
  | succ n =>
    rw [starLoop_succ, dotGroup_none g (a :: t) c _ (fun b u e => by
      injection e with e1 _
      rw [e1, isAllowed_dot] at ha
      cases ha)]
    exact hal a t c ha

/-- The star of `identsRe` on parts, each after a dot, followed by a text that stops
them: every part is taken, the last one is captured last. -/
theorem starDots_run {R : Type} (g : Nat) {k : List Char → Caps → Option R}
    (hdot : ∀ t c1, k ('.' :: t) c1 = none)
    (hal : ∀ a t c1, isAllowed a = true → k (a :: t) c1 = none) :
    ∀ (ps : List (List Char)), (∀ p ∈ ps, IsIdent p) → ∀ (z : List Char),
      stopsAt isAllowed z → (∀ a t, z = '.' :: a :: t → isAllowed a = false) →
      ∀ (n : Nat) (c : Caps), (dotsTail ps ++ z).length ≤ n →
      starLoop (Re.run (.grp g (.seq (Re.chr '.') (Re.plus (.cls isAllowed))))) n
        (dotsTail ps ++ z) c k = k z (innerCaps g ps ++ c) := by
  intro ps
  induction ps with
  | nil =>
    intro _ z _ hz2 n c _
    rw [dotsTail, List.nil_append]
    cases n with
    | zero => rw [starLoop_zero]; rfl
    | succ n =>
      rw [starLoop_succ, dotGroup_none g z c _ hz2]
      rfl
  | cons p ps ih =>
    intro hps z hz1 hz2 n c hn
    have hp := hps p (List.mem_cons_self _ _)
    have hps2 : ∀ q ∈ ps, IsIdent q := fun q hq => hps q (List.mem_cons_of_mem _ hq)
    cases n with
    | zero => simp [dotsTail] at hn
    | succ n =>
      have hlen : (dotsTail ps ++ z).length ≤ n := by
        simp only [dotsTail, List.cons_append, List.length_cons, List.length_append] at hn ⊢
        omega
      have hstop := stopsAt_dotsTail ps hz1
      obtain ⟨h1, h2⟩ := takeWhile_append_stops hp.2 hstop
      have hinner : (Re.grp g (.seq (Re.chr '.') (Re.plus (.cls isAllowed)))).run
          (dotsTail (p :: ps) ++ z) c
          (fun s1 c1 =>
            if s1.length < (dotsTail (p :: ps) ++ z).length then
              starLoop (Re.run (.grp g (.seq (Re.chr '.') (Re.plus (.cls isAllowed))))) n s1 c1 k
            else none)
          = k z (innerCaps g (p :: ps) ++ c) := by
        rw [run_grp, run_seq]
        have e0 : dotsTail (p :: ps) ++ z = '.' :: (p ++ (dotsTail ps ++ z)) := by
          simp [dotsTail]
        rw [e0, chr_cons, if_pos rfl]
        have hrej : ∀ a t, isAllowed a = true →
            (fun s1 c1 =>
              (fun s1 c1 =>
                if s1.length < ('.' :: (p ++ (dotsTail ps ++ z))).length then
                  starLoop (Re.run (.grp g (.seq (Re.chr '.') (Re.plus (.cls isAllowed)))))
                    n s1 c1 k
                else none) s1
                ((g, ('.' :: (p ++ (dotsTail ps ++ z))).take
                  (('.' :: (p ++ (dotsTail ps ++ z))).length - s1.length)) :: c1))
              (a :: t) c = none := by
          intro a t ha
          beta_reduce
          split
          · exact starLoop_dotGroup_allowed g hal n a t _ ha
          · rfl
        rw [plus_cls_of_reject hrej, h1, h2, if_neg hp.1]
        rw [if_pos (by simp only [List.length_cons, List.length_append]; omega),
          ih hps2 z hz1 hz2 n _ hlen]
        have e1 : ('.' :: (p ++ (dotsTail ps ++ z))).take
            (('.' :: (p ++ (dotsTail ps ++ z))).length - (dotsTail ps ++ z).length)
            = '.' :: p := take_cons_append_sub '.' p (dotsTail ps ++ z)
        rw [e1]
        congr 1
        simp [innerCaps]
      rw [starLoop_succ, hinner]
      cases hk : k z (innerCaps g (p :: ps) ++ c) with
      | some y => rfl
      | none =>
        simp only [dotsTail, List.cons_append]
        exact hdot _ _

end semver

namespace semver
open GoRegexp GoStrconv GoStrings

/-- The pattern `identsRe` on parts joined by dots and followed by a text that stops
them: the outer group takes all the parts. -/
theorem identsRe_run {R : Type} (g : Nat) {k : List Char → Caps → Option R}
    (hdot : ∀ t c1, k ('.' :: t) c1 = none)
    (hal : ∀ a t c1, isAllowed a = true → k (a :: t) c1 = none)
    (p0 : List Char) (ps : List (List Char)) (hp0 : IsIdent p0) (hps : ∀ p ∈ ps, IsIdent p)
    (z : List Char) (hz1 : stopsAt isAllowed z)
    (hz2 : ∀ a t, z = '.' :: a :: t → isAllowed a = false) (c : Caps) :
    (identsRe g).run (dots (p0 :: ps) ++ z) c k
      = k z ((g, dots (p0 :: ps)) :: (innerCaps (g + 1) ps ++ c)) := by
  have hstop := stopsAt_dotsTail ps hz1
  have e0 : dots (p0 :: ps) ++ z = p0 ++ (dotsTail ps ++ z) := by
    rw [dots_cons, List.append_assoc]
  have h12 := takeWhile_append_stops hp0.2 hstop
  rw [← e0] at h12
  obtain ⟨h1, h2⟩ := h12
  have hdot2 : ∀ t c1,
      (fun s1 c1 => k s1 ((g, (dots (p0 :: ps) ++ z).take
        ((dots (p0 :: ps) ++ z).length - s1.length)) :: c1)) ('.' :: t) c1 = none :=
    fun t c1 => hdot t _
  have hal2 : ∀ a t c1, isAllowed a = true →
      (fun s1 c1 => k s1 ((g, (dots (p0 :: ps) ++ z).take
        ((dots (p0 :: ps) ++ z).length - s1.length)) :: c1)) (a :: t) c1 = none :=
    fun a t c1 ha => hal a t _ ha
  have hrej : ∀ a t, isAllowed a = true →
      (fun s1 c1 => (Re.star (.grp (g + 1) (.seq (Re.chr '.') (Re.plus (.cls isAllowed))))).run
        s1 c1 (fun s1 c1 => k s1 ((g, (dots (p0 :: ps) ++ z).take
          ((dots (p0 :: ps) ++ z).length - s1.length)) :: c1))) (a :: t) c = none := by
    intro a t ha
    show (Re.star (.grp (g + 1) (.seq (Re.chr '.') (Re.plus (.cls isAllowed))))).run
      (a :: t) c _ = none
    rw [run_star]
    exact starLoop_dotGroup_allowed (g + 1) hal2 _ a t c ha
  unfold identsRe
  rw [run_grp, run_seq, plus_cls_of_reject hrej]
  rw [h1, h2, if_neg hp0.1]
  rw [run_star, starDots_run (g + 1) hdot2 hal2 ps hps z hz1 hz2 _ c (Nat.le_refl _)]
  rw [take_append_sub]

/-- Every text is parts, each after a dot, followed by a text that does not go on
with a dot and a character of the class. -/
theorem exists_dotsTail : ∀ (n : Nat) (u : List Char), u.length ≤ n →
    ∃ ps z, (∀ p ∈ ps, IsIdent p) ∧ u = dotsTail ps ++ z ∧
      (∀ a t, z = '.' :: a :: t → isAllowed a = false) ∧
      (stopsAt isAllowed u → stopsAt isAllowed z)
  | 0, u, h => by
    have hu : u = [] := List.length_eq_zero.mp (Nat.le_zero.mp h)
    subst hu
    exact ⟨[], [], fun _ hp => absurd hp (List.not_mem_nil _), rfl,
      (fun a t e => by cases e), fun hs => hs⟩
  | n + 1, u, h => by
    by_cases hu : ∃ a t, u = '.' :: a :: t ∧ isAllowed a = true
    · obtain ⟨a, t, rfl, ha⟩ := hu
      have hlen : ((a :: t).dropWhile isAllowed).length ≤ n := by
        have h1 : ((a :: t).dropWhile isAllowed).length ≤ (a :: t).length :=
          (List.dropWhile_sublist isAllowed).length_le
        simp only [List.length_cons] at h h1 ⊢
        omega
      obtain ⟨ps, z, hps, hsplit, hz2, hz1⟩ :=
        exists_dotsTail n ((a :: t).dropWhile isAllowed) hlen
      have hp : IsIdent ((a :: t).takeWhile isAllowed) := by
        refine ⟨?_, fun x hx => List.mem_takeWhile_imp hx⟩
        rw [List.takeWhile_cons_of_pos ha]
        exact List.cons_ne_nil _ _
      refine ⟨(a :: t).takeWhile isAllowed :: ps, z, ?_, ?_, hz2, ?_⟩
      · intro q hq
        rcases List.mem_cons.mp hq with hq | hq
        · rw [hq]; exact hp
        · exact hps q hq
      · rw [dotsTail, List.cons_append, List.append_assoc, ← hsplit,
          List.takeWhile_append_dropWhile]
      · intro _
        exact hz1 (takeWhile_stops isAllowed (a :: t))
    · refine ⟨[], u, fun _ hp => absurd hp (List.not_mem_nil _), rfl, ?_, fun hs => hs⟩
      intro a t e
      cases hb : isAllowed a with
      | false => rfl
      | true => exact absurd ⟨a, t, e, hb⟩ hu

/-- The pattern `identsRe`, before a continuation that rejects the texts that begin
with a dot or with a character of the class: it matches just when the text is parts
joined by dots followed by a rest that the continuation accepts. -/
theorem identsRe_iff {R : Type} (g : Nat) {k : List Char → Caps → Option R}
    (hdot : ∀ t c1, k ('.' :: t) c1 = none)
    (hal : ∀ a t c1, isAllowed a = true → k (a :: t) c1 = none)
    (u : List Char) (c : Caps) (x : R) :
    (identsRe g).run u c k = some x ↔
      ∃ p0 ps z, IsIdent p0 ∧ (∀ p ∈ ps, IsIdent p) ∧ u = dots (p0 :: ps) ++ z ∧
        k z ((g, dots (p0 :: ps)) :: (innerCaps (g + 1) ps ++ c)) = some x := by
  constructor
  · intro h
    by_cases hne : u.takeWhile isAllowed = []
    · unfold identsRe at h
      rw [run_grp, run_seq, plus_cls_none u c _ hne] at h
      cases h
    · obtain ⟨ps, z, hps, hsplit, hz2, hz1⟩ :=
        exists_dotsTail _ (u.dropWhile isAllowed) (Nat.le_refl _)
      have hz1 := hz1 (takeWhile_stops isAllowed u)
      have hp0 : IsIdent (u.takeWhile isAllowed) :=
        ⟨hne, fun x hx => List.mem_takeWhile_imp hx⟩
      have hu : u = dots (u.takeWhile isAllowed :: ps) ++ z := by
        rw [dots_cons, List.append_assoc, ← hsplit, List.takeWhile_append_dropWhile]
      refine ⟨u.takeWhile isAllowed, ps, z, hp0, hps, hu, ?_⟩
      rw [← identsRe_run g hdot hal _ ps hp0 hps z hz1 hz2 c, ← hu]
      exact h
  · rintro ⟨p0, ps, z, hp0, hps, rfl, h⟩
    have hz1 : stopsAt isAllowed z := stops_of_accept hal h
    have hz2 : ∀ a t, z = '.' :: a :: t → isAllowed a = false := by
      intro a t e
      rw [e, hdot] at h
      cases h
    rw [identsRe_run g hdot hal p0 ps hp0 hps z hz1 hz2 c]
    exact h

end semver

namespace semver
open GoRegexp GoStrconv GoStrings

theorem matchAt_looseVersionRegex_eq (t : List Char) :
    matchAt looseVersionRegex t = (Re.opt (Re.chr 'v')).run t [] (majorK t) := rfl

theorem endK_cons (t : List Char) (a : Char) (s : List Char) (c : Caps) :
    endK t (a :: s) c = none := by
  unfold endK
  rw [run_eos_cons]

theorem endK_iff (t s : List Char) (c : Caps) (m : Match) :
    endK t s c = some m ↔ s = [] ∧ m = ⟨t, [], c⟩ := by
  cases s with
  | nil =>
    unfold endK finish
    rw [run_eos_nil]
    simp only [List.length_nil, Nat.sub_zero, List.take_length, Option.some.injEq, true_and]
    exact eq_comm
  | cons a u =>
    rw [endK_cons]
    constructor
    · intro h; cases h
    · rintro ⟨h, _⟩; cases h

/-- An optional part of `tailRe`, a character and parts joined by dots, before a
continuation that rejects the texts that begin with a dot or with a character of the
class. -/
theorem grp_chr_idents_iff {R : Type} (g : Nat) (a0 : Char)
    {k : List Char → Caps → Option R} (hdot : ∀ t c1, k ('.' :: t) c1 = none)
    (hal : ∀ a t c1, isAllowed a = true → k (a :: t) c1 = none)
    (s : List Char) (c : Caps) (x : R) :
    (Re.grp g (.seq (Re.chr a0) (identsRe (g + 1)))).run s c k = some x ↔
      ∃ p0 ps z, IsIdent p0 ∧ (∀ p ∈ ps, IsIdent p) ∧ s = a0 :: (dots (p0 :: ps) ++ z) ∧
        k z (optCaps g a0 (p0 :: ps) c) = some x := by
  cases s with
  | nil =>
    rw [run_grp, run_seq, chr_nil]
    constructor
    · intro h; cases h
    · rintro ⟨_, _, _, _, _, h, _⟩; cases h
  | cons b u =>
    rw [run_grp, run_seq, chr_cons]
    by_cases hb : b = a0
    · subst hb
      rw [if_pos rfl]
      have hdot2 : ∀ t c1, (fun s1 c1 =>
          k s1 ((g, (b :: u).take ((b :: u).length - s1.length)) :: c1)) ('.' :: t) c1 = none :=
        fun t c1 => hdot t _
      have hal2 : ∀ a t c1, isAllowed a = true → (fun s1 c1 =>
          k s1 ((g, (b :: u).take ((b :: u).length - s1.length)) :: c1)) (a :: t) c1 = none :=
        fun a t c1 ha => hal a t _ ha
      rw [identsRe_iff (g + 1) hdot2 hal2]
      constructor
      · rintro ⟨p0, ps, z, hp0, hps, rfl, h⟩
        refine ⟨p0, ps, z, hp0, hps, rfl, ?_⟩
        rw [take_cons_append_sub] at h
        exact h
      · rintro ⟨p0, ps, z, hp0, hps, hs, h⟩
        injection hs with _ hs
        subst hs
        refine ⟨p0, ps, z, hp0, hps, rfl, ?_⟩
        beta_reduce
        rw [take_cons_append_sub]
        exact h
    · rw [if_neg hb]
      constructor
      · intro h; cases h
      · rintro ⟨_, _, _, _, _, h, _⟩
        injection h with h _
        exact absurd h hb

theorem metaK_ne (t : List Char) {a : Char} (ha : a ≠ '+') (s : List Char) (c : Caps) :
    metaK t (a :: s) c = none := by
  unfold metaK
  rw [run_opt, grp_chr_none 7 '+' _ (a :: s) c _ (fun u e => by
    injection e with e _
    exact ha e)]
  exact endK_cons t a s c

theorem metaK_iff (t s : List Char) (c : Caps) (m : Match) :
    metaK t s c = some m ↔
      ∃ meta, (∀ p ∈ meta, IsIdent p) ∧ s = optText '+' meta ∧
        m = ⟨t, [], optCaps 7 '+' meta c⟩ := by
  unfold metaK
  rw [opt_grp_chr_iff 7 '+' _ s c _ (fun u c1 => endK_cons t _ u c1),
    grp_chr_idents_iff 7 '+' (fun u c1 => endK_cons t _ u c1)
      (fun a u c1 _ => endK_cons t a u c1)]
  constructor
  · rintro (⟨p0, ps, z, hp0, hps, hs, h⟩ | h)
    · obtain ⟨hz, hm⟩ := (endK_iff t z _ m).mp h
      subst hz
      refine ⟨p0 :: ps, ?_, ?_, hm⟩
      · intro q hq
        rcases List.mem_cons.mp hq with hq | hq
        · rw [hq]; exact hp0
        · exact hps q hq
      · rw [hs, List.append_nil, optText]
    · obtain ⟨hs, hm⟩ := (endK_iff t s c m).mp h
      exact ⟨[], fun _ hq => absurd hq (List.not_mem_nil _), hs, hm⟩
  · rintro ⟨meta, hmeta, hs, hm⟩
    cases meta with
    | nil =>
      right
      exact (endK_iff t s c m).mpr ⟨hs, hm⟩
    | cons p0 ps =>
      left
      refine ⟨p0, ps, [], hmeta p0 (List.mem_cons_self _ _),
        fun q hq => hmeta q (List.mem_cons_of_mem _ hq), ?_, ?_⟩
      · rw [hs, optText, List.append_nil]
      · exact (endK_iff t [] _ m).mpr ⟨rfl, hm⟩

end semver

namespace semver
open GoRegexp GoStrconv GoStrings

theorem ne_of_isAllowed {a b : Char} (ha : isAllowed a = true) (hb : isAllowed b = false) :
    a ≠ b := by
  intro e
  rw [e, hb] at ha
  cases ha

theorem ne_of_isDigit {a b : Char} (ha : isDigit a = true) (hb : isDigit b = false) :
    a ≠ b := by
  intro e
  rw [e, hb] at ha
  cases ha

theorem preK_ne (t : List Char) {a : Char} (h1 : a ≠ '-') (h2 : a ≠ '+') (s : List Char)
    (c : Caps) : preK t (a :: s) c = none := by
  unfold preK
  rw [run_opt, grp_chr_none 4 '-' _ (a :: s) c _ (fun u e => by
    injection e with e _
    exact h1 e)]
  exact metaK_ne t h2 s c

theorem preK_iff (t s : List Char) (c : Caps) (m : Match) :
    preK t s c = some m ↔
      ∃ pre meta, (∀ p ∈ pre, IsIdent p) ∧ (∀ p ∈ meta, IsIdent p) ∧
        s = optText '-' pre ++ optText '+' meta ∧
        m = ⟨t, [], optCaps 7 '+' meta (optCaps 4 '-' pre c)⟩ := by
  unfold preK
  rw [opt_grp_chr_iff 4 '-' _ s c _ (fun u c1 => metaK_ne t (by decide) u c1),
    grp_chr_idents_iff 4 '-' (fun u c1 => metaK_ne t (by decide) u c1)
      (fun a u c1 ha => metaK_ne t (ne_of_isAllowed ha isAllowed_plus) u c1)]
  constructor
  · rintro (⟨p0, ps, z, hp0, hps, hs, h⟩ | h)
    · obtain ⟨meta, hmeta, hz, hm⟩ := (metaK_iff t z _ m).mp h
      refine ⟨p0 :: ps, meta, ?_, hmeta, ?_, hm⟩
      · intro q hq
        rcases List.mem_cons.mp hq with hq | hq
        · rw [hq]; exact hp0
        · exact hps q hq
      · rw [hs, hz, optText, List.cons_append]
    · obtain ⟨meta, hmeta, hs, hm⟩ := (metaK_iff t s c m).mp h
      exact ⟨[], meta, fun _ hq => absurd hq (List.not_mem_nil _), hmeta, hs, hm⟩
  · rintro ⟨pre, meta, hpre, hmeta, hs, hm⟩
    cases pre with
    | nil =>
      right
      exact (metaK_iff t s c m).mpr ⟨meta, hmeta, hs, hm⟩
    | cons p0 ps =>
      left
      refine ⟨p0, ps, optText '+' meta, hpre p0 (List.mem_cons_self _ _),
        fun q hq => hpre q (List.mem_cons_of_mem _ hq), ?_, ?_⟩
      · rw [hs, optText, List.cons_append]
      · exact (metaK_iff t _ _ m).mpr ⟨meta, hmeta, rfl, hm⟩

/-- Whether the pattern matches from the prerelease on does not depend on the
captures made before. -/
theorem preK_some (t s : List Char) (c c1 : Caps) (m : Match) (h : preK t s c = some m) :
    ∃ m1, preK t s c1 = some m1 := by
  obtain ⟨pre, meta, hpre, hmeta, hs, _⟩ := (preK_iff t s c m).mp h
  exact ⟨_, (preK_iff t s c1 _).mpr ⟨pre, meta, hpre, hmeta, hs, rfl⟩⟩

theorem patchK_ne (t : List Char) {a : Char} (h0 : a ≠ '.') (h1 : a ≠ '-') (h2 : a ≠ '+')
    (s : List Char) (c : Caps) : patchK t (a :: s) c = none := by
  unfold patchK
  rw [run_opt, grp_chr_none 3 '.' _ (a :: s) c _ (fun u e => by
    injection e with e _
    exact h0 e)]
  exact preK_ne t h1 h2 s c

theorem minorK_ne (t : List Char) {a : Char} (h0 : a ≠ '.') (h1 : a ≠ '-') (h2 : a ≠ '+')
    (s : List Char) (c : Caps) : minorK t (a :: s) c = none := by
  unfold minorK
  rw [run_opt, grp_chr_none 2 '.' _ (a :: s) c _ (fun u e => by
    injection e with e _
    exact h0 e)]
  exact patchK_ne t h0 h1 h2 s c

theorem isDigit_ne_dot {a : Char} (h : isDigit a = true) : a ≠ '.' :=
  ne_of_isDigit h (by decide)

theorem isDigit_ne_minus {a : Char} (h : isDigit a = true) : a ≠ '-' :=
  ne_of_isDigit h (by decide)

theorem isDigit_ne_plus {a : Char} (h : isDigit a = true) : a ≠ '+' :=
  ne_of_isDigit h (by decide)

theorem patchK_iff (t s : List Char) (c : Caps) (m : Match) :
    patchK t s c = some m ↔
      ∃ ns pre meta, ns.length ≤ 1 ∧ (∀ n ∈ ns, IsNumeral n) ∧ (∀ p ∈ pre, IsIdent p) ∧
        (∀ p ∈ meta, IsIdent p) ∧
        s = dotsTail ns ++ (optText '-' pre ++ optText '+' meta) ∧
        m = ⟨t, [], optCaps 7 '+' meta (optCaps 4 '-' pre (numCaps 3 ns c))⟩ := by
  unfold patchK
  rw [digit_eq, opt_grp_chr_iff 3 '.' _ s c _ (fun u c1 => preK_ne t (by decide) (by decide) u c1),
    grp_chr_plus_iff 3 '.'
      (fun a u c1 ha => preK_ne t (isDigit_ne_minus ha) (isDigit_ne_plus ha) u c1)]
  constructor
  · rintro (⟨n, rest, hne, hn, hs, h⟩ | h)
    · obtain ⟨pre, meta, hpre, hmeta, hrest, hm⟩ := (preK_iff t rest _ m).mp h
      refine ⟨[n], pre, meta, Nat.le_refl _, ?_, hpre, hmeta, ?_, hm⟩
      · intro q hq
        rw [List.mem_singleton.mp hq]
        exact ⟨hne, hn⟩
      · rw [hs, hrest]
        simp [dotsTail]
    · obtain ⟨pre, meta, hpre, hmeta, hs, hm⟩ := (preK_iff t s c m).mp h
      exact ⟨[], pre, meta, Nat.zero_le _, fun _ hq => absurd hq (List.not_mem_nil _),
        hpre, hmeta, hs, hm⟩
  · rintro ⟨ns, pre, meta, hlen, hns, hpre, hmeta, hs, hm⟩
    cases ns with
    | nil =>
      right
      exact (preK_iff t s c m).mpr ⟨pre, meta, hpre, hmeta, hs, hm⟩
    | cons n ns =>
      have hnil : ns = [] := by
        cases ns with
        | nil => rfl
        | cons a b => simp at hlen
      subst hnil
      left
      have hn := hns n (List.mem_cons_self _ _)
      refine ⟨n, optText '-' pre ++ optText '+' meta, hn.1, hn.2, ?_, ?_⟩
      · rw [hs]
        simp [dotsTail]
      · exact (preK_iff t _ _ m).mpr ⟨pre, meta, hpre, hmeta, rfl, hm⟩

end semver

namespace semver
open GoRegexp GoStrconv GoStrings

/-- The text of the optional parts does not begin with a dot. -/
theorem optTexts_ne_dot (pre meta : List (List Char)) (u : List Char) :
    optText '-' pre ++ optText '+' meta ≠ '.' :: u := by
  cases pre with
  | nil =>
    cases meta with
    | nil => intro e; cases e
    | cons q qs =>
      intro e
      simp only [optText, List.nil_append] at e
      injection e with e _
      exact absurd e (by decide)
  | cons p ps =>
    intro e
    simp only [optText, List.cons_append] at e
    injection e with e _
    exact absurd e (by decide)

theorem minorK_iff (t s : List Char) (c : Caps) (m : Match) :
    minorK t s c = some m ↔
      ∃ ns pre meta, ns.length ≤ 2 ∧ (∀ n ∈ ns, IsNumeral n) ∧ (∀ p ∈ pre, IsIdent p) ∧
        (∀ p ∈ meta, IsIdent p) ∧
        s = dotsTail ns ++ (optText '-' pre ++ optText '+' meta) ∧
        m = ⟨t, [], optCaps 7 '+' meta (optCaps 4 '-' pre (numCaps 2 ns c))⟩ := by
  have hrej : ∀ a u c1, isDigit a = true → patchK t (a :: u) c1 = none :=
    fun a u c1 ha =>
      patchK_ne t (isDigit_ne_dot ha) (isDigit_ne_minus ha) (isDigit_ne_plus ha) u c1
  unfold minorK
  rw [digit_eq, run_opt_iff, grp_chr_plus_iff 2 '.' hrej]
  constructor
  · rintro (⟨n, rest, hne, hn, hs, h⟩ | ⟨hnone, h⟩)
    · obtain ⟨ns, pre, meta, hlen, hns, hpre, hmeta, hrest, hm⟩ :=
        (patchK_iff t rest _ m).mp h
      refine ⟨n :: ns, pre, meta, by simpa using hlen, ?_, hpre, hmeta, ?_, hm⟩
      · intro q hq
        rcases List.mem_cons.mp hq with hq | hq
        · rw [hq]; exact ⟨hne, hn⟩
        · exact hns q hq
      · rw [hs, hrest]
        simp [dotsTail]
    · obtain ⟨ns, pre, meta, hlen, hns, hpre, hmeta, hs, hm⟩ := (patchK_iff t s c m).mp h
      cases ns with
      | nil =>
        exact ⟨[], pre, meta, Nat.zero_le _, fun _ hq => absurd hq (List.not_mem_nil _),
          hpre, hmeta, hs, hm⟩
      | cons n ns =>
        -- the group of the minor number would have taken this number
        exfalso
        have hnil : ns = [] := by
          cases ns with
          | nil => rfl
          | cons a b => simp at hlen
        subst hnil
        have hn := hns n (List.mem_cons_self _ _)
        have hsome : (Re.grp 2 (.seq (Re.chr '.') (Re.plus (.cls isDigit)))).run s c (patchK t)
            = some ⟨t, [], optCaps 7 '+' meta (optCaps 4 '-' pre
                (numCaps 3 [] ((2, '.' :: n) :: c)))⟩ := by
          rw [grp_chr_plus_iff 2 '.' hrej]
          refine ⟨n, optText '-' pre ++ optText '+' meta, hn.1, hn.2, ?_, ?_⟩
          · rw [hs]
            simp [dotsTail]
          · exact (patchK_iff t _ _ _).mpr ⟨[], pre, meta, Nat.zero_le _,
              fun _ hq => absurd hq (List.not_mem_nil _), hpre, hmeta, rfl, rfl⟩
        rw [hsome] at hnone
        cases hnone
  · rintro ⟨ns, pre, meta, hlen, hns, hpre, hmeta, hs, hm⟩
    cases ns with
    | nil =>
      right
      refine ⟨?_, (patchK_iff t s c m).mpr ⟨[], pre, meta, Nat.zero_le _,
        fun _ hq => absurd hq (List.not_mem_nil _), hpre, hmeta, hs, hm⟩⟩
      apply grp_chr_none
      intro u e
      rw [hs] at e
      exact optTexts_ne_dot pre meta u e
    | cons n ns =>
      left
      have hn := hns n (List.mem_cons_self _ _)
      refine ⟨n, dotsTail ns ++ (optText '-' pre ++ optText '+' meta), hn.1, hn.2, ?_, ?_⟩
      · rw [hs]
        simp [dotsTail]
      · exact (patchK_iff t _ _ m).mpr ⟨ns, pre, meta, by simpa using hlen,
          fun q hq => hns q (List.mem_cons_of_mem _ hq), hpre, hmeta, rfl, hm⟩

theorem majorK_iff (t s : List Char) (c : Caps) (m : Match) :
    majorK t s c = some m ↔
      ∃ n0 ns pre meta, IsNumeral n0 ∧ ns.length ≤ 2 ∧ (∀ n ∈ ns, IsNumeral n) ∧
        (∀ p ∈ pre, IsIdent p) ∧ (∀ p ∈ meta, IsIdent p) ∧
        s = n0 ++ (dotsTail ns ++ (optText '-' pre ++ optText '+' meta)) ∧
        m = ⟨t, [], optCaps 7 '+' meta (optCaps 4 '-' pre (numCaps 2 ns ((1, n0) :: c)))⟩ := by
  unfold majorK
  rw [digit_eq, grp_plus_cls_iff 1 (fun a u c1 ha =>
    minorK_ne t (isDigit_ne_dot ha) (isDigit_ne_minus ha) (isDigit_ne_plus ha) u c1)]
  constructor
  · rintro ⟨n0, rest, hne, hn, hs, h⟩
    obtain ⟨ns, pre, meta, hlen, hns, hpre, hmeta, hrest, hm⟩ := (minorK_iff t rest _ m).mp h
    exact ⟨n0, ns, pre, meta, ⟨hne, hn⟩, hlen, hns, hpre, hmeta, by rw [hs, hrest], hm⟩
  · rintro ⟨n0, ns, pre, meta, hn0, hlen, hns, hpre, hmeta, hs, hm⟩
    exact ⟨n0, _, hn0.1, hn0.2, hs,
      (minorK_iff t _ _ m).mpr ⟨ns, pre, meta, hlen, hns, hpre, hmeta, rfl, hm⟩⟩

theorem majorK_v (t u : List Char) (c : Caps) : majorK t ('v' :: u) c = none := by
  unfold majorK
  rw [digit_eq, run_grp, plus_cls_cons, if_neg (by decide)]

/-- The pattern of `NewVersion` matches a text just when the text is an optional
`v`, one to three numerals separated by dots, an optional hyphen with parts joined
by dots and an optional plus sign with parts joined by dots; the groups hold these
pieces. -/
theorem matchAt_looseVersionRegex_iff (t : List Char) (m : Match) :
    matchAt looseVersionRegex t = some m ↔
      ∃ (v : Bool) (n0 : List Char) (ns pre meta : List (List Char)),
        IsNumeral n0 ∧ ns.length ≤ 2 ∧ (∀ n ∈ ns, IsNumeral n) ∧
        (∀ p ∈ pre, IsIdent p) ∧ (∀ p ∈ meta, IsIdent p) ∧
        t = (if v then ['v'] else []) ++
          (n0 ++ (dotsTail ns ++ (optText '-' pre ++ optText '+' meta))) ∧
        m = ⟨t, [], optCaps 7 '+' meta (optCaps 4 '-' pre (numCaps 2 ns [(1, n0)]))⟩ := by
  rw [matchAt_looseVersionRegex_eq, run_opt_iff]
  constructor
  · rintro (h | ⟨_, h⟩)
    · cases t with
      | nil => rw [chr_nil] at h; cases h
      | cons b u =>
        rw [chr_cons] at h
        split at h
        · rename_i hb
          subst hb
          obtain ⟨n0, ns, pre, meta, hn0, hlen, hns, hpre, hmeta, hs, hm⟩ :=
            (majorK_iff _ u [] m).mp h
          exact ⟨true, n0, ns, pre, meta, hn0, hlen, hns, hpre, hmeta, by rw [hs]; rfl, hm⟩
        · cases h
    · obtain ⟨n0, ns, pre, meta, hn0, hlen, hns, hpre, hmeta, hs, hm⟩ :=
        (majorK_iff t t [] m).mp h
      exact ⟨false, n0, ns, pre, meta, hn0, hlen, hns, hpre, hmeta, by
        rw [if_neg (by simp), List.nil_append]; exact hs, hm⟩
  · rintro ⟨v, n0, ns, pre, meta, hn0, hlen, hns, hpre, hmeta, ht, hm⟩
    cases v with
    | true =>
      left
      rw [if_pos rfl] at ht
      have e : t = 'v' :: (n0 ++ (dotsTail ns ++ (optText '-' pre ++ optText '+' meta))) := ht
      rw [e, chr_cons, if_pos rfl, ← e]
      exact (majorK_iff t _ [] m).mpr ⟨n0, ns, pre, meta, hn0, hlen, hns, hpre, hmeta, rfl, hm⟩
    | false =>
      right
      rw [if_neg (by simp), List.nil_append] at ht
      refine ⟨?_, (majorK_iff t t [] m).mpr
        ⟨n0, ns, pre, meta, hn0, hlen, hns, hpre, hmeta, ht, hm⟩⟩
      obtain ⟨hne, hd⟩ := hn0
      cases n0 with
      | nil => exact absurd rfl hne
      | cons d ds =>
        conv_lhs => rw [ht]
        rw [List.cons_append, chr_cons,
          if_neg (isDigit_ne_v (hd d (List.mem_cons_self _ _)))]

end semver

namespace semver
open GoRegexp GoStrconv GoStrings

theorem group_cons (e : Nat × List Char) (c : Caps) (n : Nat) :
    group (e :: c) n = if e.1 = n then e.2 else group c n := by
  unfold group
  by_cases h : e.1 = n
  · have hb : (e.1 == n) = true := by simpa using h
    rw [List.find?_cons_of_pos _ (by simpa using hb), if_pos h]
  · have hb : ¬ (e.1 == n) = true := by simpa using h
    rw [List.find?_cons_of_neg _ (by simpa using hb), if_neg h]

theorem group_append_of_keys (n : Nat) (c : Caps) : ∀ (l : Caps), (∀ e ∈ l, e.1 ≠ n) →
    group (l ++ c) n = group c n
  | [], _ => rfl
  | e :: l, h => by
    rw [List.cons_append, group_cons, if_neg (h e (List.mem_cons_self _ _)),
      group_append_of_keys n c l (fun x hx => h x (List.mem_cons_of_mem _ hx))]

theorem group_innerCaps (g n : Nat) (hne : g ≠ n) (ps : List (List Char)) (c : Caps) :
    group (innerCaps g ps ++ c) n = group c n := by
  apply group_append_of_keys
  intro e he
  unfold innerCaps at he
  rw [List.mem_reverse, List.mem_map] at he
  obtain ⟨p, _, rfl⟩ := he
  exact hne

theorem group_optCaps_other (g : Nat) (a : Char) (parts : List (List Char)) (c : Caps)
    (n : Nat) (h0 : g ≠ n) (h1 : g + 1 ≠ n) (h2 : g + 2 ≠ n) :
    group (optCaps g a parts c) n = group c n := by
  cases parts with
  | nil => rfl
  | cons p ps =>
    rw [optCaps, group_cons, if_neg h0, group_cons, if_neg h1, group_innerCaps _ _ h2]

theorem dots_nil : dots [] = [] := rfl

theorem group_optCaps_self (g : Nat) (a : Char) (parts : List (List Char)) (c : Caps)
    (hc : group c (g + 1) = []) :
    group (optCaps g a parts c) (g + 1) = dots parts := by
  cases parts with
  | nil => rw [optCaps, hc, dots_nil]
  | cons p ps =>
    rw [optCaps, group_cons, if_neg (by simp), group_cons, if_pos rfl]

theorem group_numCaps (n0 : List Char) (ns : List (List Char)) (hlen : ns.length ≤ 2) :
    group (numCaps 2 ns [(1, n0)]) 1 = n0 ∧
    group (numCaps 2 ns [(1, n0)]) 2 = dotNum ns.head? ∧
    group (numCaps 2 ns [(1, n0)]) 3 = dotNum ns.tail.head? ∧
    group (numCaps 2 ns [(1, n0)]) 5 = [] ∧ group (numCaps 2 ns [(1, n0)]) 8 = [] := by
  match ns, hlen with
  | [], _ => exact ⟨rfl, rfl, rfl, rfl, rfl⟩
  | [n1], _ => exact ⟨rfl, rfl, rfl, rfl, rfl⟩
  | [n1, n2], _ => exact ⟨rfl, rfl, rfl, rfl, rfl⟩
  | _ :: _ :: _ :: _, h => simp at h

/-- The groups that `NewVersion` reads, for the captures of a match. -/
theorem group_caps (n0 : List Char) (ns pre meta : List (List Char)) (hlen : ns.length ≤ 2) :
    group (optCaps 7 '+' meta (optCaps 4 '-' pre (numCaps 2 ns [(1, n0)]))) 1 = n0 ∧
    group (optCaps 7 '+' meta (optCaps 4 '-' pre (numCaps 2 ns [(1, n0)]))) 2
      = dotNum ns.head? ∧
    group (optCaps 7 '+' meta (optCaps 4 '-' pre (numCaps 2 ns [(1, n0)]))) 3
      = dotNum ns.tail.head? ∧
    group (optCaps 7 '+' meta (optCaps 4 '-' pre (numCaps 2 ns [(1, n0)]))) 5 = dots pre ∧
    group (optCaps 7 '+' meta (optCaps 4 '-' pre (numCaps 2 ns [(1, n0)]))) 8 = dots meta := by
  obtain ⟨h1, h2, h3, h5, h8⟩ := group_numCaps n0 ns hlen
  refine ⟨?_, ?_, ?_, ?_, ?_⟩
  · rw [group_optCaps_other 7 _ _ _ 1 (by decide) (by decide) (by decide),
      group_optCaps_other 4 _ _ _ 1 (by decide) (by decide) (by decide), h1]
  · rw [group_optCaps_other 7 _ _ _ 2 (by decide) (by decide) (by decide),
      group_optCaps_other 4 _ _ _ 2 (by decide) (by decide) (by decide), h2]
  · rw [group_optCaps_other 7 _ _ _ 3 (by decide) (by decide) (by decide),
      group_optCaps_other 4 _ _ _ 3 (by decide) (by decide) (by decide), h3]
  · rw [group_optCaps_other 7 _ _ _ 5 (by decide) (by decide) (by decide)]
    exact group_optCaps_self 4 _ _ _ h5
  · apply group_optCaps_self 7
    rw [group_optCaps_other 4 _ _ _ 8 (by decide) (by decide) (by decide), h8]

end semver

namespace semver
open GoRegexp GoStrconv GoStrings

theorem splitAux_dot_piece (rest : List Char) : ∀ (p cur : List Char), '.' ∉ p →
    splitAux ['.'] 0 (p ++ '.' :: rest) cur = (cur.reverse ++ p) :: splitAux ['.'] 0 rest []
  | [], cur, _ => by
    rw [List.nil_append, splitAux, if_pos (by simp [List.isPrefixOf])]
    simp
  | c :: cs, cur, h => by
    have hc : c ≠ '.' := fun e => h (by rw [e]; exact List.mem_cons_self _ _)
    have hp : List.isPrefixOf ['.'] (c :: (cs ++ '.' :: rest)) = false := by
      simp [List.isPrefixOf, Ne.symm hc]
    rw [List.cons_append, splitAux]
    simp only [hp, Bool.false_eq_true, if_false]
    rw [splitAux_dot_piece rest cs (c :: cur) (fun ht => h (List.mem_cons_of_mem _ ht))]
    simp

theorem not_dot_mem_of_isIdent {p : List Char} (hp : IsIdent p) : '.' ∉ p := by
  intro h
  have := hp.2 '.' h
  rw [isAllowed_dot] at this
  cases this

/-- Parts without a dot, joined by dots, are split again into the same parts. -/
theorem Split_dots : ∀ (p : List Char) (ps : List (List Char)), '.' ∉ p →
    (∀ q ∈ ps, '.' ∉ q) → Split (dots (p :: ps)) ['.'] = p :: ps
  | p, [], hp, _ => by
    rw [dots_cons, dotsTail, List.append_nil]
    exact Split_no_sep '.' [] p hp
  | p, q :: qs, hp, hps => by
    have ih := Split_dots q qs (hps q (List.mem_cons_self _ _))
      (fun r hr => hps r (List.mem_cons_of_mem _ hr))
    rw [dots_cons, dotsTail, ← dots_cons]
    unfold Split at ih ⊢
    rw [splitAux_dot_piece _ p [] hp, ih]
    rfl

theorem validatePrereleaseParts_of_valid : ∀ (ps : List (List Char)),
    (∀ p ∈ ps, IsIdent p ∧ validPart p) → validatePrereleaseParts ps = .ok ()
  | [], _ => rfl
  | p :: rest, h => by
    obtain ⟨hid, hv⟩ := h p (List.mem_cons_self _ _)
    have ih := validatePrereleaseParts_of_valid rest
      (fun q hq => h q (List.mem_cons_of_mem _ hq))
    have hne : p.isEmpty = false := by
      cases p with
      | nil => exact absurd rfl hid.1
      | cons a t => rfl
    have hal : p.all isAllowed = true := List.all_eq_true.mpr hid.2
    unfold validatePrereleaseParts
    rw [hne]
    simp only [Bool.false_eq_true, if_false]
    by_cases hd : p.all isDigit = true
    · rw [if_pos hd]
      have hz := hv.2 hd
      have hz2 : (decide (1 < p.length) && p.head? == some '0') = false := by
        cases h1 : decide (1 < p.length) with
        | false => rfl
        | true =>
          cases h2 : (p.head? == some '0') with
          | false => rfl
          | true =>
            exfalso
            exact hz ⟨by simpa using h1, by simpa using h2⟩
      rw [hz2]
      simpa using ih
    · rw [if_neg hd, hal]
      simpa using ih

theorem validateMetadataParts_of_idents : ∀ (ps : List (List Char)),
    (∀ p ∈ ps, IsIdent p) → validateMetadataParts ps = .ok ()
  | [], _ => rfl
  | p :: rest, h => by
    have hid := h p (List.mem_cons_self _ _)
    have ih := validateMetadataParts_of_idents rest
      (fun q hq => h q (List.mem_cons_of_mem _ hq))
    have hne : p.isEmpty = false := by
      cases p with
      | nil => exact absurd rfl hid.1
      | cons a t => rfl
    have hal : p.all isAllowed = true := List.all_eq_true.mpr hid.2
    unfold validateMetadataParts
    rw [hne, hal]
    simpa using ih

theorem dots_cons_ne_nil {p : List Char} (ps : List (List Char)) (hp : p ≠ []) :
    dots (p :: ps) ≠ [] := by
  rw [dots_cons]
  intro h
  exact hp (List.append_eq_nil.mp h).1

/-- The check of the prerelease in `NewVersion`, on parts joined by dots. -/
theorem validatePrerelease_dots (pre : List (List Char)) (hid : ∀ p ∈ pre, IsIdent p) :
    (if dots pre ≠ [] then validatePrerelease (dots pre) else .ok ())
      = validatePrereleaseParts pre := by
  cases pre with
  | nil => rfl
  | cons p ps =>
    have hp := hid p (List.mem_cons_self _ _)
    rw [if_pos (dots_cons_ne_nil ps hp.1)]
    unfold validatePrerelease
    rw [Split_dots p ps (not_dot_mem_of_isIdent hp)
      (fun q hq => not_dot_mem_of_isIdent (hid q (List.mem_cons_of_mem _ hq)))]

/-- The check of the build metadata in `NewVersion` never fails after the pattern
has matched. -/
theorem validateMetadata_dots (meta : List (List Char)) (hid : ∀ p ∈ meta, IsIdent p) :
    (if dots meta ≠ [] then validateMetadata (dots meta) else .ok ()) = .ok () := by
  cases meta with
  | nil => rfl
  | cons p ps =>
    have hp := hid p (List.mem_cons_self _ _)
    rw [if_pos (dots_cons_ne_nil ps hp.1)]
    unfold validateMetadata
    rw [Split_dots p ps (not_dot_mem_of_isIdent hp)
      (fun q hq => not_dot_mem_of_isIdent (hid q (List.mem_cons_of_mem _ hq)))]
    exact validateMetadataParts_of_idents _ hid

/-- A number segment of `NewVersion`: the value of a numeral that fits 64 bits, and
an error otherwise. -/
theorem parseSegment_numeral {n : List Char} (hn : IsNumeral n) :
    (decimal n < 2 ^ 64 → parseSegment n = .ok (decimal n)) ∧
    (¬ decimal n < 2 ^ 64 → ∃ e, parseSegment n = .error e) := by
  have hall : n.all isDigit = true := List.all_eq_true.mpr hn.2
  have hne : n.isEmpty = false := by
    cases n with
    | nil => exact absurd rfl hn.1
    | cons a t => rfl
  constructor
  · intro hfit
    unfold parseSegment
    rw [ParseUint_numeral hn hfit]
  · intro hfit
    unfold parseSegment ParseUint
    rw [hne]
    simp only [Bool.false_eq_true, if_false]
    rw [if_pos hall, if_neg hfit]
    exact ⟨_, rfl⟩

end semver

namespace semver
open GoRegexp GoStrconv GoStrings

theorem segValue_dotNum (o : Option (List Char)) :
    (if dotNum o ≠ [] then parseSegment ((dotNum o).drop 1) else .ok 0) = segValue o := by
  cases o with
  | none => rfl
  | some n => simp [dotNum, segValue]

/-- `NewVersion` on a text that the pattern matches, in terms of the pieces. -/
theorem NewVersion_pieces (t : List Char) (v : Bool) (n0 : List Char)
    (ns pre meta : List (List Char)) (hn0 : IsNumeral n0) (hlen : ns.length ≤ 2)
    (hns : ∀ n ∈ ns, IsNumeral n) (hpre : ∀ p ∈ pre, IsIdent p)
    (hmeta : ∀ p ∈ meta, IsIdent p)
    (ht : t = (if v then ['v'] else []) ++
      (n0 ++ (dotsTail ns ++ (optText '-' pre ++ optText '+' meta)))) :
    NewVersion t =
      match parseSegment n0 with
      | .error e => .error e
      | .ok major =>
        match segValue ns.head? with
        | .error e => .error e
        | .ok minor =>
          match segValue ns.tail.head? with
          | .error e => .error e
          | .ok patch =>
            match validatePrereleaseParts pre with
            | .error e => .error e
            | .ok _ =>
              .ok { major := major, minor := minor, patch := patch,
                    pre := String.mk (dots pre), metadata := String.mk (dots meta),
                    original := String.mk t } := by
  have hm := (matchAt_looseVersionRegex_iff t _).mpr
    ⟨v, n0, ns, pre, meta, hn0, hlen, hns, hpre, hmeta, ht, rfl⟩
  obtain ⟨g1, g2, g3, g5, g8⟩ := group_caps n0 ns pre meta hlen
  unfold NewVersion
  rw [hm]
  simp only []
  rw [g1, g2, g3, g5, g8, segValue_dotNum, segValue_dotNum, validatePrerelease_dots pre hpre,
    validateMetadata_dots meta hmeta]
  try rfl

/-- The numbers after the first, as the optional segments of `NewVersion`. -/
theorem segValue_of_fits (ns : List (List Char)) (hns : ∀ n ∈ ns, IsNumeral n)
    (hfit : ∀ n ∈ ns, decimal n < 2 ^ 64) :
    segValue ns.head? = .ok (decimal (ns.headD [])) ∧
    segValue ns.tail.head? = .ok (decimal (ns.tail.headD [])) := by
  match ns with
  | [] => exact ⟨rfl, rfl⟩
  | [n1] =>
    exact ⟨(parseSegment_numeral (hns n1 (by simp))).1 (hfit n1 (by simp)), rfl⟩
  | n1 :: n2 :: _ =>
    exact ⟨(parseSegment_numeral (hns n1 (by simp))).1 (hfit n1 (by simp)),
      (parseSegment_numeral (hns n2 (by simp))).1 (hfit n2 (by simp))⟩

theorem fits_of_segValue (ns : List (List Char)) (hlen : ns.length ≤ 2)
    (hns : ∀ n ∈ ns, IsNumeral n) {a b : Nat} (h1 : segValue ns.head? = .ok a)
    (h2 : segValue ns.tail.head? = .ok b) : ∀ n ∈ ns, decimal n < 2 ^ 64 := by
  have key : ∀ n, IsNumeral n → ∀ x, parseSegment n = .ok x → decimal n < 2 ^ 64 := by
    intro n hn x hx
    by_contra hfit
    obtain ⟨e, he⟩ := (parseSegment_numeral hn).2 hfit
    rw [he] at hx
    cases hx
  match ns, hlen with
  | [], _ => intro n hn; cases hn
  | [n1], _ =>
    intro n hn
    rw [List.mem_singleton.mp hn]
    exact key n1 (hns n1 (by simp)) a h1
  | [n1, n2], _ =>
    intro n hn
    rcases List.mem_cons.mp hn with e | e
    · rw [e]; exact key n1 (hns n1 (by simp)) a h1
    · rw [List.mem_singleton.mp e]; exact key n2 (hns n2 (by simp)) b h2
  | _ :: _ :: _ :: _, h => simp at h

end semver

namespace semver
open GoRegexp GoStrconv GoStrings

theorem render_eq (v : Bool) (n0 : List Char) (ns pre meta : List (List Char)) :
    LooseParts.render { hasV := v, nums := n0 :: ns, pre := pre, meta := meta } =
      (if v then ['v'] else []) ++
        (n0 ++ (dotsTail ns ++ (optText '-' pre ++ optText '+' meta))) := by
  unfold LooseParts.render
  simp only [dots_cons, List.append_assoc]

theorem version_eq (v : Bool) (n0 : List Char) (ns pre meta : List (List Char))
    (t : List Char) :
    LooseParts.version { hasV := v, nums := n0 :: ns, pre := pre, meta := meta } t =
      { major := decimal n0, minor := decimal (ns.headD []),
        patch := decimal (ns.tail.headD []), pre := String.mk (dots pre),
        metadata := String.mk (dots meta), original := String.mk t } := by
  unfold LooseParts.version
  match ns with
  | [] => rfl
  | [_] => rfl
  | _ :: _ :: _ => rfl

/-- `NewVersion` accepts a text just when it has the lenient form
`[v]major[.minor[.patch]][-prerelease][+buildmeta]` with valid parts, and the
version it returns is the one the parts denote. -/
theorem NewVersion_iff (t : List Char) (v : Version) :
    NewVersion t = .ok v ↔ ∃ x : LooseParts, x.Valid ∧ x.render = t ∧ v = x.version t := by
  constructor
  · intro h
    cases hm : matchAt looseVersionRegex t with
    | none =>
      unfold NewVersion at h
      rw [hm] at h
      cases h
    | some m =>
      obtain ⟨hasV, n0, ns, pre, meta, hn0, hlen, hns, hpre, hmeta, ht, _⟩ :=
        (matchAt_looseVersionRegex_iff t m).mp hm
      rw [NewVersion_pieces t hasV n0 ns pre meta hn0 hlen hns hpre hmeta ht] at h
      cases h0 : parseSegment n0 with
      | error e => rw [h0] at h; cases h
      | ok major =>
        rw [h0] at h
        simp only [] at h
        cases h1 : segValue ns.head? with
        | error e => rw [h1] at h; cases h
        | ok minor =>
          rw [h1] at h
          simp only [] at h
          cases h2 : segValue ns.tail.head? with
          | error e => rw [h2] at h; cases h
          | ok patch =>
            rw [h2] at h
            simp only [] at h
            cases h3 : validatePrereleaseParts pre with
            | error e => rw [h3] at h; cases h
            | ok u =>
              rw [h3] at h
              simp only [] at h
              have f0 : decimal n0 < 2 ^ 64 := by
                by_contra hfit
                obtain ⟨e, he⟩ := (parseSegment_numeral hn0).2 hfit
                rw [he] at h0
                cases h0
              have fns := fits_of_segValue ns hlen hns h1 h2
              have hvp := validatePrereleaseParts_ok pre h3
              have e0 := (parseSegment_numeral hn0).1 f0
              obtain ⟨e1, e2⟩ := segValue_of_fits ns hns fns
              rw [h0] at e0
              rw [h1] at e1
              rw [h2] at e2
              injection e0 with e0
              injection e1 with e1
              injection e2 with e2
              injection h with h
              refine ⟨{ hasV := hasV, nums := n0 :: ns, pre := pre, meta := meta },
                ⟨List.cons_ne_nil _ _, by simpa using hlen, ?_, ?_, hmeta⟩, ?_, ?_⟩
              · intro n hn
                rcases List.mem_cons.mp hn with e | e
                · rw [e]; exact ⟨hn0, f0⟩
                · exact ⟨hns n e, fns n e⟩
              · exact fun p hp => ⟨hpre p hp, hvp p hp⟩
              · rw [render_eq, ← ht]
              · rw [version_eq, ← h, e0, e1, e2]
  · rintro ⟨x, ⟨hne, hlen, hnums, hpre, hmeta⟩, hr, hv⟩
    obtain ⟨hasV, nums, pre, meta⟩ := x
    cases nums with
    | nil => exact absurd rfl hne
    | cons n0 ns =>
      simp only [] at hlen hnums hpre hmeta
      rw [render_eq] at hr
      rw [version_eq] at hv
      have hn0 := hnums n0 (List.mem_cons_self _ _)
      have hns : ∀ n ∈ ns, IsNumeral n := fun n hn => (hnums n (List.mem_cons_of_mem _ hn)).1
      have fns : ∀ n ∈ ns, decimal n < 2 ^ 64 :=
        fun n hn => (hnums n (List.mem_cons_of_mem _ hn)).2
      obtain ⟨e1, e2⟩ := segValue_of_fits ns hns fns
      rw [NewVersion_pieces t hasV n0 ns pre meta hn0.1 (by simpa using hlen) hns
        (fun p hp => (hpre p hp).1) hmeta hr.symm,
        (parseSegment_numeral hn0.1).1 hn0.2, e1, e2, validatePrereleaseParts_of_valid pre hpre,
        hv]

end semver

/-! ## `ParseVersion`: which strings are rejected -/

namespace resolver
open GoRegexp GoStrconv GoStrings semver

/-- The three ways of `ParseVersion`: the version of `NewVersion`; after an error,
the version or error of `NewVersion` for the leading major.minor[.patch]; the error
when there is no such leading part. -/
theorem ParseVersion_cases (raw : String) :
    (∀ v, NewVersion (TrimPrefix raw.data ['v']) = .ok v → ParseVersion raw = .ok v) ∧
    (∀ e, NewVersion (TrimPrefix raw.data ['v']) = .error e →
      leadingNumeric (TrimPrefix raw.data ['v']) ≠ [] →
      ParseVersion raw = NewVersion (leadingNumeric (TrimPrefix raw.data ['v']))) ∧
    (∀ e, NewVersion (TrimPrefix raw.data ['v']) = .error e →
      leadingNumeric (TrimPrefix raw.data ['v']) = [] → ParseVersion raw = .error e) := by
  refine ⟨?_, ?_, ?_⟩
  · intro v hv
    unfold ParseVersion
    simp only [hv]
  · intro e he hne
    unfold ParseVersion
    simp only [he, FindString_numericRe]
    rw [if_pos hne]
  · intro e he hnil
    unfold ParseVersion
    simp only [he, FindString_numericRe]
    rw [if_neg (by simpa using hnil)]

theorem mem_dots_singleton (n : List Char) : dots [n] = n := by
  simp [dots, List.intercalate]

/-- The characters of a text of the form major.minor[.patch]. -/
theorem mem_numericForm {s : List Char} (h : IsNumericForm s) :
    (∀ c ∈ s, isDigit c = true ∨ c = '.') ∧ '.' ∈ s := by
  obtain ⟨M, m, hM, hm, hs | ⟨p, hp, hs⟩⟩ := h
  · subst hs
    refine ⟨?_, by simp⟩
    intro c hc
    simp only [List.mem_append, List.mem_cons] at hc
    rcases hc with hc | hc | hc
    · exact Or.inl (hM.2 c hc)
    · exact Or.inr hc
    · exact Or.inl (hm.2 c hc)
  · subst hs
    refine ⟨?_, by simp⟩
    intro c hc
    simp only [List.mem_append, List.mem_cons] at hc
    rcases hc with hc | hc | hc | hc | hc
    · exact Or.inl (hM.2 c hc)
    · exact Or.inr hc
    · exact Or.inl (hm.2 c hc)
    · exact Or.inr hc
    · exact Or.inl (hp.2 c hc)

theorem mem_optText (a : Char) (p : List Char) (ps : List (List Char)) :
    a ∈ optText a (p :: ps) := by
  simp [optText]

/-- A text of the form major.minor[.patch] that has the lenient form has no `v`, no
prerelease and no build metadata, and at least two numbers. -/
theorem numeric_of_render {x : LooseParts} {s : List Char} (hx : x.Valid)
    (hr : x.render = s) (hs : IsNumericForm s) :
    IsNumericVersion x.nums s ∧ x.version s = releaseOf x.nums s := by
  obtain ⟨hchars, hdot⟩ := mem_numericForm hs
  obtain ⟨hasV, nums, pre, meta⟩ := x
  obtain ⟨hne, hlen, hnums, hpre, hmeta⟩ := hx
  simp only [] at hne hlen hnums hpre hmeta
  unfold LooseParts.render at hr
  simp only [] at hr
  have hv : hasV = false := by
    cases hasV with
    | false => rfl
    | true =>
      exfalso
      have : 'v' ∈ s := by rw [← hr]; simp
      rcases hchars _ this with h | h
      · exact absurd h (by decide)
      · exact absurd h (by decide)
  have hp : pre = [] := by
    cases pre with
    | nil => rfl
    | cons p ps =>
      exfalso
      have : '-' ∈ s := by
        rw [← hr]
        simp only [List.mem_append]
        exact Or.inr (Or.inr (Or.inl (mem_optText '-' p ps)))
      rcases hchars _ this with h | h
      · exact absurd h (by decide)
      · exact absurd h (by decide)
  have hm : meta = [] := by
    cases meta with
    | nil => rfl
    | cons p ps =>
      exfalso
      have : '+' ∈ s := by
        rw [← hr]
        simp only [List.mem_append]
        exact Or.inr (Or.inr (Or.inr (mem_optText '+' p ps)))
      rcases hchars _ this with h | h
      · exact absurd h (by decide)
      · exact absurd h (by decide)
  subst hv hp hm
  have hd : dots nums = s := by
    rw [← hr]
    simp [optText]
  refine ⟨⟨?_, hlen, hnums, hd.symm⟩, rfl⟩
  match nums, hne with
  | [n0], _ =>
    exfalso
    rw [mem_dots_singleton] at hd
    rw [← hd] at hdot
    have := (hnums n0 (List.mem_singleton.mpr rfl)).1.2 '.' hdot
    exact absurd this (by decide)
  | _ :: _ :: _, _ => simp

/-- A version of two or three numbers has the lenient form. -/
theorem render_of_numeric {nums : List (List Char)} {s : List Char}
    (h : IsNumericVersion nums s) :
    LooseParts.Valid { hasV := false, nums := nums, pre := [], meta := [] } ∧
    LooseParts.render { hasV := false, nums := nums, pre := [], meta := [] } = s := by
  obtain ⟨h2, h3, hn, hs⟩ := h
  refine ⟨⟨?_, h3, hn, fun _ hp => absurd hp (List.not_mem_nil _),
    fun _ hp => absurd hp (List.not_mem_nil _)⟩, ?_⟩
  · intro e
    simp only [] at e
    rw [e] at h2
    simp at h2
  · rw [hs]
    simp [LooseParts.render, optText]

/-- A text of two or three numbers is not empty. -/
theorem numericVersion_ne_nil {nums : List (List Char)} {s : List Char}
    (h : IsNumericVersion nums s) : s ≠ [] := by
  obtain ⟨h2, _, hn, hs⟩ := h
  match nums, h2, hn with
  | n0 :: n1 :: ns, _, hn =>
    have h0 : n0 ≠ [] := (hn n0 (List.mem_cons_self _ _)).1.1
    intro e
    rw [hs, dots_cons] at e
    exact h0 (List.append_eq_nil.mp e).1

/-- A text that `NewVersion` rejects has not the lenient form, and conversely. -/
theorem NewVersion_error_iff (t : List Char) :
    (∃ e, NewVersion t = .error e) ↔ ¬ ∃ x : LooseParts, x.Valid ∧ x.render = t := by
  constructor
  · rintro ⟨e, he⟩ ⟨x, hx, hr⟩
    have := (NewVersion_iff t (x.version t)).mpr ⟨x, hx, hr, rfl⟩
    rw [this] at he
    cases he
  · intro h
    cases h1 : NewVersion t with
    | error e => exact ⟨e, rfl⟩
    | ok v =>
      obtain ⟨x, hx, hr, _⟩ := (NewVersion_iff t v).mp h1
      exact absurd ⟨x, hx, hr⟩ h

set_option maxRecDepth 100000 in
/-- C7, amended: write t for `raw` after the removal of one leading `v`.  The
lenient form is [v]major[.minor[.patch]][-prerelease][+buildmeta]: an optional
`v`, one to three numbers (non-empty runs of digits) whose values fit 64 bits,
an optional prerelease (parts separated by dots, each a non-empty run of letters,
digits and hyphens, none a run of digits with a leading zero) and optional build
metadata (parts separated by dots, each a non-empty run of letters, digits and
hyphens); `LooseParts` are the pieces, `Valid` the conditions, `render` the text.
`ParseVersion` fails exactly when t has not the lenient form and the longest
leading part of t of the form major.minor[.patch], `leadingNumeric`, is missing
or has a number that does not fit 64 bits.  When t has the lenient form, the
result is the version with these numbers (a missing one is 0), prerelease and
build metadata; otherwise, in the fallback case, it is the release with the
numbers of that leading part.  That part has the form major.minor[.patch] and
begins t, and no leading part of that form is longer.
So `not-a-version` is rejected, whereas `5` and `vv1.2.3` are accepted. -/
theorem ParseVersion_fails_iff (raw : String) :
    ((∃ e, ParseVersion raw = .error e) ↔
      ((¬ ∃ x : LooseParts, x.Valid ∧ x.render = TrimPrefix raw.data ['v']) ∧
        ¬ ∃ nums, IsNumericVersion nums (leadingNumeric (TrimPrefix raw.data ['v'])))) ∧
    (∀ x : LooseParts, x.Valid → x.render = TrimPrefix raw.data ['v'] →
      ParseVersion raw = .ok (x.version (TrimPrefix raw.data ['v']))) ∧
    ((¬ ∃ x : LooseParts, x.Valid ∧ x.render = TrimPrefix raw.data ['v']) →
      ∀ nums, IsNumericVersion nums (leadingNumeric (TrimPrefix raw.data ['v'])) →
        ParseVersion raw =
          .ok (releaseOf nums (leadingNumeric (TrimPrefix raw.data ['v'])))) ∧
    (leadingNumeric (TrimPrefix raw.data ['v']) ≠ [] →
      IsNumericForm (leadingNumeric (TrimPrefix raw.data ['v'])) ∧
      leadingNumeric (TrimPrefix raw.data ['v']) <+: TrimPrefix raw.data ['v']) ∧
    (∀ t, IsNumericForm t → t <+: TrimPrefix raw.data ['v'] →
      t.length ≤ (leadingNumeric (TrimPrefix raw.data ['v'])).length) ∧
    ParseVersion "not-a-version" = .error .ErrInvalidSemVer ∧
    ParseVersion "5" =
      .ok { major := 5, minor := 0, patch := 0, pre := "", metadata := "", original := "5" } ∧
    ParseVersion "vv1.2.3" =
      .ok { major := 1, minor := 2, patch := 3, pre := "", metadata := "",
            original := "v1.2.3" } := by
  obtain ⟨hok, hfb, hno⟩ := ParseVersion_cases raw
  have hlen : ∀ x : LooseParts, x.Valid → x.render = TrimPrefix raw.data ['v'] →
      ParseVersion raw = .ok (x.version (TrimPrefix raw.data ['v'])) := fun x hx hr =>
    hok _ ((NewVersion_iff _ _).mpr ⟨x, hx, hr, rfl⟩)
  have hnum : (¬ ∃ x : LooseParts, x.Valid ∧ x.render = TrimPrefix raw.data ['v']) →
      ∀ nums, IsNumericVersion nums (leadingNumeric (TrimPrefix raw.data ['v'])) →
        ParseVersion raw =
          .ok (releaseOf nums (leadingNumeric (TrimPrefix raw.data ['v']))) := by
    intro hnl nums hn
    obtain ⟨e, he⟩ := (NewVersion_error_iff _).mpr hnl
    rw [hfb e he (numericVersion_ne_nil hn)]
    obtain ⟨hv, hr⟩ := render_of_numeric hn
    exact (NewVersion_iff _ _).mpr ⟨_, hv, hr, rfl⟩
  refine ⟨⟨?_, ?_⟩, hlen, hnum, leadingNumeric_form _,
    fun t ht hp => leadingNumeric_longest _ t ht hp, by decide, by decide, by decide⟩
  · rintro ⟨e, he⟩
    have hnl : ¬ ∃ x : LooseParts, x.Valid ∧ x.render = TrimPrefix raw.data ['v'] := by
      rintro ⟨x, hx, hr⟩
      rw [hlen x hx hr] at he
      cases he
    refine ⟨hnl, ?_⟩
    rintro ⟨nums, hn⟩
    rw [hnum hnl nums hn] at he
    cases he
  · rintro ⟨hnl, hnn⟩
    obtain ⟨e1, h1⟩ := (NewVersion_error_iff _).mpr hnl
    by_cases hnil : leadingNumeric (TrimPrefix raw.data ['v']) = []
    · exact ⟨e1, hno e1 h1 hnil⟩
    · rw [hfb e1 h1 hnil]
      refine (NewVersion_error_iff _).mpr ?_
      rintro ⟨x, hx, hr⟩
      exact hnn ⟨x.nums, (numeric_of_render hx hr (leadingNumeric_form _ hnil).1).1⟩

set_option maxRecDepth 100000 in
theorem ParseVersion_fails_iff_witness :
    (LooseParts.Valid { hasV := false, nums := ["5".data], pre := [], meta := [] } ∧
      LooseParts.render { hasV := false, nums := ["5".data], pre := [], meta := [] } =
        TrimPrefix "5".data ['v'] ∧
      ParseVersion "5" =
        .ok { major := 5, minor := 0, patch := 0, pre := "", metadata := "", original := "5" }) ∧
    ((¬ ∃ x : LooseParts, x.Valid ∧ x.render = TrimPrefix "v1.2.3.4-beta".data ['v']) ∧
      IsNumericVersion ["1".data, "2".data, "3".data]
        (leadingNumeric (TrimPrefix "v1.2.3.4-beta".data ['v'])) ∧
      ParseVersion "v1.2.3.4-beta" =
        .ok { major := 1, minor := 2, patch := 3, pre := "", metadata := "",
              original := "1.2.3" }) ∧
    ((¬ ∃ x : LooseParts, x.Valid ∧ x.render = TrimPrefix "not-a-version".data ['v']) ∧
      (¬ ∃ nums, IsNumericVersion nums (leadingNumeric (TrimPrefix "not-a-version".data ['v']))) ∧
      ∃ e, ParseVersion "not-a-version" = .error e) :=
  have h5 : LooseParts.Valid { hasV := false, nums := ["5".data], pre := [], meta := [] } :=
    ⟨by decide, by decide, by simp [IsNumeral, decimal]; decide, by simp, by simp⟩
  have hb : ¬ ∃ x : LooseParts, x.Valid ∧ x.render = TrimPrefix "v1.2.3.4-beta".data ['v'] :=
    (NewVersion_error_iff _).mp ⟨.ErrInvalidSemVer, by decide⟩
  have h123 : IsNumericVersion ["1".data, "2".data, "3".data]
      (leadingNumeric (TrimPrefix "v1.2.3.4-beta".data ['v'])) :=
    ⟨by decide, by decide, by simp [IsNumeral, decimal]; decide, by decide⟩
  have hn : ¬ ∃ x : LooseParts, x.Valid ∧ x.render = TrimPrefix "not-a-version".data ['v'] :=
    (NewVersion_error_iff _).mp ⟨.ErrInvalidSemVer, by decide⟩
  have hnn : ¬ ∃ nums,
      IsNumericVersion nums (leadingNumeric (TrimPrefix "not-a-version".data ['v'])) :=
    fun ⟨_, h⟩ => numericVersion_ne_nil h (by decide)
  ⟨⟨h5, by decide, (ParseVersion_fails_iff "5").2.1 _ h5 (by decide)⟩,
   ⟨hb, h123, (ParseVersion_fails_iff "v1.2.3.4-beta").2.2.1 hb _ h123⟩,
   ⟨hn, hnn, (ParseVersion_fails_iff "not-a-version").1.mpr ⟨hn, hnn⟩⟩⟩

end resolver

/-! ## Candidates with a prerelease -/

namespace resolver
open GoRegexp GoStrconv GoStrings semver

/-- The version of a text of the lenient form with a prerelease has a prerelease. -/
theorem version_pre_ne {x : LooseParts} (hx : x.Valid) (hp : x.pre ≠ []) (t : List Char) :
    (x.version t).pre ≠ "" := by
  obtain ⟨_, _, _, hpre, _⟩ := hx
  match hx : x.pre, hp with
  | p :: ps, _ =>
    have hne : p ≠ [] := (hpre p (by rw [hx]; exact List.mem_cons_self _ _)).1.1
    have hd := dots_cons_ne_nil ps hne
    intro e
    unfold LooseParts.version at e
    simp only [] at e
    rw [hx] at e
    exact hd (congrArg String.data e)

/-- The candidates that `FilterVersions` returns parse and satisfy the constraint. -/
theorem FilterVersions_satisfies {S : GoSort.Slice} {candidates out : List String}
    {constraint : String} {c : Constraints} (hc : ParseConstraint constraint = .ok (some c))
    (hout : FilterVersions S candidates constraint = .ok out) {cand : String}
    (hcand : cand ∈ out) : cand ∈ candidates ∧ satisfies c cand = true := by
  obtain ⟨out1, h1, hperm⟩ := FilterVersions_perm S candidates hc
  rw [h1] at hout
  injection hout with hout
  subst hout
  exact List.mem_filter.mp (hperm.mem_iff.mp hcand)

set_option maxRecDepth 100000 in
/-- C3, as stated, fails: the candidates `3.4.0-rc.01`, `3.4.1-SNAPSHOT_1` and
`3.4.0.1-beta` carry a prerelease and the one bound of `~3.4`, the version 3.4.0,
carries none; yet `FilterVersions` returns them for `~3.4`, the second before
`3.4.0`.  The version parser rejects the three texts (a numeric part with a leading
zero, an underscore, four numbers), and `ParseVersion` then reads the leading
major.minor.patch alone, the releases 3.4.0 and 3.4.1. -/
theorem prerelease_counterexample :
    ParseConstraint "~3.4" = .ok (some tilde34) ∧
    (∀ g ∈ tilde34.constraints, ∀ k ∈ g, k.con.pre = "") ∧
    FilterVersions GoSort.insertion ["3.4.0-rc.01"] "~3.4" = .ok ["3.4.0-rc.01"] ∧
    FilterVersions GoSort.insertion ["3.4.0", "3.4.1-SNAPSHOT_1"] "~3.4" =
      .ok ["3.4.1-SNAPSHOT_1", "3.4.0"] ∧
    FilterVersions GoSort.insertion ["3.4.0.1-beta"] "~3.4" = .ok ["3.4.0.1-beta"] ∧
    ParseVersion "3.4.0-rc.01" =
      .ok { major := 3, minor := 4, patch := 0, pre := "", metadata := "",
            original := "3.4.0" } ∧
    ParseVersion "3.4.1-SNAPSHOT_1" =
      .ok { major := 3, minor := 4, patch := 1, pre := "", metadata := "",
            original := "3.4.1" } := by
  decide

/-- C3, amended: the constraint `~3.4` does not match the candidate
`3.4.0-SNAPSHOT`, the constraint `~3.4.0-0` does.  More generally, take a candidate
that, after the removal of one leading `v`, has the lenient form
[v]major[.minor[.patch]]-prerelease[+buildmeta] of a version with a prerelease (one
to three numbers that fit 64 bits; the prerelease and the build metadata are parts
separated by dots, each a non-empty run of letters, digits and hyphens, and no part
of the prerelease is a run of digits with a leading zero).  `ParseVersion` reads it
as the version with these numbers and this prerelease, and when `FilterVersions`
returns it for a constraint, then in a group of comparators that this version
satisfies the bound of some comparator has a prerelease itself (a marker such as
`-0`). -/
theorem prerelease_inclusion (S : GoSort.Slice) :
    FilterVersions S ["3.4.0-SNAPSHOT"] "~3.4" = .ok [] ∧
    FilterVersions S ["3.4.0-SNAPSHOT"] "~3.4.0-0" = .ok ["3.4.0-SNAPSHOT"] ∧
    (∀ (candidates : List String) (constraint : String) (c : Constraints)
        (out : List String) (cand : String) (x : LooseParts),
      ParseConstraint constraint = .ok (some c) →
      FilterVersions S candidates constraint = .ok out → cand ∈ out →
      x.Valid → x.render = TrimPrefix cand.data ['v'] → x.pre ≠ [] →
      ParseVersion cand = .ok (x.version (TrimPrefix cand.data ['v'])) ∧
      ∃ g ∈ c.constraints,
        (∀ k ∈ g, k.check (x.version (TrimPrefix cand.data ['v'])) true = true) ∧
        ∃ k ∈ g, k.con.pre ≠ "") := by
  refine ⟨?_, ?_, ?_⟩
  · rw [FilterVersions_eq S _ ParseConstraint_tilde34]
    have h : matchedPairs tilde34 ["3.4.0-SNAPSHOT"] = [] := by decide
    rw [h, GoSort.sort_nil]
    rfl
  · rw [FilterVersions_eq S _ ParseConstraint_tilde340pre]
    have h : matchedPairs tilde340pre ["3.4.0-SNAPSHOT"] =
        [{ original := "3.4.0-SNAPSHOT", parsed := snapshot340 }] := by decide
    rw [h, GoSort.sort_singleton]
    rfl
  · intro candidates constraint c out cand x hc hout hcand hx hr hp
    have hparse : ParseVersion cand = .ok (x.version (TrimPrefix cand.data ['v'])) :=
      (ParseVersion_cases cand).1 _ ((NewVersion_iff _ _).mpr ⟨x, hx, hr, rfl⟩)
    refine ⟨hparse, ?_⟩
    have hsat := (FilterVersions_satisfies hc hout hcand).2
    unfold satisfies at hsat
    rw [hparse] at hsat
    exact Check_prerelease hc (version_pre_ne hx hp _) hsat

set_option maxRecDepth 100000 in
theorem prerelease_inclusion_witness :
    ParseConstraint "~3.4.0-0" = .ok (some tilde340pre) ∧
    FilterVersions GoSort.insertion ["3.4.0-SNAPSHOT", "3.5.0"] "~3.4.0-0" =
      .ok ["3.4.0-SNAPSHOT"] ∧
    LooseParts.Valid { hasV := false, nums := ["3".data, "4".data, "0".data],
                       pre := ["SNAPSHOT".data], meta := [] } ∧
    LooseParts.render { hasV := false, nums := ["3".data, "4".data, "0".data],
                        pre := ["SNAPSHOT".data], meta := [] } =
      TrimPrefix "3.4.0-SNAPSHOT".data ['v'] ∧
    ParseVersion "3.4.0-SNAPSHOT" = .ok snapshot340 ∧
    ∃ g ∈ tilde340pre.constraints, (∀ k ∈ g, k.check snapshot340 true = true) ∧
      ∃ k ∈ g, k.con.pre ≠ "" :=
  have hv : LooseParts.Valid
      { hasV := false, nums := ["3".data, "4".data, "0".data], pre := ["SNAPSHOT".data],
        meta := [] } :=
    ⟨by decide, by decide, by simp [IsNumeral, decimal]; decide,
      by simp [IsIdent, validPart]; decide, by simp⟩
  have h := (prerelease_inclusion GoSort.insertion).2.2
    ["3.4.0-SNAPSHOT", "3.5.0"] "~3.4.0-0" tilde340pre ["3.4.0-SNAPSHOT"] "3.4.0-SNAPSHOT"
    { hasV := false, nums := ["3".data, "4".data, "0".data], pre := ["SNAPSHOT".data],
      meta := [] }
    ParseConstraint_tilde340pre (by decide) (by decide) hv (by decide) (by decide)
  ⟨ParseConstraint_tilde340pre, by decide, hv, by decide, h.1, h.2⟩

end resolver
